import Mathlib

/-!
# reggen: generating text from a parsed regular expression

A shallow embedding of `reggen.go` (package `reggen`) and theorems about it.

Modelling conventions.

* A Go `string` built by this package is always a concatenation of UTF-8 encodings of single
  code points, so it is represented by the list of those code points (`Str`).
* `*syntax.Regexp` values are trees (`Regexp`).  `generate` writes the field `Max` of the
  `OpRepeat` nodes it visits, so the embedding returns the tree as it is left behind together
  with the produced string.
* `*rand.Rand` is a stream of raw draws (`Rand`); `Intn n` panics for `n ≤ 0`, otherwise it
  returns the head of the stream reduced into `[0, n)` and moves on to the tail.
* A Go run-time panic is the result `Fault.panic`.  The recursion of `generate` is on the
  children of a node; the embedding recurses on an explicit depth budget, which `Generate`
  sets to the depth of the tree (`Fault.fuel` reports an insufficient budget).
* Go `int` is taken as 64 bits wide and `rune` is `int32`; values are mathematical integers
  and every addition and subtraction of the source is followed by the wrap of its type
  (`wrap64`, `wrap32`).  The cap `int(math.Min(float64(re.Max), float64(s.limit)))` goes
  through the rounding of `float64` (`capMax`).
-/

namespace Reggen

/-- Go strings, as the sequence of the code points they encode. -/
abbrev Str := List Nat

/-- Ways in which a run of the embedding stops without a value. -/
inductive Fault where
  | panic
  | fuel
  deriving DecidableEq, Repr

/-- Result of a computation that may panic. -/
abbrev Res (α : Type) := Except Fault α

/-- Node kinds of `regexp/syntax`; `OpUnknown` stands for every other value of the byte. -/
inductive Op where
  | OpNoMatch
  | OpEmptyMatch
  | OpLiteral
  | OpCharClass
  | OpAnyCharNotNL
  | OpAnyChar
  | OpBeginLine
  | OpEndLine
  | OpBeginText
  | OpEndText
  | OpWordBoundary
  | OpNoWordBoundary
  | OpCapture
  | OpStar
  | OpPlus
  | OpQuest
  | OpRepeat
  | OpConcat
  | OpAlternate
  | OpUnknown (code : Nat)
  deriving DecidableEq, Repr

/-- The fields of `syntax.Regexp` that `generate` reads or writes.  `Sub0` is the one-slot
backing array (`Sub0[0]`, `none` for a nil pointer), read at `OpCapture` nodes only. -/
inductive Regexp where
  | mk (Op : Op) (Rune : List Int) (Sub : List Regexp) (Sub0 : Option Regexp)
      (Min : Int) (Max : Int) : Regexp

/-- Field `re.Op`. -/
def Regexp.Op : Regexp → Reggen.Op
  | .mk o _ _ _ _ _ => o

/-- Field `re.Rune`. -/
def Regexp.Rune : Regexp → List Int
  | .mk _ r _ _ _ _ => r

/-- Field `re.Sub`. -/
def Regexp.Sub : Regexp → List Regexp
  | .mk _ _ s _ _ _ => s

/-- Field `re.Sub0[0]`. -/
def Regexp.Sub0 : Regexp → Option Regexp
  | .mk _ _ _ s0 _ _ => s0

/-- Field `re.Min`. -/
def Regexp.Min : Regexp → Int
  | .mk _ _ _ _ mn _ => mn

/-- Field `re.Max`. -/
def Regexp.Max : Regexp → Int
  | .mk _ _ _ _ _ mx => mx

/-- Assignment `re.Max = m`. -/
def Regexp.setMax : Regexp → Int → Regexp
  | .mk o r s s0 mn _, m => .mk o r s s0 mn m

/-- The node with its children replaced by the children as they are left behind. -/
def Regexp.setSub : Regexp → List Regexp → Regexp
  | .mk o r _ s0 mn mx, s => .mk o r s s0 mn mx

/-- The node with the node behind `Sub0[0]` replaced by that node as it is left behind. -/
def Regexp.setSub0 : Regexp → Option Regexp → Regexp
  | .mk o r s _ mn mx, s0 => .mk o r s s0 mn mx

mutual
/-- Number of levels of a tree (a leaf has depth 1). -/
def Regexp.depth : Regexp → Nat
  | .mk _ _ sub sub0 _ _ => 1 + max (depthList sub) (depthOpt sub0)
/-- Largest depth in a list of trees. -/
def depthList : List Regexp → Nat
  | [] => 0
  | r :: rs => max r.depth (depthList rs)
/-- Depth of an optional tree. -/
def depthOpt : Option Regexp → Nat
  | none => 0
  | some r => r.depth
end

/-- The stream of raw values of a `*rand.Rand`. -/
abbrev Rand := Nat → Nat

/-- The stream after one draw. -/
def Rand.tail (rand : Rand) : Rand := fun i => rand (i + 1)

/-- Call `rand.Intn(n)`: panics when `n ≤ 0`, else a value in `[0, n)` and the advanced
stream. -/
def Rand.Intn (rand : Rand) (n : Int) : Res (Int × Rand) :=
  if n ≤ 0 then .error .panic else .ok ((rand 0 : Int) % n, rand.tail)

/-- Constant `runeRangeEnd`. -/
def runeRangeEnd : Int := 0x10ffff

/-- Constant `printableChars` (bytes of the literal; the quote, back-quote and braces are
written as escapes). -/
def printableChars : List Nat :=
  ("0123456789abcdefghijklmnopqrstuvwxyzABCDEFGHIJKLMNOPQRSTUVWXYZ" ++
   "!\"#$%&\x27()*+,-./:;<=>?@[\\]^_\x60\x7b|\x7d~ \t\n\r").toList.map Char.toNat

/-- Variable `printableCharsNoNL = printableChars[:len(printableChars)-2]`. -/
def printableCharsNoNL : List Nat := printableChars.take (printableChars.length - 2)

/-- Type `state`; `limit` is a Go `int`, a value in `[-2^63, 2^63)`. -/
structure state where
  limit : Int

/-- Value of a Go `int` (64 bits, two's complement) holding the integer `x` after wrap. -/
def wrap64 (x : Int) : Int := (x + 9223372036854775808) % 18446744073709551616 - 9223372036854775808

/-- Value of a Go `int32` (the type `rune`) holding the integer `x` after wrap. -/
def wrap32 (x : Int) : Int := (x + 2147483648) % 4294967296 - 2147483648

/-- Nearest multiple of `2 ^ e` to `n`, a tie going to the even quotient. -/
def roundEven (e n : Nat) : Nat :=
  if 2 * (n % 2 ^ e) > 2 ^ e ∨ (2 * (n % 2 ^ e) = 2 ^ e ∧ (n / 2 ^ e) % 2 = 1) then
    (n / 2 ^ e + 1) * 2 ^ e
  else n / 2 ^ e * 2 ^ e

/-- Number of low bits of `n` that do not fit a significand of 53 bits (`b` bounds the
search). -/
def dropBits : Nat → Nat → Nat
  | 0, _ => 0
  | b + 1, n => if n < 9007199254740992 then 0 else dropBits b (n / 2) + 1

/-- Conversion `float64(n)` of a natural number: `n` rounded to 53 significant bits, to
nearest, ties to even. -/
def float64Nat (n : Nat) : Nat :=
  if n < 9007199254740992 then n else roundEven (dropBits n n) n

/-- Conversion `float64(x)` of an integer, as the integer value of the result. -/
def float64 (x : Int) : Int :=
  if 0 ≤ x then (float64Nat x.toNat : Int) else -(float64Nat (-x).toNat : Int)

/-- Conversion `int(f)` of an integral `float64` value: the value itself when it fits 64
bits; otherwise the result is left to the implementation, and is `-2^63` on amd64. -/
def intOfFloat (f : Int) : Int :=
  if -9223372036854775808 ≤ f ∧ f < 9223372036854775808 then f else -9223372036854775808

/-- Expression `int(math.Min(float64(mx), float64(limit)))`. -/
def capMax (mx limit : Int) : Int := intOfFloat (min (float64 mx) (float64 limit))

/-- Conversion `string(r)` of a rune: the code point itself when it is a Unicode scalar
value, U+FFFD otherwise. -/
def stringOfRune (r : Int) : Str :=
  if 0 ≤ r ∧ r ≤ 0x10ffff ∧ ¬ (0xd800 ≤ r ∧ r ≤ 0xdfff) then [r.toNat] else [0xfffd]

/-- Loop of `OpLiteral`: `res += string(r)` for each rune. -/
def literalString : List Int → Str
  | [] => []
  | r :: rs => stringOfRune r ++ literalString rs

/-- Indexing `xs[i]` with the bounds check of the run time. -/
def index {α : Type} (xs : List α) (i : Int) : Res α :=
  if i < 0 then .error .panic
  else match xs.get? i.toNat with
    | some x => .ok x
    | none => .error .panic

/-- First loop of `OpCharClass`: the number of code points of the ranges, or `-1` as soon
as a range ends at `runeRangeEnd`; reading `Rune[i+1]` past the end panics.  The step is
`sum += int(re.Rune[i+1]-re.Rune[i]) + 1`, with the subtraction on `int32`. -/
def classSum : List Int → Int → Res Int
  | [], sum => .ok sum
  | [_], _ => .error .panic
  | lo :: hi :: rest, sum =>
    if hi = runeRangeEnd then .ok (-1)
    else classSum rest (wrap64 (sum + (wrap32 (hi - lo) + 1)))

/-- Inner loop of the unbounded branch: is the byte `c` inside one of the ranges.  The test
`rune(c) >= Rune[i] && rune(c) <= Rune[i+1]` reads `Rune[i+1]` only when its first half
holds. -/
def inRanges (c : Int) : List Int → Res Bool
  | [] => .ok false
  | [lo] => if c ≥ lo then .error .panic else .ok false
  | lo :: hi :: rest => if c ≥ lo ∧ c ≤ hi then .ok true else inRanges c rest

/-- Outer loop of the unbounded branch: the bytes of `chars` that are inside a range. -/
def possibleChars (runes : List Int) : List Nat → Res (List Nat)
  | [] => .ok []
  | c :: cs =>
    match inRanges (c : Int) runes with
    | .error e => .error e
    | .ok b =>
      match possibleChars runes cs with
      | .error e => .error e
      | .ok rest => .ok (if b then c :: rest else rest)

/-- Second loop of `OpCharClass`: the rune at index `r` of the ranges laid end to end; `ru`
keeps its zero value when no range owns the index.  The steps are
`gap := int(re.Rune[i+1]-re.Rune[i]) + 1`, `sum+gap > r`, `ru = re.Rune[i] + rune(r-sum)`
and `sum += gap`. -/
def pickRune (r : Int) : List Int → Int → Res Int
  | [], _ => .ok 0
  | [_], _ => .error .panic
  | lo :: hi :: rest, sum =>
    if wrap64 (sum + (wrap32 (hi - lo) + 1)) > r then
      .ok (wrap32 (lo + wrap32 (wrap64 (r - sum))))
    else pickRune r rest (wrap64 (sum + (wrap32 (hi - lo) + 1)))

/-- Tail of `OpCharClass` from `r := rand.Intn(sum)` on. -/
def pickFromSum (runes : List Int) (sum : Int) (rand : Rand) : Res (Str × Rand) :=
  match rand.Intn sum with
  | .error e => .error e
  | .ok (r, rand1) =>
    match pickRune r runes 0 with
    | .error e => .error e
    | .ok ru => .ok (stringOfRune ru, rand1)

/-- Case `OpCharClass`. -/
def genCharClass (runes : List Int) (rand : Rand) : Res (Str × Rand) :=
  match classSum runes 0 with
  | .error e => .error e
  | .ok sum =>
    if sum = -1 then
      match possibleChars runes printableChars with
      | .error e => .error e
      | .ok possible =>
        if possible.length > 0 then
          match rand.Intn possible.length with
          | .error e => .error e
          | .ok (i, rand1) =>
            match index possible i with
            | .error e => .error e
            | .ok c => .ok ([c], rand1)
        else pickFromSum runes sum rand
    else pickFromSum runes sum rand

/-- Cases `OpAnyCharNotNL`, `OpAnyChar`: `chars[rand.Intn(len(chars))]`. -/
def genAnyChar (chars : List Nat) (rand : Rand) : Res (Str × Rand) :=
  match rand.Intn chars.length with
  | .error e => .error e
  | .ok (i, rand1) =>
    match index chars i with
    | .error e => .error e
    | .ok c => .ok ([c], rand1)

/-- Loop `for _, r := range re.Sub { res += generate(s, r, rand) }`, for the recursive call
`g`; the children are returned as the calls leave them. -/
def genSubs (g : Regexp → Rand → Res (Str × Regexp × Rand)) :
    List Regexp → Rand → Res (Str × List Regexp × Rand)
  | [], rand => .ok ([], [], rand)
  | r :: rs, rand =>
    match g r rand with
    | .error e => .error e
    | .ok (s1, r1, rand1) =>
      match genSubs g rs rand1 with
      | .error e => .error e
      | .ok (s2, rs1, rand2) => .ok (s1 ++ s2, r1 :: rs1, rand2)

/-- Loop `for i := 0; i < count; i++ { for _, r := range re.Sub { ... } }`, which makes
`n = count.toNat` passes over the children (none for `count ≤ 0`). -/
def genLoop (g : Regexp → Rand → Res (Str × Regexp × Rand)) :
    Nat → List Regexp → Rand → Res (Str × List Regexp × Rand)
  | 0, subs, rand => .ok ([], subs, rand)
  | n + 1, subs, rand =>
    match genSubs g subs rand with
    | .error e => .error e
    | .ok (s1, subs1, rand1) =>
      match genLoop g n subs1 rand1 with
      | .error e => .error e
      | .ok (s2, subs2, rand2) => .ok (s1 ++ s2, subs2, rand2)

/-- The result of a loop over the children, as the result of the node `re`. -/
def withSub (re : Regexp) : Res (Str × List Regexp × Rand) → Res (Str × Regexp × Rand)
  | .error e => .error e
  | .ok (s, subs, rand) => .ok (s, re.setSub subs, rand)

/-- Number of rounds of the loop `for i := 0; i < a || i < b; i++` of `OpRepeat`. -/
def rounds (a b : Int) : Nat := (max a b).toNat

/-- Function `generate`, with a budget for the depth of the recursion.  The result is the
string, the tree as left behind, and the stream as left behind. -/
def generate : Nat → state → Regexp → Rand → Res (Str × Regexp × Rand)
  | 0, _, _, _ => .error .fuel
  | fuel + 1, s, re, rand =>
    match re.Op with
    | .OpNoMatch => .ok ([], re, rand)
    | .OpEmptyMatch => .ok ([], re, rand)
    | .OpLiteral => .ok (literalString re.Rune, re, rand)
    | .OpCharClass =>
      match genCharClass re.Rune rand with
      | .error e => .error e
      | .ok (res, rand1) => .ok (res, re, rand1)
    | .OpAnyCharNotNL =>
      match genAnyChar printableCharsNoNL rand with
      | .error e => .error e
      | .ok (res, rand1) => .ok (res, re, rand1)
    | .OpAnyChar =>
      match genAnyChar printableChars rand with
      | .error e => .error e
      | .ok (res, rand1) => .ok (res, re, rand1)
    | .OpBeginLine => .ok ([], re, rand)
    | .OpEndLine => .ok ([], re, rand)
    | .OpBeginText => .ok ([], re, rand)
    | .OpEndText => .ok ([], re, rand)
    | .OpWordBoundary => .ok ([], re, rand)
    | .OpNoWordBoundary => .ok ([], re, rand)
    | .OpCapture =>
      match re.Sub0 with
      | none => .error .panic
      | some child =>
        match generate fuel s child rand with
        | .error e => .error e
        | .ok (res, child1, rand1) => .ok (res, re.setSub0 (some child1), rand1)
    | .OpStar =>
      match rand.Intn (wrap64 (s.limit + 1)) with
      | .error e => .error e
      | .ok (count, rand1) =>
        withSub re (genLoop (generate fuel s) count.toNat re.Sub rand1)
    | .OpPlus =>
      match rand.Intn s.limit with
      | .error e => .error e
      | .ok (n, rand1) =>
        withSub re (genLoop (generate fuel s) (wrap64 (n + 1)).toNat re.Sub rand1)
    | .OpQuest =>
      match rand.Intn 2 with
      | .error e => .error e
      | .ok (count, rand1) =>
        withSub re (genLoop (generate fuel s) count.toNat re.Sub rand1)
    | .OpRepeat =>
      let re1 := re.setMax (capMax re.Max s.limit)
      match (if re1.Max > re1.Min then rand.Intn (wrap64 (re1.Max - re1.Min + 1))
             else .ok (0, rand)) with
      | .error e => .error e
      | .ok (count, rand1) =>
        withSub re1
          (genLoop (generate fuel s) (rounds re1.Min (wrap64 (re1.Min + count))) re1.Sub
            rand1)
    | .OpConcat => withSub re (genSubs (generate fuel s) re.Sub rand)
    | .OpAlternate =>
      match rand.Intn re.Sub.length with
      | .error e => .error e
      | .ok (i, rand1) =>
        match index re.Sub i with
        | .error e => .error e
        | .ok child =>
          match generate fuel s child rand1 with
          | .error e => .error e
          | .ok (res, child1, rand2) =>
            .ok (res, re.setSub (re.Sub.set i.toNat child1), rand2)
    | .OpUnknown _ => .ok ([], re, rand)

/-- Function `Generate`. -/
def Generate (re : Regexp) (limit : Int) (rand : Rand) : Res (Str × Regexp × Rand) :=
  generate re.depth { limit := limit } re rand

/-- Function `GenerateFromString`, for the parser `Parse` of `regexp/syntax` (called with
the fixed flags `syntax.Perl`).  The result is the pair `(string, error)` and the stream as
left behind. -/
def GenerateFromString {E : Type} (Parse : String → Except E Regexp)
    (re : String) (limit : Int) (rand : Rand) : Res ((Str × Option E) × Rand) :=
  match Parse re with
  | .error err => .ok (([], some err), rand)
  | .ok regex =>
    match Generate regex limit rand with
    | .error e => .error e
    | .ok (res, _, rand1) => .ok ((res, none), rand1)

/-- Leaf `OpLiteral` with the given runes. -/
def lit (runes : List Int) : Regexp := .mk .OpLiteral runes [] none 0 0

/-- Tree of `Z{2,5}`. -/
def reZ25 : Regexp := .mk .OpRepeat [] [lit [90]] none 2 5

/-- String produced by a run, when it produced one. -/
def Res.str : Res (Str × Regexp × Rand) → Option Str
  | .ok (s, _, _) => some s
  | .error _ => none

/-- Tree of `a{2,}`: the parser records the missing upper bound as `Max = -1`. -/
def reA2 : Regexp := .mk .OpRepeat [] [lit [97]] none 2 (-1)

/-- Tree of the class `[^\x00-\x7f]`: the single range `[0x80, 0x10ffff]`. -/
def reNonAscii : Regexp := .mk .OpCharClass [0x80, 0x10ffff] [] none 0 0

/-- Tree of `Z*`. -/
def reZStar : Regexp := .mk .OpStar [] [lit [90]] none 0 0

/-- The stream that starts with `d` and goes on as `rest`. -/
def Rand.cons (d : Nat) (rest : Rand) : Rand
  | 0 => d
  | i + 1 => rest i

/-- Tree left behind by a run, when it returned. -/
def Res.tree : Res (Str × Regexp × Rand) → Option Regexp
  | .ok (_, re, _) => some re
  | .error _ => none

/-- Loop of `TestSeed`: `k` calls of `GenerateFromString` in a row on one `*rand.Rand`; the
results of the calls in order, and the stream as the last call leaves it. -/
def callSeq {E : Type} (Parse : String → Except E Regexp) (re : String) (limit : Int) :
    Nat → Rand → Res (List (Str × Option E) × Rand)
  | 0, rand => .ok ([], rand)
  | k + 1, rand =>
    match GenerateFromString Parse re limit rand with
    | .error e => .error e
    | .ok (out, rand1) =>
      match callSeq Parse re limit k rand1 with
      | .error e => .error e
      | .ok (outs, rand2) => .ok (out :: outs, rand2)

/-- A stand-in parser for examples: it knows the pattern `Z{2,5}` and rejects every other
text with the text itself as the error. -/
def parseZ25 (text : String) : Except String Regexp :=
  if text = "Z\x7b2,5\x7d" then .ok reZ25 else .error text

/-! ## The language of a tree, and the trees the claims speak of -/

/-- Code point `c` lies in one of the inclusive ranges `[lo, hi]` of a class. -/
def inClass (c : Int) : List Int → Prop
  | lo :: hi :: rest => (lo ≤ c ∧ c ≤ hi) ∨ inClass c rest
  | _ => False

/-- Words that split into `n` consecutive pieces, each with the property `P`. -/
def RepOf (P : Str → Prop) : Nat → Str → Prop
  | 0, w => w = []
  | n + 1, w => ∃ u v, w = u ++ v ∧ P u ∧ RepOf P n v

mutual
/-- The regular language denoted by a tree: `Matches re w` says that `re` accepts the whole
word `w`.  A repetition node repeats its children sequence; `Max = -1` is the parser's
mark for a missing upper bound.  The position assertions and `OpNoMatch` are given no
word. -/
def Matches : Regexp → Str → Prop
  | .mk op rune sub sub0 mn mx, w =>
    match op with
    | .OpEmptyMatch => w = []
    | .OpLiteral => w.map Int.ofNat = rune
    | .OpCharClass => ∃ c : Nat, w = [c] ∧ inClass (c : Int) rune
    | .OpAnyChar => ∃ c : Nat, w = [c] ∧ c ≤ 0x10ffff
    | .OpAnyCharNotNL => ∃ c : Nat, w = [c] ∧ c ≤ 0x10ffff ∧ c ≠ 10
    | .OpCapture => MatchesOpt sub0 w
    | .OpStar => ∃ n : Nat, RepOf (MatchesSeq sub) n w
    | .OpPlus => ∃ n : Nat, 1 ≤ n ∧ RepOf (MatchesSeq sub) n w
    | .OpQuest => ∃ n : Nat, n ≤ 1 ∧ RepOf (MatchesSeq sub) n w
    | .OpRepeat =>
      ∃ n : Nat, mn ≤ (n : Int) ∧ (mx = -1 ∨ (n : Int) ≤ mx) ∧ RepOf (MatchesSeq sub) n w
    | .OpConcat => MatchesSeq sub w
    | .OpAlternate => MatchesAny sub w
    | _ => False
/-- Words that split into one word per tree of the list, in order. -/
def MatchesSeq : List Regexp → Str → Prop
  | [], w => w = []
  | r :: rs, w => ∃ u v, w = u ++ v ∧ Matches r u ∧ MatchesSeq rs v
/-- Words accepted by one tree of the list. -/
def MatchesAny : List Regexp → Str → Prop
  | [], _ => False
  | r :: rs, w => Matches r w ∨ MatchesAny rs w
/-- Words accepted by the tree behind `Sub0[0]`. -/
def MatchesOpt : Option Regexp → Str → Prop
  | none, _ => False
  | some r, w => Matches r w
end

mutual
/-- Every node stored in the tree satisfies `p`. -/
def Regexp.all (p : Regexp → Bool) : Regexp → Bool
  | .mk op rune sub sub0 mn mx =>
    p (.mk op rune sub sub0 mn mx) && allList p sub && allOpt p sub0
/-- Every node stored in the trees of the list satisfies `p`. -/
def allList (p : Regexp → Bool) : List Regexp → Bool
  | [] => true
  | r :: rs => r.all p && allList p rs
/-- Every node stored in the optional tree satisfies `p`. -/
def allOpt (p : Regexp → Bool) : Option Regexp → Bool
  | none => true
  | some r => r.all p
end

/-- The runes of a class are pairs `lo, hi` with `lo ≤ hi`. -/
def rangesOk : List Int → Bool
  | [] => true
  | [_] => false
  | lo :: hi :: rest => decide (lo ≤ hi) && rangesOk rest

/-- Some range of the class ends at `runeRangeEnd`. -/
def reachesEnd : List Int → Bool
  | _ :: hi :: rest => decide (hi = runeRangeEnd) || reachesEnd rest
  | _ => false

/-- Decision of `inClass`. -/
def inClassB (c : Int) : List Int → Bool
  | lo :: hi :: rest => (decide (lo ≤ c) && decide (c ≤ hi)) || inClassB c rest
  | _ => false

/-- Some character of the printable alphabet lies in a range of the class. -/
def hasPrintable (runes : List Int) : Bool :=
  printableChars.any (fun c : Nat => inClassB (c : Int) runes)

/-- Rune `r` is a Unicode scalar value: in `[0, 0x10ffff]` and not a surrogate. -/
def isScalar (r : Int) : Bool :=
  decide (0 ≤ r ∧ r ≤ 0x10ffff ∧ ¬ (0xd800 ≤ r ∧ r ≤ 0xdfff))

/-- Every range of the class consists of Unicode scalar values. -/
def scalarRanges : List Int → Bool
  | lo :: hi :: rest =>
    decide (0 ≤ lo) && decide (hi ≤ 0x10ffff) && (decide (hi < 0xd800) || decide (0xdfff < lo))
      && scalarRanges rest
  | _ => true

/-- A class as the claims describe it: a non-empty list of ranges `lo ≤ hi` that is either
bounded (no range ends at `runeRangeEnd`) or holds a printable character. -/
def classSafe (runes : List Int) : Bool :=
  !runes.isEmpty && rangesOk runes && (!reachesEnd runes || hasPrintable runes)

/-- Sum of the sizes `hi - lo + 1` of the ranges of a class. -/
def classTotal : List Int → Int
  | lo :: hi :: rest => (hi - lo) + 1 + classTotal rest
  | _ => 0

/-- Every range of the class holds `int32` runes and at most `2^31` of them, so that the
`int32` subtraction `hi - lo` does not wrap. -/
def fitRanges : List Int → Bool
  | lo :: hi :: rest =>
    decide (-2147483648 ≤ lo) && decide (hi < 2147483648) && decide (hi - lo < 2147483648)
      && fitRanges rest
  | _ => true

/-- The sizes of the ranges of a bounded class are computed and summed without wrap: the
class reaches `runeRangeEnd` (and the sum is not used), or its ranges satisfy `fitRanges`
and their sizes sum to less than `2^63`. -/
def classFits (runes : List Int) : Bool :=
  reachesEnd runes || (fitRanges runes && decide (classTotal runes < 9223372036854775808))

/-- Condition on one node for `generate` to be defined, as first stated: a class is
`classSafe`, a Capture has its child, an Alternate has a child. -/
def statedSafeNode (re : Regexp) : Bool :=
  match re.Op with
  | .OpCharClass => classSafe re.Rune
  | .OpCapture => re.Sub0.isSome
  | .OpAlternate => !re.Sub.isEmpty
  | _ => true

/-- Condition on one node for `generate` to be defined: a class is `classSafe` and
`classFits`, a Capture has its child, an Alternate has a child, a Repeat has `0 ≤ Min`. -/
def safeNode (re : Regexp) : Bool :=
  match re.Op with
  | .OpCharClass => classSafe re.Rune && classFits re.Rune
  | .OpCapture => re.Sub0.isSome
  | .OpAlternate => !re.Sub.isEmpty
  | .OpRepeat => decide (0 ≤ re.Min)
  | _ => true

/-- Condition on one node of the trees of the round trip: the node kinds that denote a
language, with literals and bounded classes made of Unicode scalar values, the range sizes
of a bounded class summing to less than `2^63`, and `0 ≤ Min`, `Max` missing or at least
`Min`, and `Max ≤ 2^53` in a Repeat. -/
def roundTripNode (re : Regexp) : Bool :=
  match re.Op with
  | .OpEmptyMatch => true
  | .OpLiteral => re.Rune.all isScalar
  | .OpCharClass =>
    classSafe re.Rune &&
      (reachesEnd re.Rune ||
        (scalarRanges re.Rune && decide (classTotal re.Rune < 9223372036854775808)))
  | .OpAnyChar => true
  | .OpAnyCharNotNL => true
  | .OpCapture => re.Sub0.isSome
  | .OpStar => true
  | .OpPlus => true
  | .OpQuest => true
  | .OpRepeat =>
    decide (0 ≤ re.Min) && (decide (re.Max = -1) || decide (re.Min ≤ re.Max))
      && decide (re.Max ≤ 9007199254740992)
  | .OpConcat => true
  | .OpAlternate => !re.Sub.isEmpty
  | _ => false

mutual
/-- Relation between a tree and the same tree after calls of `generate` at limit `L`: all
fields agree except that `Max` may have been replaced by the capped `capMax Max L`. -/
def CapOf (L : Int) : Regexp → Regexp → Prop
  | .mk op rune sub sub0 mn mx, re =>
    re.Op = op ∧ re.Rune = rune ∧ re.Min = mn ∧ (re.Max = mx ∨ re.Max = capMax mx L) ∧
      CapOfList L sub re.Sub ∧ CapOfOpt L sub0 re.Sub0
/-- The relation `CapOf`, tree by tree. -/
def CapOfList (L : Int) : List Regexp → List Regexp → Prop
  | [], l => l = []
  | r :: rs, l => ∃ r1 rs1, l = r1 :: rs1 ∧ CapOf L r r1 ∧ CapOfList L rs rs1
/-- The relation `CapOf` behind `Sub0[0]`. -/
def CapOfOpt (L : Int) : Option Regexp → Option Regexp → Prop
  | none, o => o = none
  | some r, o => ∃ r1, o = some r1 ∧ CapOf L r r1
end

/-- What the recursive call `g` is expected to do on the tree `r0`, at limit `L`: on every
version of `r0` left behind by earlier calls and on every stream it returns, it leaves such
a version behind, and when `r0` is a tree of the round trip the word is in the language of
`r0`. -/
def GenOK (L : Int) (g : Regexp → Rand → Res (Str × Regexp × Rand)) (r0 : Regexp) : Prop :=
  ∀ (r : Regexp) (rand : Rand), CapOf L r0 r →
    ∃ w r1 rand1, g r rand = .ok (w, r1, rand1) ∧ CapOf L r0 r1 ∧
      (r0.all roundTripNode = true → Matches r0 w)

/-- Condition on one node of the trees of the round trip as first stated: as
`roundTripNode`, without the conditions that literals and bounded classes are made of
Unicode scalar values. -/
def statedNode (re : Regexp) : Bool :=
  match re.Op with
  | .OpEmptyMatch => true
  | .OpLiteral => true
  | .OpCharClass => classSafe re.Rune
  | .OpAnyChar => true
  | .OpAnyCharNotNL => true
  | .OpCapture => re.Sub0.isSome
  | .OpStar => true
  | .OpPlus => true
  | .OpQuest => true
  | .OpRepeat => decide (0 ≤ re.Min) && (decide (re.Max = -1) || decide (re.Min ≤ re.Max))
  | .OpConcat => true
  | .OpAlternate => !re.Sub.isEmpty
  | _ => false

/-- Tree of `\x{D800}`: a literal of one surrogate code point. -/
def reSurrogate : Regexp := lit [0xd800]

/-- Tree of the class `[\x{D800}-\x{DFFF}]`, the surrogates. -/
def reSurrogateClass : Regexp := .mk .OpCharClass [0xd800, 0xdfff] [] none 0 0

/-- A class without ranges (as for `[^\x00-\x{10FFFF}]`). -/
def reEmptyClass : Regexp := .mk .OpCharClass [] [] none 0 0

/-- An Alternate without children. -/
def reEmptyAlternate : Regexp := .mk .OpAlternate [] [] none 0 0

/-- A Capture whose `Sub0[0]` is nil. -/
def reEmptyCapture : Regexp := .mk .OpCapture [] [] none 0 0

/-- Tree of `(ab|bc)def`; the child of the Capture is kept in `Sub0`. -/
def reAbBcDef : Regexp :=
  .mk .OpConcat []
    [.mk .OpCapture [] [] (some (.mk .OpAlternate [] [lit [97, 98], lit [98, 99]] none 0 0)) 0 0,
     lit [100, 101, 102]] none 0 0

/-! ## Alphabet, class ranges and further example trees -/

/-- The ASCII digits, in order. -/
def asciiDigits : List Nat := (List.range 10).map (· + 48)

/-- The ASCII lower-case letters, in order. -/
def asciiLower : List Nat := (List.range 26).map (· + 97)

/-- The ASCII upper-case letters, in order. -/
def asciiUpper : List Nat := (List.range 26).map (· + 65)

/-- The ASCII punctuation, in code order: `!` to `/`, `:` to `@`, `[` to the back-quote,
and the opening brace to `~`. -/
def asciiPunct : List Nat :=
  (List.range 15).map (· + 33) ++ (List.range 7).map (· + 58) ++
    (List.range 6).map (· + 91) ++ (List.range 4).map (· + 123)

/-- A node `OpAnyChar`. -/
def reAnyChar : Regexp := .mk .OpAnyChar [] [] none 0 0

/-- Tree of `ab|bc`, the Alternate node inside `(ab|bc)def`. -/
def reAbOrBc : Regexp := .mk .OpAlternate [] [lit [97, 98], lit [98, 99]] none 0 0

/-- Calls of `g` on the trees of a list in order, the first on the stream `rand` and each
later one on the stream the call before it left: `Chain g subs rand w subs1 rand1` says
that all calls return, that `w` is their words concatenated in order, `subs1` the trees
they leave and `rand1` the stream the last call leaves (`rand` itself for no tree). -/
inductive Chain (g : Regexp → Rand → Res (Str × Regexp × Rand)) :
    List Regexp → Rand → Str → List Regexp → Rand → Prop
  | nil (rand : Rand) : Chain g [] rand [] [] rand
  | cons {r : Regexp} {rs : List Regexp} {rand : Rand} {w1 : Str} {r1 : Regexp}
      {rand1 : Rand} {w2 : Str} {rs1 : List Regexp} {rand2 : Rand} :
      g r rand = .ok (w1, r1, rand1) → Chain g rs rand1 w2 rs1 rand2 →
      Chain g (r :: rs) rand (w1 ++ w2) (r1 :: rs1) rand2

/-- Tree of `abdef` as the concatenation of the literals `ab` and `def`. -/
def reAbDef : Regexp := .mk .OpConcat [] [lit [97, 98], lit [100, 101, 102]] none 0 0

/-- The runes of a class come in pairs `lo, hi`. -/
def evenRunes : List Int → Bool
  | [] => true
  | [_] => false
  | _ :: _ :: rest => evenRunes rest

/-- The range number `k` of a class, counted from 0 in declared order. -/
def rangeAt : List Int → Nat → Option (Int × Int)
  | lo :: hi :: _, 0 => some (lo, hi)
  | _ :: _ :: rest, k + 1 => rangeAt rest k
  | _, _ => none

/-- Sum of the sizes `hi - lo + 1` of the first `k` ranges of a class. -/
def offsetAt : List Int → Nat → Int
  | lo :: hi :: rest, k + 1 => (hi - lo) + 1 + offsetAt rest k
  | _, _ => 0

/-- The range `[lo, hi]` and some range of the list have a code point in common. -/
def overlapsAny (lo hi : Int) : List Int → Bool
  | lo1 :: hi1 :: rest => (decide (lo ≤ hi1) && decide (lo1 ≤ hi)) || overlapsAny lo hi rest
  | _ => false

/-- The ranges of a class are pairwise disjoint. -/
def disjointRanges : List Int → Bool
  | lo :: hi :: rest => !overlapsAny lo hi rest && disjointRanges rest
  | _ => true

/-- Tree of the class `[^1]`: the ranges `[0, 0x30]` and `[0x32, 0x10ffff]`. -/
def reNot1 : Regexp := .mk .OpCharClass [0, 0x30, 0x32, 0x10ffff] [] none 0 0

/-- Tree of the class `[0-2a-c]`: the ranges `[0x30, 0x32]` and `[0x61, 0x63]`. -/
def reDigitsLetters : Regexp := .mk .OpCharClass [0x30, 0x32, 0x61, 0x63] [] none 0 0

/-- Tree of the class `[\x{D800}-\x{D801}]`: one range of two surrogates. -/
def reTwoSurrogates : Regexp := .mk .OpCharClass [0xd800, 0xd801] [] none 0 0

/-- Condition on one node of a choice-free tree: the node is NoMatch, EmptyMatch, one of the
six position assertions, a Literal, a Concat, or a Capture that has its child. -/
def choiceFreeNode (re : Regexp) : Bool :=
  match re.Op with
  | .OpNoMatch => true
  | .OpEmptyMatch => true
  | .OpLiteral => true
  | .OpBeginLine => true
  | .OpEndLine => true
  | .OpBeginText => true
  | .OpEndText => true
  | .OpWordBoundary => true
  | .OpNoWordBoundary => true
  | .OpCapture => re.Sub0.isSome
  | .OpConcat => true
  | _ => false

mutual
/-- The runes of the Literal leaves of a choice-free tree, in left-to-right order: a
Capture contributes what its child does, a Concat what its children do in order, every
other node nothing. -/
def leafRunes : Regexp → List Int
  | .mk op rune sub sub0 _ _ =>
    match op with
    | .OpLiteral => rune
    | .OpCapture => leafRunesOpt sub0
    | .OpConcat => leafRunesList sub
    | _ => []
/-- The runes of the Literal leaves of the trees of a list, in order. -/
def leafRunesList : List Regexp → List Int
  | [] => []
  | r :: rs => leafRunes r ++ leafRunesList rs
/-- The runes of the Literal leaves of the tree behind `Sub0[0]`. -/
def leafRunesOpt : Option Regexp → List Int
  | none => []
  | some r => leafRunes r
end

/-- Tree of `^(ab)\x{D800}$`: two assertions around a captured literal and a surrogate. -/
def reAnchored : Regexp :=
  .mk .OpConcat []
    [.mk .OpBeginText [] [] none 0 0,
     .mk .OpCapture [] [] (some (lit [97, 98])) 0 0,
     lit [0xd800],
     .mk .OpEndText [] [] none 0 0] none 0 0

/-- Tree of `^(ab)def$`. -/
def reAnchoredAbDef : Regexp :=
  .mk .OpConcat []
    [.mk .OpBeginText [] [] none 0 0,
     .mk .OpCapture [] [] (some (lit [97, 98])) 0 0,
     lit [100, 101, 102],
     .mk .OpEndText [] [] none 0 0] none 0 0

/-- The string and the stream of a result, without the tree. -/
def Res.out : Res (Str × Regexp × Rand) → Res (Str × Rand)
  | .ok (w, _, rand) => .ok (w, rand)
  | .error e => .error e

/-- Two results of calls on versions of the tree `r0` agree: both fail in the same way, or
both return, with the same string and the same stream, and leave versions of `r0`. -/
def SameOut (L : Int) (r0 : Regexp) :
    Res (Str × Regexp × Rand) → Res (Str × Regexp × Rand) → Prop
  | .ok (w, r1, rand1), .ok (w2, r2, rand2) =>
    w = w2 ∧ rand1 = rand2 ∧ CapOf L r0 r1 ∧ CapOf L r0 r2
  | .error e, .error e2 => e = e2
  | _, _ => False

/-- The relation `SameOut` for the results of the loops over the children `l0`. -/
def SameOutList (L : Int) (l0 : List Regexp) :
    Res (Str × List Regexp × Rand) → Res (Str × List Regexp × Rand) → Prop
  | .ok (w, l1, rand1), .ok (w2, l2, rand2) =>
    w = w2 ∧ rand1 = rand2 ∧ CapOfList L l0 l1 ∧ CapOfList L l0 l2
  | .error e, .error e2 => e = e2
  | _, _ => False

/-- The recursive call `g` does the same on every two versions of the tree `r0`. -/
def Stable (L : Int) (g : Regexp → Rand → Res (Str × Regexp × Rand)) (r0 : Regexp) : Prop :=
  ∀ (r r2 : Regexp) (rand : Rand), CapOf L r0 r → CapOf L r0 r2 →
    SameOut L r0 (g r rand) (g r2 rand)

/-- The recursive calls `g` (with some budget) and `g2` (with a larger one) on the versions
of the tree `r0`: they give the same result, `g` does not run out of budget, and a call
that returns leaves a version of `r0`. -/
def Settled (L : Int) (g g2 : Regexp → Rand → Res (Str × Regexp × Rand)) (r0 : Regexp) :
    Prop :=
  ∀ (r : Regexp) (rand : Rand), CapOf L r0 r →
    g2 r rand = g r rand ∧ g r rand ≠ .error .fuel ∧
    ∀ (w : Str) (r1 : Regexp) (rand1 : Rand), g r rand = .ok (w, r1, rand1) → CapOf L r0 r1

/-- Tree of `(a{2,5}|[0-9]+)*x`, with nested repetitions. -/
def reNested : Regexp :=
  .mk .OpConcat []
    [.mk .OpStar []
      [.mk .OpCapture [] []
        (some (.mk .OpAlternate []
          [.mk .OpRepeat [] [lit [97]] none 2 5,
           .mk .OpPlus [] [.mk .OpCharClass [0x30, 0x39] [] none 0 0] none 0 0] none 0 0)) 0 0]
      none 0 0,
     lit [120]] none 0 0

/-- A class with the one range `[-1, 0x7fffffff]`, whose size `2^31 + 1` is not an
`int32`. -/
def reWideClass : Regexp := .mk .OpCharClass [-1, 0x7fffffff] [] none 0 0

/-- A class with the one range `[-0x80000000, 0]`, whose size `2^31 + 1` is not an
`int32`. -/
def reLowClass : Regexp := .mk .OpCharClass [-2147483648, 0] [] none 0 0

/-- A Repeat of `Z` with `Min = -2^63` and `Max = 5`. -/
def reNegMin : Regexp := .mk .OpRepeat [] [lit [90]] none (-9223372036854775808) 5

/-- A Repeat of `Z` with `Min = 0` and `Max = 2^53 + 1`. -/
def reBigMax : Regexp := .mk .OpRepeat [] [lit [90]] none 0 9007199254740993

/-- A Repeat of `Z` with `Min = 0` and `Max = 2^53 + 3`. -/
def reBigMax3 : Regexp := .mk .OpRepeat [] [lit [90]] none 0 9007199254740995

/-! ## Basic facts -/

theorem wrap64_eq (x : Int) (h1 : -9223372036854775808 ≤ x) (h2 : x < 9223372036854775808) :
    wrap64 x = x := by
  unfold wrap64; omega

theorem wrap32_eq (x : Int) (h1 : -2147483648 ≤ x) (h2 : x < 2147483648) :
    wrap32 x = x := by
  unfold wrap32; omega

theorem wrap64_range (x : Int) :
    -9223372036854775808 ≤ wrap64 x ∧ wrap64 x < 9223372036854775808 := by
  unfold wrap64; omega

theorem p53 : (2 : Nat) ^ 53 = 9007199254740992 := by norm_num

theorem roundEven_mul (e m : Nat) : roundEven e (m * 2 ^ e) = m * 2 ^ e := by
  have hp : 0 < 2 ^ e := Nat.two_pow_pos _
  unfold roundEven
  rw [Nat.mul_mod_left, Nat.mul_div_cancel _ hp, if_neg]
  rintro (h | h)
  · omega
  · omega

theorem roundEven_cases (e n : Nat) :
    roundEven e n = n / 2 ^ e * 2 ^ e ∨ roundEven e n = (n / 2 ^ e + 1) * 2 ^ e := by
  unfold roundEven
  split
  · right; rfl
  · left; rfl

theorem dropBits_spec : ∀ (b n e : Nat), e ≤ b → (e = 0 → n < 2 ^ 53) →
    (0 < e → 2 ^ (52 + e) ≤ n) → n < 2 ^ (53 + e) → dropBits b n = e
  | 0, n, e, hb, _, _, _ => by
    have : e = 0 := by omega
    subst this
    rfl
  | b + 1, n, e, hb, h0, h1, h2 => by
    rw [dropBits]
    by_cases hn : n < 9007199254740992
    · rw [if_pos hn]
      rcases Nat.eq_zero_or_pos e with he | he
      · exact he.symm
      · have := h1 he
        have hh : 2 ^ 53 ≤ 2 ^ (52 + e) := Nat.pow_le_pow_right (by norm_num) (by omega)
        rw [p53] at hh
        omega
    · rw [if_neg hn]
      have he : 0 < e := by
        rcases Nat.eq_zero_or_pos e with he | he
        · have := h0 he
          rw [p53] at this
          omega
        · exact he
      obtain ⟨e1, rfl⟩ : ∃ e1, e = e1 + 1 := ⟨e - 1, by omega⟩
      have ih := dropBits_spec b (n / 2) e1 (by omega) ?_ ?_ ?_
      · rw [ih]
      · intro h
        subst h
        have : n < 2 ^ 54 := by simpa using h2
        have h54 : (2 : Nat) ^ 54 = 2 ^ 53 * 2 := by norm_num
        rw [h54] at this
        exact Nat.div_lt_of_lt_mul (by rw [Nat.mul_comm]; exact this)
      · intro _
        have := h1 (by omega)
        have hs : (2 : Nat) ^ (52 + (e1 + 1)) = 2 ^ (52 + e1) * 2 := by
          rw [← Nat.add_assoc, Nat.pow_succ]
        rw [hs] at this
        exact (Nat.le_div_iff_mul_le (by norm_num)).mpr this
      · have hs : (2 : Nat) ^ (53 + (e1 + 1)) = 2 ^ (53 + e1) * 2 := by
          rw [← Nat.add_assoc, Nat.pow_succ]
        rw [hs] at h2
        exact Nat.div_lt_of_lt_mul (by rw [Nat.mul_comm]; exact h2)

theorem exists_exp (n : Nat) (hn : 2 ^ 53 ≤ n) :
    ∃ e, 0 < e ∧ e ≤ n ∧ 2 ^ (52 + e) ≤ n ∧ n < 2 ^ (53 + e) := by
  have hn0 : n ≠ 0 := by
    intro h
    subst h
    simp at hn
  have h1 : 2 ^ Nat.log 2 n ≤ n := Nat.pow_log_le_self 2 hn0
  have h2 : n < 2 ^ (Nat.log 2 n + 1) := Nat.lt_pow_succ_log_self (by norm_num) n
  have h3 : 53 ≤ Nat.log 2 n := Nat.le_log_of_pow_le (by norm_num) hn
  have h4 : Nat.log 2 n < n := Nat.log_lt_self 2 hn0
  refine ⟨Nat.log 2 n - 52, by omega, by omega, ?_, ?_⟩
  · rw [show 52 + (Nat.log 2 n - 52) = Nat.log 2 n by omega]
    exact h1
  · rw [show 53 + (Nat.log 2 n - 52) = Nat.log 2 n + 1 by omega]
    exact h2

/-- Shape of `float64Nat n` for `n ≥ 2^53`: a multiple `m * 2^e` with `2^52 ≤ m ≤ 2^53`. -/
theorem float64Nat_shape (n : Nat) (hn : 2 ^ 53 ≤ n) :
    ∃ e m, 0 < e ∧ 2 ^ 52 ≤ m ∧ m ≤ 2 ^ 53 ∧ float64Nat n = m * 2 ^ e := by
  obtain ⟨e, he, hen, h1, h2⟩ := exists_exp n hn
  have hd := dropBits_spec n n e hen (by omega) (fun _ => h1) h2
  have hp : 0 < 2 ^ e := Nat.two_pow_pos _
  have hq1 : 2 ^ 52 ≤ n / 2 ^ e := by
    rw [Nat.le_div_iff_mul_le hp, ← Nat.pow_add]
    exact h1
  have hq2 : n / 2 ^ e < 2 ^ 53 := by
    rw [Nat.div_lt_iff_lt_mul hp, ← Nat.pow_add]
    exact h2
  have hf : float64Nat n = roundEven e n := by
    unfold float64Nat
    rw [if_neg (by rw [p53] at hn; omega), hd]
  rcases roundEven_cases e n with h | h
  · exact ⟨e, n / 2 ^ e, he, hq1, le_of_lt hq2, by rw [hf, h]⟩
  · exact ⟨e, n / 2 ^ e + 1, he, by omega, by omega, by rw [hf, h]⟩

theorem float64Nat_small (n : Nat) (hn : n < 2 ^ 53) : float64Nat n = n := by
  unfold float64Nat
  rw [if_pos (by rw [p53] at hn; exact hn)]

theorem float64Nat_mul (e m : Nat) (he : 0 < e) (h1 : 2 ^ 52 ≤ m) (h2 : m < 2 ^ 53) :
    float64Nat (m * 2 ^ e) = m * 2 ^ e := by
  have hp : 0 < 2 ^ e := Nat.two_pow_pos _
  have hlo : 2 ^ (52 + e) ≤ m * 2 ^ e := by
    rw [Nat.pow_add]
    exact Nat.mul_le_mul_right _ h1
  have hhi : m * 2 ^ e < 2 ^ (53 + e) := by
    rw [Nat.pow_add]
    exact Nat.mul_lt_mul_of_pos_right h2 hp
  have hge : 2 ^ 53 ≤ m * 2 ^ e :=
    le_trans (Nat.pow_le_pow_right (by norm_num) (by omega)) hlo
  have hen : e ≤ m * 2 ^ e := by
    have : e < 2 ^ e := Nat.lt_two_pow e
    have : 2 ^ e ≤ m * 2 ^ e := Nat.le_mul_of_pos_left _ (by
      have : 0 < 2 ^ 52 := Nat.two_pow_pos _
      omega)
    omega
  have hd := dropBits_spec (m * 2 ^ e) (m * 2 ^ e) e hen (by omega) (fun _ => hlo) hhi
  unfold float64Nat
  rw [if_neg (by rw [p53] at hge; omega), hd, roundEven_mul]

theorem float64Nat_idem (n : Nat) : float64Nat (float64Nat n) = float64Nat n := by
  rcases Nat.lt_or_ge n (2 ^ 53) with hn | hn
  · rw [float64Nat_small n hn, float64Nat_small n hn]
  · obtain ⟨e, m, he, h1, h2, hf⟩ := float64Nat_shape n hn
    rw [hf]
    rcases Nat.lt_or_ge m (2 ^ 53) with hm | hm
    · exact float64Nat_mul e m he h1 hm
    · have hm2 : m = 2 ^ 53 := by omega
      subst hm2
      have : (2 : Nat) ^ 53 * 2 ^ e = 2 ^ 52 * 2 ^ (e + 1) := by
        ring
      rw [this]
      exact float64Nat_mul (e + 1) (2 ^ 52) (by omega) le_rfl
        (Nat.pow_lt_pow_right (by norm_num) (by norm_num))

theorem float64Nat_ge (n : Nat) (hn : 2 ^ 53 ≤ n) : 2 ^ 53 ≤ float64Nat n := by
  obtain ⟨e, m, he, h1, _, hf⟩ := float64Nat_shape n hn
  rw [hf]
  calc 2 ^ 53 = 2 ^ 52 * 2 ^ 1 := by norm_num
    _ ≤ m * 2 ^ e := Nat.mul_le_mul h1 (Nat.pow_le_pow_right (by norm_num) he)

theorem float64Nat_even (n : Nat) (hn : 2 ^ 53 ≤ n) : 2 ∣ float64Nat n := by
  obtain ⟨e, m, he, _, _, hf⟩ := float64Nat_shape n hn
  rw [hf]
  exact Dvd.dvd.mul_left (dvd_pow_self 2 (by omega)) m

theorem float64Nat_exact (n : Nat) (hn : n ≤ 2 ^ 53) : float64Nat n = n := by
  rcases Nat.lt_or_ge n (2 ^ 53) with h | h
  · exact float64Nat_small n h
  · have : n = 2 ^ 52 * 2 ^ 1 := by
      have : n = 2 ^ 53 := by omega
      rw [this]
      norm_num
    rw [this]
    exact float64Nat_mul 1 (2 ^ 52) (by omega) le_rfl
      (Nat.pow_lt_pow_right (by norm_num) (by norm_num))

theorem float64Nat_pos (n : Nat) (hn : 0 < n) : 0 < float64Nat n := by
  rcases Nat.lt_or_ge n (2 ^ 53) with h | h
  · rw [float64Nat_small n h]
    exact hn
  · have := float64Nat_ge n h
    have : 0 < 2 ^ 53 := Nat.two_pow_pos _
    omega

theorem float64_of_nonneg (x : Int) (h : 0 ≤ x) : float64 x = (float64Nat x.toNat : Int) := by
  unfold float64
  rw [if_pos h]

theorem float64_of_neg (x : Int) (h : x < 0) : float64 x = -(float64Nat (-x).toNat : Int) := by
  unfold float64
  rw [if_neg (by omega)]

theorem float64_nonneg (x : Int) (h : 0 ≤ x) : 0 ≤ float64 x := by
  rw [float64_of_nonneg x h]
  exact Int.ofNat_nonneg _

theorem float64_neg (x : Int) (h : x < 0) : float64 x < 0 := by
  rw [float64_of_neg x h]
  have := float64Nat_pos (-x).toNat (by omega)
  omega

theorem float64_idem (x : Int) : float64 (float64 x) = float64 x := by
  rcases le_or_lt 0 x with h | h
  · rw [float64_of_nonneg x h, float64_of_nonneg _ (Int.ofNat_nonneg _), Int.toNat_ofNat,
      float64Nat_idem]
  · have hn := float64_neg x h
    rw [float64_of_neg x h] at hn ⊢
    rw [float64_of_neg _ hn, neg_neg, Int.toNat_ofNat, float64Nat_idem]

theorem float64_exact (x : Int) (h1 : -9007199254740992 ≤ x) (h2 : x ≤ 9007199254740992) :
    float64 x = x := by
  rcases le_or_lt 0 x with h | h
  · rw [float64_of_nonneg x h, float64Nat_exact _ (by rw [p53]; omega)]
    omega
  · rw [float64_of_neg x h, float64Nat_exact _ (by rw [p53]; omega)]
    omega

theorem float64_ge (x : Int) (h : 9007199254740992 ≤ x) : 9007199254740992 ≤ float64 x := by
  rw [float64_of_nonneg x (by omega)]
  have := float64Nat_ge x.toNat (by rw [p53]; omega)
  rw [p53] at this
  omega

/-- A `float64` value of at least `2^53` is an even integer. -/
theorem float64_even (x : Int) (h : 9007199254740992 ≤ float64 x) : 2 ∣ float64 x := by
  have hx : 9007199254740992 ≤ x := by
    by_contra hc
    rcases le_or_lt 0 x with h0 | h0
    · rw [float64_exact x (by omega) (by omega)] at h
      omega
    · have := float64_neg x h0
      omega
  rw [float64_of_nonneg x (by omega)]
  have := float64Nat_even x.toNat (by rw [p53]; omega)
  exact Int.natCast_dvd_natCast.mpr this

theorem intOfFloat_range (f : Int) :
    -9223372036854775808 ≤ intOfFloat f ∧ intOfFloat f < 9223372036854775808 := by
  unfold intOfFloat
  split <;> omega

/-- The capped maximum is a 64-bit value other than the largest one. -/
theorem capMax_range (mx limit : Int) :
    -9223372036854775808 ≤ capMax mx limit ∧ capMax mx limit < 9223372036854775807 := by
  refine ⟨(intOfFloat_range _).1, ?_⟩
  unfold capMax
  have hv : ∃ y, min (float64 mx) (float64 limit) = float64 y := by
    rcases min_choice (float64 mx) (float64 limit) with h | h
    · exact ⟨mx, h⟩
    · exact ⟨limit, h⟩
  obtain ⟨y, hy⟩ := hv
  rw [hy]
  unfold intOfFloat
  split
  · rename_i hr
    by_contra hc
    have he : float64 y = 9223372036854775807 := by omega
    have := float64_even y (by omega)
    omega
  · omega

theorem capMax_idem (mx limit : Int) : capMax (capMax mx limit) limit = capMax mx limit := by
  have hv : ∃ y, min (float64 mx) (float64 limit) = float64 y := by
    rcases min_choice (float64 mx) (float64 limit) with h | h
    · exact ⟨mx, h⟩
    · exact ⟨limit, h⟩
  obtain ⟨y, hy⟩ := hv
  have hle : float64 y ≤ float64 limit := by
    rw [← hy]
    exact min_le_right _ _
  have h63 : float64 (-9223372036854775808) = -9223372036854775808 := by decide
  unfold capMax
  rw [hy]
  by_cases hr : -9223372036854775808 ≤ float64 y ∧ float64 y < 9223372036854775808
  · have e : intOfFloat (float64 y) = float64 y := by
      unfold intOfFloat
      rw [if_pos hr]
    rw [e, float64_idem, min_eq_left hle, e]
  · have e : intOfFloat (float64 y) = -9223372036854775808 := by
      unfold intOfFloat
      rw [if_neg hr]
    rw [e, h63]
    unfold intOfFloat
    split
    · rename_i h2
      rcases min_choice (-9223372036854775808 : Int) (float64 limit) with h | h
      · exact h
      · rw [h] at h2 ⊢
        have := min_le_left (-9223372036854775808 : Int) (float64 limit)
        omega
    · rfl

/-- The capped maximum is the exact minimum when `Max` is a value that `float64` holds
exactly. -/
theorem capMax_exact (mx limit : Int) (h1 : -9007199254740992 ≤ mx)
    (h2 : mx ≤ 9007199254740992) (hl : 1 ≤ limit) : capMax mx limit = min mx limit := by
  unfold capMax
  rw [float64_exact mx h1 h2]
  rcases le_or_lt limit 9007199254740992 with h | h
  · rw [float64_exact limit (by omega) h]
    unfold intOfFloat
    rw [if_pos]
    constructor
    · have := le_min h1 (show (-9007199254740992 : Int) ≤ limit by omega)
      omega
    · have := min_le_left mx limit
      omega
  · have := float64_ge limit (by omega)
    rw [min_eq_left (by omega), min_eq_left (by omega)]
    unfold intOfFloat
    rw [if_pos (by omega)]

theorem capMax_le (mx limit : Int) (hl : 0 ≤ limit) : capMax mx limit ≤ float64 limit := by
  have h0 := float64_nonneg limit hl
  unfold capMax intOfFloat
  split
  · exact min_le_right _ _
  · omega


@[simp] theorem setMax_Op (re : Regexp) (m : Int) : (re.setMax m).Op = re.Op := by
  cases re; rfl

@[simp] theorem setMax_Min (re : Regexp) (m : Int) : (re.setMax m).Min = re.Min := by
  cases re; rfl

@[simp] theorem setMax_Max (re : Regexp) (m : Int) : (re.setMax m).Max = m := by
  cases re; rfl

@[simp] theorem setMax_Sub (re : Regexp) (m : Int) : (re.setMax m).Sub = re.Sub := by
  cases re; rfl

@[simp] theorem cons_tail (d : Nat) (rest : Rand) : (Rand.cons d rest).tail = rest := by
  funext i; rfl

@[simp] theorem cons_zero (d : Nat) (rest : Rand) : Rand.cons d rest 0 = d := rfl

theorem Intn_pos (rand : Rand) (n : Int) (h : 0 < n) :
    rand.Intn n = .ok ((rand 0 : Int) % n, rand.tail) := by
  unfold Rand.Intn
  rw [if_neg (not_le.mpr h)]

theorem rounds_add (a c : Int) (h : 0 ≤ c) : rounds a (a + c) = (a + c).toNat := by
  unfold rounds
  rw [max_eq_right (by omega)]

theorem rounds_self (a : Int) : rounds a (a + 0) = a.toNat := by
  rw [rounds_add a 0 le_rfl, add_zero]

/-- The loop of `OpRepeat` with `count = 0` makes `Min` passes. -/
theorem rounds_wrap_self (a : Int) (h : 0 ≤ a) : rounds a (wrap64 (a + 0)) = a.toNat := by
  unfold rounds
  rw [max_eq_left (by unfold wrap64; omega)]

/-! ## Leaves: literals, classes, any character -/

theorem index_spec {α : Type} (xs : List α) (i : Int) (h0 : 0 ≤ i) (h1 : i < xs.length) :
    ∃ x, index xs i = .ok x ∧ x ∈ xs ∧ xs.get? i.toNat = some x := by
  have hlt : i.toNat < xs.length := by omega
  refine ⟨xs.get ⟨i.toNat, hlt⟩, ?_, List.get_mem _ _ _, List.get?_eq_get hlt⟩
  unfold index
  rw [if_neg (by omega), List.get?_eq_get hlt]

theorem stringOfRune_scalar (r : Int) (h : isScalar r = true) :
    stringOfRune r = [r.toNat] ∧ 0 ≤ r := by
  simp only [isScalar, decide_eq_true_eq] at h
  unfold stringOfRune
  exact ⟨if_pos h, h.1⟩

theorem literalString_scalar : ∀ runes : List Int, runes.all isScalar = true →
    (literalString runes).map Int.ofNat = runes
  | [], _ => rfl
  | r :: rs, h => by
    simp only [List.all_cons, Bool.and_eq_true] at h
    obtain ⟨e, h0⟩ := stringOfRune_scalar r h.1
    simp only [literalString, e, List.singleton_append, List.map_cons,
      literalString_scalar rs h.2]
    congr 1
    exact Int.toNat_of_nonneg h0

theorem classTotal_nonneg : ∀ runes : List Int, rangesOk runes = true → 0 ≤ classTotal runes
  | [], _ => le_rfl
  | [_], _ => le_rfl
  | lo :: hi :: rest, h => by
    simp only [rangesOk, Bool.and_eq_true, decide_eq_true_eq] at h
    have := classTotal_nonneg rest h.2
    simp only [classTotal]
    omega

theorem classTotal_pos (runes : List Int) (h : rangesOk runes = true) (hne : runes ≠ []) :
    0 < classTotal runes := by
  match runes, h, hne with
  | [], _, hne => exact absurd rfl hne
  | [_], h, _ => simp [rangesOk] at h
  | lo :: hi :: rest, h, _ =>
    simp only [rangesOk, Bool.and_eq_true, decide_eq_true_eq] at h
    have := classTotal_nonneg rest h.2
    simp only [classTotal]
    omega

theorem fitRanges_of_scalar : ∀ runes : List Int, scalarRanges runes = true →
    fitRanges runes = true
  | [], _ => rfl
  | [_], _ => rfl
  | lo :: hi :: rest, h => by
    simp only [scalarRanges, Bool.and_eq_true, Bool.or_eq_true, decide_eq_true_eq] at h
    simp only [fitRanges, Bool.and_eq_true, decide_eq_true_eq]
    exact ⟨⟨⟨by omega, by omega⟩, by omega⟩, fitRanges_of_scalar rest h.2⟩

/-- One step of the sums of `OpCharClass` without wrap. -/
theorem classSum_step (lo hi acc : Int) (h : lo ≤ hi) (hf : hi - lo < 2147483648)
    (h0 : 0 ≤ acc) (hT : acc + ((hi - lo) + 1) < 9223372036854775808) :
    wrap64 (acc + (wrap32 (hi - lo) + 1)) = acc + ((hi - lo) + 1) := by
  rw [wrap32_eq _ (by omega) (by omega), wrap64_eq _ (by omega) (by omega)]

/-- The rune `re.Rune[i] + rune(r-sum)` without wrap. -/
theorem pickRune_step (lo hi acc r : Int) (hlo : -2147483648 ≤ lo) (hhi : hi < 2147483648)
    (hf : hi - lo < 2147483648) (h1 : acc ≤ r) (h2 : r < acc + ((hi - lo) + 1)) :
    wrap32 (lo + wrap32 (wrap64 (r - acc))) = lo + (r - acc) := by
  rw [wrap64_eq _ (by omega) (by omega), wrap32_eq (r - acc) (by omega) (by omega),
    wrap32_eq _ (by omega) (by omega)]

/-- One round of the index walk on a range whose size and running sum do not wrap. -/
theorem pickRune_cons (r lo hi : Int) (rest : List Int) (acc : Int) (h : lo ≤ hi)
    (hlo : -2147483648 ≤ lo) (hhi : hi < 2147483648) (hf : hi - lo < 2147483648)
    (h0 : 0 ≤ acc) (h1 : acc ≤ r) (hT : acc + ((hi - lo) + 1) < 9223372036854775808) :
    pickRune r (lo :: hi :: rest) acc =
      if acc + ((hi - lo) + 1) > r then .ok (lo + (r - acc))
      else pickRune r rest (acc + ((hi - lo) + 1)) := by
  rw [pickRune, classSum_step lo hi acc h hf h0 hT]
  by_cases hc : acc + ((hi - lo) + 1) > r
  · rw [if_pos hc, if_pos hc, pickRune_step lo hi acc r hlo hhi hf h1 (by omega)]
  · rw [if_neg hc, if_neg hc]

theorem classSum_bounded : ∀ (runes : List Int) (acc : Int), rangesOk runes = true →
    reachesEnd runes = false → fitRanges runes = true → 0 ≤ acc →
    acc + classTotal runes < 9223372036854775808 →
    classSum runes acc = .ok (acc + classTotal runes)
  | [], acc, _, _, _, _, _ => by simp [classSum, classTotal]
  | [_], _, h, _, _, _, _ => by simp [rangesOk] at h
  | lo :: hi :: rest, acc, h, h2, hf, h0, hT => by
    simp only [rangesOk, Bool.and_eq_true, decide_eq_true_eq] at h
    simp only [reachesEnd, Bool.or_eq_false_iff, decide_eq_false_iff_not] at h2
    simp only [fitRanges, Bool.and_eq_true, decide_eq_true_eq] at hf
    simp only [classTotal] at hT
    have ht := classTotal_nonneg rest h.2
    simp only [classSum, if_neg h2.1, classTotal]
    rw [classSum_step lo hi acc h.1 hf.1.2 h0 (by omega),
      classSum_bounded rest _ h.2 h2.2 hf.2 (by omega) (by omega)]
    congr 1
    omega

theorem classSum_reaches : ∀ (runes : List Int) (acc : Int), rangesOk runes = true →
    reachesEnd runes = true → classSum runes acc = .ok (-1)
  | [], _, _, h2 => by simp [reachesEnd] at h2
  | [_], _, h, _ => by simp [rangesOk] at h
  | lo :: hi :: rest, acc, h, h2 => by
    simp only [rangesOk, Bool.and_eq_true, decide_eq_true_eq] at h
    simp only [reachesEnd, Bool.or_eq_true, decide_eq_true_eq] at h2
    by_cases he : hi = runeRangeEnd
    · simp only [classSum, if_pos he]
    · simp only [classSum, if_neg he]
      exact classSum_reaches rest _ h.2 (h2.resolve_left he)

theorem inClass_of_inClassB (c : Int) : ∀ runes : List Int, inClassB c runes = true →
    inClass c runes
  | [], h => by simp [inClassB] at h
  | [_], h => by simp [inClassB] at h
  | lo :: hi :: rest, h => by
    simp only [inClassB, Bool.or_eq_true, Bool.and_eq_true, decide_eq_true_eq] at h
    rcases h with h | h
    · exact Or.inl h
    · exact Or.inr (inClass_of_inClassB c rest h)

theorem inRanges_ok (c : Int) : ∀ runes : List Int, rangesOk runes = true →
    inRanges c runes = .ok (inClassB c runes)
  | [], _ => rfl
  | [_], h => by simp [rangesOk] at h
  | lo :: hi :: rest, h => by
    simp only [rangesOk, Bool.and_eq_true, decide_eq_true_eq] at h
    by_cases hc : c ≥ lo ∧ c ≤ hi
    · simp only [inRanges, if_pos hc, inClassB]
      simp [hc.1, hc.2]
    · simp only [inRanges, if_neg hc, inClassB, inRanges_ok c rest h.2]
      have : (decide (lo ≤ c) && decide (c ≤ hi)) = false := by
        simp only [Bool.and_eq_false_imp, decide_eq_true_eq, decide_eq_false_iff_not]
        intro h1 h2
        exact hc ⟨h1, h2⟩
      rw [this, Bool.false_or]

theorem possibleChars_ok (runes : List Int) (h : rangesOk runes = true) :
    ∀ cs : List Nat, possibleChars runes cs =
      .ok (cs.filter (fun c : Nat => inClassB (c : Int) runes))
  | [] => rfl
  | c :: cs => by
    simp only [possibleChars, inRanges_ok _ runes h, possibleChars_ok runes h cs,
      List.filter_cons]

theorem pickRune_spec (r : Int) : ∀ (runes : List Int) (acc : Int), rangesOk runes = true →
    fitRanges runes = true → 0 ≤ acc → acc + classTotal runes < 9223372036854775808 →
    acc ≤ r → r < acc + classTotal runes →
    ∃ ru, pickRune r runes acc = .ok ru ∧ inClass ru runes
  | [], acc, _, _, _, _, h1, h2 => by
    simp only [classTotal] at h2
    omega
  | [_], _, h, _, _, _, _, _ => by simp [rangesOk] at h
  | lo :: hi :: rest, acc, h, hf, h0, hT, h1, h2 => by
    simp only [rangesOk, Bool.and_eq_true, decide_eq_true_eq] at h
    simp only [fitRanges, Bool.and_eq_true, decide_eq_true_eq] at hf
    simp only [classTotal] at h2 hT
    have ht := classTotal_nonneg rest h.2
    rw [pickRune_cons r lo hi rest acc h.1 hf.1.1.1 hf.1.1.2 hf.1.2 h0 h1 (by omega)]
    by_cases hc : acc + ((hi - lo) + 1) > r
    · refine ⟨lo + (r - acc), ?_, ?_⟩
      · rw [if_pos hc]
      · exact Or.inl ⟨by omega, by omega⟩
    · obtain ⟨ru, e, hin⟩ := pickRune_spec r rest (acc + ((hi - lo) + 1)) h.2 hf.2
        (by omega) (by omega) (by omega) (by omega)
      exact ⟨ru, by rw [if_neg hc, e], Or.inr hin⟩

theorem isScalar_of_inClass (ru : Int) : ∀ runes : List Int, scalarRanges runes = true →
    inClass ru runes → isScalar ru = true
  | [], _, h => h.elim
  | [_], _, h => h.elim
  | lo :: hi :: rest, hs, h => by
    simp only [scalarRanges, Bool.and_eq_true, Bool.or_eq_true, decide_eq_true_eq] at hs
    rcases h with h | h
    · simp only [isScalar, decide_eq_true_eq]
      rcases hs.1.2 with h3 | h3 <;> omega
    · exact isScalar_of_inClass ru rest hs.2 h

/-- What the case `OpCharClass` returns on a class satisfying `classSafe`: it does not panic,
it makes one draw, and on a class that reaches `runeRangeEnd` or whose ranges are made of
scalar values the result is one code point of the class. -/
theorem genCharClass_main (runes : List Int) (rand : Rand) (h : classSafe runes = true)
    (hfit : classFits runes = true) :
    ∃ w, genCharClass runes rand = .ok (w, rand.tail) ∧
      (reachesEnd runes = true ∨ scalarRanges runes = true →
        ∃ c : Nat, w = [c] ∧ inClass (c : Int) runes) := by
  simp only [classSafe, Bool.and_eq_true, Bool.not_eq_true', List.isEmpty_eq_false,
    Bool.or_eq_true] at h
  obtain ⟨⟨hne, hok⟩, hp⟩ := h
  cases hre : reachesEnd runes with
  | true =>
    rw [hre] at hp
    have hpr : hasPrintable runes = true := by simpa using hp
    simp only [hasPrintable, List.any_eq_true] at hpr
    obtain ⟨c0, hc0, hin0⟩ := hpr
    have hmem : c0 ∈ printableChars.filter (fun c : Nat => inClassB (c : Int) runes) :=
      List.mem_filter.mpr ⟨hc0, hin0⟩
    have hlen : 0 < (printableChars.filter (fun c : Nat => inClassB (c : Int) runes)).length :=
      List.length_pos_of_mem hmem
    have hposI : (0 : Int) <
        ((printableChars.filter (fun c : Nat => inClassB (c : Int) runes)).length : Int) := by
      omega
    obtain ⟨c, e, hcm, _⟩ := index_spec (printableChars.filter (fun c : Nat => inClassB (c : Int) runes))
      ((rand 0 : Int) % ((printableChars.filter
        (fun c : Nat => inClassB (c : Int) runes)).length : Int))
      (Int.emod_nonneg _ (by omega)) (Int.emod_lt_of_pos _ hposI)
    refine ⟨[c], ?_, fun _ => ⟨c, rfl, inClass_of_inClassB _ _ (List.mem_filter.mp hcm).2⟩⟩
    simp only [genCharClass, classSum_reaches runes 0 hok hre, possibleChars_ok runes hok,
      if_true, if_pos hlen, Intn_pos rand _ hposI, e]
  | false =>
    simp only [classFits, hre, Bool.false_or, Bool.and_eq_true, decide_eq_true_eq] at hfit
    have hpos := classTotal_pos runes hok hne
    have hsum : classSum runes 0 = .ok (classTotal runes) := by
      rw [classSum_bounded runes 0 hok hre hfit.1 le_rfl (by omega), zero_add]
    have hne1 : ¬ classTotal runes = -1 := by omega
    have h0 := Int.emod_nonneg (rand 0 : Int) (show classTotal runes ≠ 0 by omega)
    have h1 := Int.emod_lt_of_pos (rand 0 : Int) hpos
    obtain ⟨ru, e, hin⟩ := pickRune_spec ((rand 0 : Int) % classTotal runes) runes 0 hok
      hfit.1 le_rfl (by omega) h0 (by omega)
    refine ⟨stringOfRune ru, ?_, fun hs => ?_⟩
    · simp only [genCharClass, hsum, if_neg hne1, pickFromSum, Intn_pos rand _ hpos, e]
    · rcases hs with hs | hs
      · simp at hs
      · obtain ⟨e1, e2⟩ := stringOfRune_scalar ru (isScalar_of_inClass ru runes hs hin)
        refine ⟨ru.toNat, e1, ?_⟩
        rw [Int.toNat_of_nonneg e2]
        exact hin

theorem printableChars_small : ∀ c ∈ printableChars, c ≤ 0x10ffff := by decide

theorem printableCharsNoNL_small : ∀ c ∈ printableCharsNoNL, c ≤ 0x10ffff ∧ c ≠ 10 := by
  decide

/-- What the cases `OpAnyChar`, `OpAnyCharNotNL` return on a non-empty alphabet: the
character at the drawn index. -/
theorem genAnyChar_main (chars : List Nat) (rand : Rand) (h : 0 < chars.length) :
    ∃ c, c ∈ chars ∧ genAnyChar chars rand = .ok ([c], rand.tail) ∧
      chars.get? ((rand 0 : Int) % (chars.length : Int)).toNat = some c := by
  have hposI : (0 : Int) < (chars.length : Int) := by omega
  obtain ⟨c, e, hcm, hget⟩ := index_spec chars ((rand 0 : Int) % (chars.length : Int))
    (Int.emod_nonneg _ (by omega)) (Int.emod_lt_of_pos _ hposI)
  exact ⟨c, hcm, by simp only [genAnyChar, Intn_pos rand _ hposI, e], hget⟩

/-! ## Trees -/

@[simp] theorem setSub_Op (re : Regexp) (l : List Regexp) : (re.setSub l).Op = re.Op := by
  cases re; rfl

@[simp] theorem setSub_Rune (re : Regexp) (l : List Regexp) : (re.setSub l).Rune = re.Rune := by
  cases re; rfl

@[simp] theorem setSub_Min (re : Regexp) (l : List Regexp) : (re.setSub l).Min = re.Min := by
  cases re; rfl

@[simp] theorem setSub_Max (re : Regexp) (l : List Regexp) : (re.setSub l).Max = re.Max := by
  cases re; rfl

@[simp] theorem setSub_Sub (re : Regexp) (l : List Regexp) : (re.setSub l).Sub = l := by
  cases re; rfl

@[simp] theorem setSub_Sub0 (re : Regexp) (l : List Regexp) : (re.setSub l).Sub0 = re.Sub0 := by
  cases re; rfl

@[simp] theorem setSub0_Op (re : Regexp) (o : Option Regexp) : (re.setSub0 o).Op = re.Op := by
  cases re; rfl

@[simp] theorem setSub0_Rune (re : Regexp) (o : Option Regexp) :
    (re.setSub0 o).Rune = re.Rune := by
  cases re; rfl

@[simp] theorem setSub0_Min (re : Regexp) (o : Option Regexp) : (re.setSub0 o).Min = re.Min := by
  cases re; rfl

@[simp] theorem setSub0_Max (re : Regexp) (o : Option Regexp) : (re.setSub0 o).Max = re.Max := by
  cases re; rfl

@[simp] theorem setSub0_Sub (re : Regexp) (o : Option Regexp) : (re.setSub0 o).Sub = re.Sub := by
  cases re; rfl

@[simp] theorem setSub0_Sub0 (re : Regexp) (o : Option Regexp) : (re.setSub0 o).Sub0 = o := by
  cases re; rfl

@[simp] theorem setMax_Rune (re : Regexp) (m : Int) : (re.setMax m).Rune = re.Rune := by
  cases re; rfl

@[simp] theorem setMax_Sub0 (re : Regexp) (m : Int) : (re.setMax m).Sub0 = re.Sub0 := by
  cases re; rfl

theorem depth_le_depthList : ∀ (l : List Regexp) (r : Regexp), r ∈ l → r.depth ≤ depthList l
  | [], _, h => by cases h
  | x :: xs, r, h => by
    rw [depthList]
    rcases List.mem_cons.mp h with rfl | h
    · exact le_max_left _ _
    · exact le_trans (depth_le_depthList xs r h) (le_max_right _ _)

theorem all_of_allList (p : Regexp → Bool) : ∀ (l : List Regexp) (r : Regexp),
    allList p l = true → r ∈ l → r.all p = true
  | [], _, _, h => by cases h
  | x :: xs, r, ha, h => by
    rw [allList, Bool.and_eq_true] at ha
    rcases List.mem_cons.mp h with rfl | h
    · exact ha.1
    · exact all_of_allList p xs r ha.2 h

theorem CapOfList_get (L : Int) : ∀ (l0 l : List Regexp) (k : Nat) (r : Regexp),
    CapOfList L l0 l → l.get? k = some r → ∃ r0, l0.get? k = some r0 ∧ r0 ∈ l0 ∧ CapOf L r0 r
  | [], l, k, r, hc, hg => by
    rw [CapOfList] at hc
    subst hc
    cases hg
  | x0 :: xs0, l, k, r, hc, hg => by
    rw [CapOfList] at hc
    obtain ⟨x, xs, rfl, hx, hxs⟩ := hc
    cases k with
    | zero =>
      simp only [List.get?_cons_zero, Option.some.injEq] at hg
      subst hg
      exact ⟨x0, rfl, List.mem_cons_self _ _, hx⟩
    | succ k =>
      simp only [List.get?_cons_succ] at hg
      obtain ⟨r0, e, hm, hr⟩ := CapOfList_get L xs0 xs k r hxs hg
      exact ⟨r0, by simpa using e, List.mem_cons_of_mem _ hm, hr⟩

theorem CapOfList_set (L : Int) : ∀ (l0 l : List Regexp) (k : Nat) (r0 r1 : Regexp),
    CapOfList L l0 l → l0.get? k = some r0 → CapOf L r0 r1 → CapOfList L l0 (l.set k r1)
  | [], l, k, r0, r1, _, hg, _ => by cases hg
  | x0 :: xs0, l, k, r0, r1, hc, hg, h1 => by
    rw [CapOfList] at hc
    obtain ⟨x, xs, rfl, hx, hxs⟩ := hc
    cases k with
    | zero =>
      simp only [List.get?_cons_zero, Option.some.injEq] at hg
      subst hg
      rw [List.set_cons_zero, CapOfList]
      exact ⟨r1, xs, rfl, h1, hxs⟩
    | succ k =>
      simp only [List.get?_cons_succ] at hg
      rw [List.set_cons_succ, CapOfList]
      exact ⟨x, xs.set k r1, rfl, hx, CapOfList_set L xs0 xs k r0 r1 hxs hg h1⟩

theorem CapOfList_length (L : Int) : ∀ (l0 l : List Regexp), CapOfList L l0 l →
    l.length = l0.length
  | [], l, hc => by
    rw [CapOfList] at hc
    subst hc
    rfl
  | x0 :: xs0, l, hc => by
    rw [CapOfList] at hc
    obtain ⟨x, xs, rfl, _, hxs⟩ := hc
    simp only [List.length_cons, CapOfList_length L xs0 xs hxs]

theorem MatchesAny_of_mem : ∀ (l : List Regexp) (r : Regexp) (w : Str), r ∈ l →
    Matches r w → MatchesAny l w
  | [], _, _, h, _ => by cases h
  | x :: xs, r, w, h, hm => by
    rw [MatchesAny]
    rcases List.mem_cons.mp h with rfl | h
    · exact Or.inl hm
    · exact Or.inr (MatchesAny_of_mem xs r w h hm)

theorem CapOf_refl (L : Int) (re : Regexp) : CapOf L re re := by
  refine Regexp.rec (motive_1 := fun re => CapOf L re re)
    (motive_2 := fun l => CapOfList L l l) (motive_3 := fun o => CapOfOpt L o o)
    ?_ ?_ ?_ ?_ ?_ re
  · intro op rune sub sub0 mn mx h2 h3
    rw [CapOf]
    exact ⟨rfl, rfl, rfl, Or.inl rfl, h2, h3⟩
  · show CapOfList L [] []
    rw [CapOfList]
  · intro hd tl h1 h2
    show CapOfList L (hd :: tl) (hd :: tl)
    rw [CapOfList]
    exact ⟨hd, tl, rfl, h1, h2⟩
  · show CapOfOpt L none none
    rw [CapOfOpt]
  · intro v h
    show CapOfOpt L (some v) (some v)
    rw [CapOfOpt]
    exact ⟨v, rfl, h⟩

theorem classFits_of_roundTrip (runes : List Int)
    (h : reachesEnd runes = true ∨
      (scalarRanges runes = true ∧ classTotal runes < 9223372036854775808)) :
    classFits runes = true := by
  simp only [classFits, Bool.or_eq_true, Bool.and_eq_true, decide_eq_true_eq]
  rcases h with h | h
  · exact Or.inl h
  · exact Or.inr ⟨fitRanges_of_scalar runes h.1, h.2⟩

theorem safeNode_of_roundTripNode (re : Regexp) (h : roundTripNode re = true) :
    safeNode re = true := by
  unfold roundTripNode at h
  unfold safeNode
  cases hop : re.Op <;> simp only [hop] at h ⊢ <;> try trivial
  · simp only [Bool.and_eq_true, Bool.or_eq_true, decide_eq_true_eq] at h
    simp only [Bool.and_eq_true]
    exact ⟨h.1, classFits_of_roundTrip _ h.2⟩
  · simp only [Bool.and_eq_true, decide_eq_true_eq] at h ⊢
    exact h.1.1

theorem all_safe_of_roundTrip (re : Regexp) :
    re.all roundTripNode = true → re.all safeNode = true := by
  refine Regexp.rec (motive_1 := fun re => re.all roundTripNode = true → re.all safeNode = true)
    (motive_2 := fun l => allList roundTripNode l = true → allList safeNode l = true)
    (motive_3 := fun o => allOpt roundTripNode o = true → allOpt safeNode o = true)
    ?_ ?_ ?_ ?_ ?_ re
  · intro op rune sub sub0 mn mx h2 h3 h
    rw [Regexp.all, Bool.and_eq_true, Bool.and_eq_true] at h
    rw [Regexp.all, Bool.and_eq_true, Bool.and_eq_true]
    exact ⟨⟨safeNode_of_roundTripNode _ h.1.1, h2 h.1.2⟩, h3 h.2⟩
  · intro _
    rfl
  · intro hd tl h1 h2 h
    rw [allList, Bool.and_eq_true] at h
    rw [allList, Bool.and_eq_true]
    exact ⟨h1 h.1, h2 h.2⟩
  · intro _
    rfl
  · intro v h1 h
    rw [allOpt] at h
    rw [allOpt]
    exact h1 h

/-! ## Loops over the children -/

theorem genSubs_main (L : Int) (g : Regexp → Rand → Res (Str × Regexp × Rand)) :
    ∀ (subs0 subs : List Regexp) (rand : Rand),
    (∀ r0 ∈ subs0, GenOK L g r0) → CapOfList L subs0 subs →
    ∃ w subs1 rand1, genSubs g subs rand = .ok (w, subs1, rand1) ∧ CapOfList L subs0 subs1 ∧
      (allList roundTripNode subs0 = true → MatchesSeq subs0 w)
  | [], subs, rand, _, hc => by
    rw [CapOfList] at hc
    subst hc
    refine ⟨[], [], rand, rfl, ?_, fun _ => ?_⟩
    · rw [CapOfList]
    · rw [MatchesSeq]
  | r0 :: rs0, subs, rand, hg, hc => by
    rw [CapOfList] at hc
    obtain ⟨r, rs, rfl, hr, hrs⟩ := hc
    obtain ⟨w1, r1, rand1, e1, c1, m1⟩ := hg r0 (List.mem_cons_self _ _) r rand hr
    obtain ⟨w2, rs1, rand2, e2, c2, m2⟩ := genSubs_main L g rs0 rs rand1
      (fun x hx => hg x (List.mem_cons_of_mem _ hx)) hrs
    refine ⟨w1 ++ w2, r1 :: rs1, rand2, by simp only [genSubs, e1, e2], ?_, fun ha => ?_⟩
    · rw [CapOfList]
      exact ⟨r1, rs1, rfl, c1, c2⟩
    · rw [allList, Bool.and_eq_true] at ha
      rw [MatchesSeq]
      exact ⟨w1, w2, rfl, m1 ha.1, m2 ha.2⟩

theorem genLoop_main (L : Int) (g : Regexp → Rand → Res (Str × Regexp × Rand))
    (subs0 : List Regexp) (hg : ∀ r0 ∈ subs0, GenOK L g r0) :
    ∀ (n : Nat) (subs : List Regexp) (rand : Rand), CapOfList L subs0 subs →
    ∃ w subs1 rand1, genLoop g n subs rand = .ok (w, subs1, rand1) ∧ CapOfList L subs0 subs1 ∧
      (allList roundTripNode subs0 = true → RepOf (MatchesSeq subs0) n w)
  | 0, subs, rand, hc => ⟨[], subs, rand, rfl, hc, fun _ => rfl⟩
  | n + 1, subs, rand, hc => by
    obtain ⟨w1, subs1, rand1, e1, c1, m1⟩ := genSubs_main L g subs0 subs rand hg hc
    obtain ⟨w2, subs2, rand2, e2, c2, m2⟩ := genLoop_main L g subs0 hg n subs1 rand1 c1
    exact ⟨w1 ++ w2, subs2, rand2, by simp only [genLoop, e1, e2], c2,
      fun ha => ⟨w1, w2, rfl, m1 ha, m2 ha⟩⟩

/-! ## The recursion -/

/-- Main invariant of `generate`, at a limit in `[1, 2^63 - 2]` and with a budget of at
least the depth of the tree: on a tree whose nodes satisfy `safeNode` the call returns; the
tree it leaves behind differs from the tree as parsed at most by the capped `Max` fields;
and on a tree of the round trip the returned word is in the language of the tree as
parsed. -/
theorem generate_main (s : state) (hL : 1 ≤ s.limit) (hL2 : s.limit < 9223372036854775807) :
    ∀ (fuel : Nat) (re0 : Regexp),
    re0.depth ≤ fuel → re0.all safeNode = true → GenOK s.limit (generate fuel s) re0
  | 0, .mk _ _ _ _ _ _, hd, _ => by
    rw [Regexp.depth] at hd
    omega
  | fuel + 1, .mk op rune sub sub0 mn mx, hd, hs => by
    intro re rand hc
    have hc0 := hc
    rw [CapOf] at hc
    obtain ⟨hop, hrune, hmin, hmax, hsub, hsub0⟩ := hc
    rw [Regexp.depth] at hd
    have hd1 : depthList sub ≤ fuel := by
      have := le_max_left (depthList sub) (depthOpt sub0)
      omega
    have hd2 : depthOpt sub0 ≤ fuel := by
      have := le_max_right (depthList sub) (depthOpt sub0)
      omega
    rw [Regexp.all, Bool.and_eq_true, Bool.and_eq_true] at hs
    obtain ⟨⟨hnode, hsl⟩, hso⟩ := hs
    have hkids : ∀ r0 ∈ sub, GenOK s.limit (generate fuel s) r0 := fun r0 hr0 =>
      generate_main s hL hL2 fuel r0 (le_trans (depth_le_depthList sub r0 hr0) hd1)
        (all_of_allList _ sub r0 hsl hr0)
    have hrtn : ∀ {P : Prop}, ((Regexp.mk op rune sub sub0 mn mx).all roundTripNode = true) →
        (roundTripNode (.mk op rune sub sub0 mn mx) = true →
          allList roundTripNode sub = true → allOpt roundTripNode sub0 = true → P) → P := by
      intro P h k
      rw [Regexp.all, Bool.and_eq_true, Bool.and_eq_true] at h
      exact k h.1.1 h.1.2 h.2
    cases op with
    | OpNoMatch =>
      exact ⟨[], re, rand, by simp only [generate, hop], hc0,
        fun h => hrtn h (fun h1 _ _ => by simp [roundTripNode, Regexp.Op] at h1)⟩
    | OpEmptyMatch =>
      exact ⟨[], re, rand, by simp only [generate, hop], hc0, fun _ => by rw [Matches]⟩
    | OpLiteral =>
      refine ⟨literalString re.Rune, re, rand, by simp only [generate, hop], hc0,
        fun h => hrtn h (fun h1 _ _ => ?_)⟩
      have h2 : rune.all isScalar = true := by
        simpa [roundTripNode, Regexp.Op, Regexp.Rune] using h1
      rw [Matches, hrune]
      exact literalString_scalar rune h2
    | OpCharClass =>
      have hcs : classSafe rune = true ∧ classFits rune = true := by
        simpa [safeNode, Regexp.Op, Regexp.Rune] using hnode
      obtain ⟨w, e, hm⟩ := genCharClass_main rune rand hcs.1 hcs.2
      refine ⟨w, re, rand.tail, by simp only [generate, hop, hrune, e], hc0,
        fun h => hrtn h (fun h1 _ _ => ?_)⟩
      have h2 : reachesEnd rune = true ∨ scalarRanges rune = true := by
        simp only [roundTripNode, Regexp.Op, Regexp.Rune, Bool.and_eq_true,
          Bool.or_eq_true] at h1
        exact h1.2.imp id (fun h => h.1)
      rw [Matches]
      exact hm h2
    | OpAnyCharNotNL =>
      obtain ⟨c, hcm, e, _⟩ := genAnyChar_main printableCharsNoNL rand (by decide)
      refine ⟨[c], re, rand.tail, by simp only [generate, hop, e], hc0, fun _ => ?_⟩
      rw [Matches]
      exact ⟨c, rfl, printableCharsNoNL_small c hcm⟩
    | OpAnyChar =>
      obtain ⟨c, hcm, e, _⟩ := genAnyChar_main printableChars rand (by decide)
      refine ⟨[c], re, rand.tail, by simp only [generate, hop, e], hc0, fun _ => ?_⟩
      rw [Matches]
      exact ⟨c, rfl, printableChars_small c hcm⟩
    | OpBeginLine =>
      exact ⟨[], re, rand, by simp only [generate, hop], hc0,
        fun h => hrtn h (fun h1 _ _ => by simp [roundTripNode, Regexp.Op] at h1)⟩
    | OpEndLine =>
      exact ⟨[], re, rand, by simp only [generate, hop], hc0,
        fun h => hrtn h (fun h1 _ _ => by simp [roundTripNode, Regexp.Op] at h1)⟩
    | OpBeginText =>
      exact ⟨[], re, rand, by simp only [generate, hop], hc0,
        fun h => hrtn h (fun h1 _ _ => by simp [roundTripNode, Regexp.Op] at h1)⟩
    | OpEndText =>
      exact ⟨[], re, rand, by simp only [generate, hop], hc0,
        fun h => hrtn h (fun h1 _ _ => by simp [roundTripNode, Regexp.Op] at h1)⟩
    | OpWordBoundary =>
      exact ⟨[], re, rand, by simp only [generate, hop], hc0,
        fun h => hrtn h (fun h1 _ _ => by simp [roundTripNode, Regexp.Op] at h1)⟩
    | OpNoWordBoundary =>
      exact ⟨[], re, rand, by simp only [generate, hop], hc0,
        fun h => hrtn h (fun h1 _ _ => by simp [roundTripNode, Regexp.Op] at h1)⟩
    | OpUnknown code =>
      exact ⟨[], re, rand, by simp only [generate, hop], hc0,
        fun h => hrtn h (fun h1 _ _ => by simp [roundTripNode, Regexp.Op] at h1)⟩
    | OpCapture =>
      have hsome : sub0.isSome = true := by
        simpa [safeNode, Regexp.Op, Regexp.Sub0] using hnode
      obtain ⟨child0, rfl⟩ := Option.isSome_iff_exists.mp hsome
      rw [CapOfOpt] at hsub0
      obtain ⟨child, hch, hcc⟩ := hsub0
      rw [allOpt] at hso
      rw [depthOpt] at hd2
      obtain ⟨w, child1, rand1, e, c1, m1⟩ :=
        generate_main s hL hL2 fuel child0 hd2 hso child rand hcc
      refine ⟨w, re.setSub0 (some child1), rand1, by simp only [generate, hop, hch, e], ?_,
        fun h => hrtn h (fun _ _ h3 => ?_)⟩
      · rw [CapOf]
        simp only [setSub0_Op, setSub0_Rune, setSub0_Min, setSub0_Max, setSub0_Sub,
          setSub0_Sub0]
        refine ⟨hop, hrune, hmin, hmax, hsub, ?_⟩
        rw [CapOfOpt]
        exact ⟨child1, rfl, c1⟩
      · rw [allOpt] at h3
        rw [Matches, MatchesOpt]
        exact m1 h3
    | OpStar =>
      have hpos : 0 < s.limit + 1 := by omega
      have hw : wrap64 (s.limit + 1) = s.limit + 1 := wrap64_eq _ (by omega) (by omega)
      obtain ⟨w, subs1, rand1, e, c1, m1⟩ := genLoop_main s.limit (generate fuel s) sub hkids
        ((rand 0 : Int) % (s.limit + 1)).toNat re.Sub rand.tail hsub
      refine ⟨w, re.setSub subs1, rand1, ?_, ?_, fun h => hrtn h (fun _ h2 _ => ?_)⟩
      · simp only [generate, hop, hw, Intn_pos rand _ hpos, e, withSub]
      · rw [CapOf]
        simp only [setSub_Op, setSub_Rune, setSub_Min, setSub_Max, setSub_Sub, setSub_Sub0]
        exact ⟨hop, hrune, hmin, hmax, c1, hsub0⟩
      · rw [Matches]
        exact ⟨_, m1 h2⟩
    | OpPlus =>
      have hpos : 0 < s.limit := by omega
      have h0 := Int.emod_nonneg (rand 0 : Int) (show s.limit ≠ 0 by omega)
      have h1 := Int.emod_lt_of_pos (rand 0 : Int) hpos
      have hw : wrap64 ((rand 0 : Int) % s.limit + 1) = (rand 0 : Int) % s.limit + 1 :=
        wrap64_eq _ (by omega) (by omega)
      obtain ⟨w, subs1, rand1, e, c1, m1⟩ := genLoop_main s.limit (generate fuel s) sub hkids
        ((rand 0 : Int) % s.limit + 1).toNat re.Sub rand.tail hsub
      refine ⟨w, re.setSub subs1, rand1, ?_, ?_, fun h => hrtn h (fun _ h2 _ => ?_)⟩
      · simp only [generate, hop, Intn_pos rand _ hpos]
        rw [hw, e]
        rfl
      · rw [CapOf]
        simp only [setSub_Op, setSub_Rune, setSub_Min, setSub_Max, setSub_Sub, setSub_Sub0]
        exact ⟨hop, hrune, hmin, hmax, c1, hsub0⟩
      · rw [Matches]
        exact ⟨_, by omega, m1 h2⟩
    | OpQuest =>
      have h1 := Int.emod_lt_of_pos (rand 0 : Int) (show (0 : Int) < 2 by omega)
      obtain ⟨w, subs1, rand1, e, c1, m1⟩ := genLoop_main s.limit (generate fuel s) sub hkids
        ((rand 0 : Int) % 2).toNat re.Sub rand.tail hsub
      refine ⟨w, re.setSub subs1, rand1, ?_, ?_, fun h => hrtn h (fun _ h2 _ => ?_)⟩
      · simp only [generate, hop, Intn_pos rand 2 (by omega), e, withSub]
      · rw [CapOf]
        simp only [setSub_Op, setSub_Rune, setSub_Min, setSub_Max, setSub_Sub, setSub_Sub0]
        exact ⟨hop, hrune, hmin, hmax, c1, hsub0⟩
      · rw [Matches]
        exact ⟨_, by omega, m1 h2⟩
    | OpRepeat =>
      have hmn : 0 ≤ mn := by
        simpa [safeNode, Regexp.Op, Regexp.Min] using hnode
      have hcap : capMax re.Max s.limit = capMax mx s.limit := by
        rcases hmax with h | h
        · rw [h]
        · rw [h, capMax_idem]
      have hrange := capMax_range mx s.limit
      have hexact : roundTripNode (.mk .OpRepeat rune sub sub0 mn mx) = true →
          (mx = -1 ∨ mn ≤ mx) ∧ capMax mx s.limit = min mx s.limit := by
        intro h2
        simp only [roundTripNode, Regexp.Op, Regexp.Min, Regexp.Max, Bool.and_eq_true,
          Bool.or_eq_true, decide_eq_true_eq] at h2
        exact ⟨h2.1.2, capMax_exact mx s.limit (by omega) h2.2 hL⟩
      by_cases hgt : capMax mx s.limit > mn
      · have hpos : 0 < capMax mx s.limit - mn + 1 := by omega
        have hw : wrap64 (capMax mx s.limit - mn + 1) = capMax mx s.limit - mn + 1 :=
          wrap64_eq _ (by omega) (by omega)
        have h0 : 0 ≤ (rand 0 : Int) % (capMax mx s.limit - mn + 1) :=
          Int.emod_nonneg _ (by omega)
        have h1 := Int.emod_lt_of_pos (rand 0 : Int) hpos
        have hw2 : wrap64 (mn + (rand 0 : Int) % (capMax mx s.limit - mn + 1)) =
            mn + (rand 0 : Int) % (capMax mx s.limit - mn + 1) :=
          wrap64_eq _ (by omega) (by omega)
        obtain ⟨w, subs1, rand1, e, c1, m1⟩ := genLoop_main s.limit (generate fuel s) sub
          hkids (rounds mn (mn + (rand 0 : Int) % (capMax mx s.limit - mn + 1))) re.Sub
          rand.tail hsub
        refine ⟨w, (re.setMax (capMax mx s.limit)).setSub subs1, rand1, ?_, ?_,
          fun h => hrtn h (fun h2 h3 _ => ?_)⟩
        · simp only [generate, hop, setMax_Max, setMax_Min, setMax_Sub, hcap, hmin,
            if_pos hgt, hw, Intn_pos rand _ hpos, hw2, e, withSub]
        · rw [CapOf]
          simp only [setSub_Op, setSub_Rune, setSub_Min, setSub_Max, setSub_Sub, setSub_Sub0,
            setMax_Op, setMax_Rune, setMax_Min, setMax_Max, setMax_Sub0]
          exact ⟨hop, hrune, hmin, Or.inr trivial, c1, hsub0⟩
        · obtain ⟨h4, h5⟩ := hexact h2
          rw [Matches]
          refine ⟨_, ?_, ?_, m1 h3⟩
          · rw [rounds_add _ _ h0, Int.toNat_of_nonneg (by omega)]
            omega
          · right
            rw [rounds_add _ _ h0, Int.toNat_of_nonneg (by omega)]
            have := min_le_left mx s.limit
            omega
      · obtain ⟨w, subs1, rand1, e, c1, m1⟩ := genLoop_main s.limit (generate fuel s) sub
          hkids (rounds mn (wrap64 (mn + 0))) re.Sub rand hsub
        refine ⟨w, (re.setMax (capMax mx s.limit)).setSub subs1, rand1, ?_, ?_,
          fun h => hrtn h (fun h2 h3 _ => ?_)⟩
        · simp only [generate, hop, setMax_Max, setMax_Min, setMax_Sub, hcap, hmin,
            if_neg hgt, e, withSub]
        · rw [CapOf]
          simp only [setSub_Op, setSub_Rune, setSub_Min, setSub_Max, setSub_Sub, setSub_Sub0,
            setMax_Op, setMax_Rune, setMax_Min, setMax_Max, setMax_Sub0]
          exact ⟨hop, hrune, hmin, Or.inr trivial, c1, hsub0⟩
        · obtain ⟨h4, _⟩ := hexact h2
          rw [Matches]
          refine ⟨_, ?_, ?_, m1 h3⟩
          · rw [rounds_wrap_self mn hmn, Int.toNat_of_nonneg hmn]
          · rw [rounds_wrap_self mn hmn, Int.toNat_of_nonneg hmn]
            exact h4
    | OpConcat =>
      obtain ⟨w, subs1, rand1, e, c1, m1⟩ :=
        genSubs_main s.limit (generate fuel s) sub re.Sub rand hkids hsub
      refine ⟨w, re.setSub subs1, rand1, ?_, ?_, fun h => hrtn h (fun _ h2 _ => ?_)⟩
      · simp only [generate, hop, e, withSub]
      · rw [CapOf]
        simp only [setSub_Op, setSub_Rune, setSub_Min, setSub_Max, setSub_Sub, setSub_Sub0]
        exact ⟨hop, hrune, hmin, hmax, c1, hsub0⟩
      · rw [Matches]
        exact m1 h2
    | OpAlternate =>
      have hne : sub ≠ [] := by
        simpa [safeNode, Regexp.Op, Regexp.Sub] using hnode
      have hlen := CapOfList_length s.limit sub re.Sub hsub
      have hposI : (0 : Int) < (re.Sub.length : Int) := by
        have := List.length_pos.mpr hne
        omega
      obtain ⟨child, e, _, hget⟩ := index_spec re.Sub ((rand 0 : Int) % (re.Sub.length : Int))
        (Int.emod_nonneg _ (by omega)) (Int.emod_lt_of_pos _ hposI)
      obtain ⟨child0, hget0, hmem0, hcc⟩ := CapOfList_get s.limit sub re.Sub _ child hsub hget
      obtain ⟨w, child1, rand1, e1, c1, m1⟩ := hkids child0 hmem0 child rand.tail hcc
      refine ⟨w, re.setSub (re.Sub.set ((rand 0 : Int) % (re.Sub.length : Int)).toNat child1),
        rand1, ?_, ?_, fun h => hrtn h (fun _ h2 _ => ?_)⟩
      · simp only [generate, hop, Intn_pos rand _ hposI, e, e1]
      · rw [CapOf]
        simp only [setSub_Op, setSub_Rune, setSub_Min, setSub_Max, setSub_Sub, setSub_Sub0]
        exact ⟨hop, hrune, hmin, hmax,
          CapOfList_set s.limit sub re.Sub _ child0 child1 hsub hget0 c1, hsub0⟩
      · rw [Matches]
        exact MatchesAny_of_mem sub child0 w hmem0
          (m1 (all_of_allList _ sub child0 h2 hmem0))

theorem depth_pos (re : Regexp) : re.depth = (re.depth - 1) + 1 := by
  cases re
  rw [Regexp.depth]
  omega

theorem genAnyChar_hit (chars : List Nat) (c : Nat) (hc : c ∈ chars) (rest : Rand) :
    ∃ d : Nat, genAnyChar chars (Rand.cons d rest) = .ok ([c], rest) := by
  obtain ⟨n, hn⟩ := List.get?_of_mem hc
  have hlt : n < chars.length := by
    rcases Nat.lt_or_ge n chars.length with h | h
    · exact h
    · rw [List.get?_eq_none.mpr h] at hn
      cases hn
  obtain ⟨c1, _, e, hget⟩ := genAnyChar_main chars (Rand.cons n rest) (by omega)
  rw [cons_zero, Int.emod_eq_of_lt (by omega) (by omega), Int.toNat_ofNat, hn] at hget
  cases hget
  rw [cons_tail] at e
  exact ⟨n, e⟩

theorem genSubs_ok_iff (g : Regexp → Rand → Res (Str × Regexp × Rand)) :
    ∀ (subs : List Regexp) (rand : Rand) (w : Str) (subs1 : List Regexp) (rand1 : Rand),
    genSubs g subs rand = .ok (w, subs1, rand1) ↔ Chain g subs rand w subs1 rand1
  | [], rand, w, subs1, rand1 => by
    constructor
    · intro h
      simp only [genSubs, Except.ok.injEq, Prod.mk.injEq] at h
      obtain ⟨rfl, rfl, rfl⟩ := h
      exact Chain.nil rand
    · intro h
      cases h
      rfl
  | r :: rs, rand, w, subs1, rand1 => by
    constructor
    · intro h
      rw [genSubs] at h
      cases h1 : g r rand with
      | error e => simp only [h1] at h; cases h
      | ok v1 =>
        obtain ⟨w1, r1, rand2⟩ := v1
        cases h2 : genSubs g rs rand2 with
        | error e => simp only [h1, h2] at h; cases h
        | ok v2 =>
          obtain ⟨w2, rs1, rand3⟩ := v2
          simp only [h1, h2, Except.ok.injEq, Prod.mk.injEq] at h
          obtain ⟨rfl, rfl, rfl⟩ := h
          exact Chain.cons h1 ((genSubs_ok_iff g rs rand2 w2 rs1 rand3).mp h2)
    · intro h
      cases h with
      | cons h1 h2 =>
        rw [genSubs]
        simp only [h1, (genSubs_ok_iff g rs _ _ _ _).mpr h2]

theorem genSubs_error_iff (g : Regexp → Rand → Res (Str × Regexp × Rand)) :
    ∀ (subs : List Regexp) (rand : Rand) (e : Fault),
    genSubs g subs rand = .error e ↔
      ∃ (pre : List Regexp) (r : Regexp) (post : List Regexp) (w : Str)
        (pre1 : List Regexp) (rand1 : Rand),
        subs = pre ++ r :: post ∧ Chain g pre rand w pre1 rand1 ∧ g r rand1 = .error e
  | [], rand, e => by
    constructor
    · intro h
      cases h
    · rintro ⟨pre, r, post, w, pre1, rand1, h, _, _⟩
      cases pre <;> cases h
  | r :: rs, rand, e => by
    constructor
    · intro h
      rw [genSubs] at h
      cases h1 : g r rand with
      | error e1 =>
        simp only [h1, Except.error.injEq] at h
        subst h
        exact ⟨[], r, rs, [], [], rand, rfl, Chain.nil rand, h1⟩
      | ok v1 =>
        obtain ⟨w1, r1, rand2⟩ := v1
        cases h2 : genSubs g rs rand2 with
        | error e2 =>
          simp only [h1, h2, Except.error.injEq] at h
          subst h
          obtain ⟨pre, x, post, w, pre1, rand1, hs, hc, hx⟩ :=
            (genSubs_error_iff g rs rand2 e2).mp h2
          exact ⟨r :: pre, x, post, w1 ++ w, r1 :: pre1, rand1, by rw [hs]; rfl,
            Chain.cons h1 hc, hx⟩
        | ok v2 =>
          obtain ⟨w2, rs1, rand3⟩ := v2
          simp only [h1, h2] at h
          cases h
    · rintro ⟨pre, x, post, w, pre1, rand1, hs, hc, hx⟩
      rw [genSubs]
      cases pre with
      | nil =>
        simp only [List.nil_append, List.cons.injEq] at hs
        obtain ⟨rfl, rfl⟩ := hs
        cases hc
        simp only [hx]
      | cons p ps =>
        simp only [List.cons_append, List.cons.injEq] at hs
        obtain ⟨rfl, rfl⟩ := hs
        cases hc with
        | cons h1 h2 =>
          have := (genSubs_error_iff g (ps ++ x :: post) _ e).mpr
            ⟨ps, x, post, _, _, _, rfl, h2, hx⟩
          simp only [h1, this]

/-! ## Classes: the unbounded branch on pairs, and the index walk -/

theorem classSum_reaches_even : ∀ (runes : List Int) (acc : Int), evenRunes runes = true →
    reachesEnd runes = true → classSum runes acc = .ok (-1)
  | [], _, _, h2 => by simp [reachesEnd] at h2
  | [_], _, h, _ => by simp [evenRunes] at h
  | lo :: hi :: rest, acc, h, h2 => by
    simp only [evenRunes] at h
    simp only [reachesEnd, Bool.or_eq_true, decide_eq_true_eq] at h2
    by_cases he : hi = runeRangeEnd
    · simp only [classSum, if_pos he]
    · simp only [classSum, if_neg he]
      exact classSum_reaches_even rest _ h (h2.resolve_left he)

theorem inRanges_even (c : Int) : ∀ runes : List Int, evenRunes runes = true →
    inRanges c runes = .ok (inClassB c runes)
  | [], _ => rfl
  | [_], h => by simp [evenRunes] at h
  | lo :: hi :: rest, h => by
    simp only [evenRunes] at h
    by_cases hc : c ≥ lo ∧ c ≤ hi
    · simp only [inRanges, if_pos hc, inClassB]
      simp [hc.1, hc.2]
    · simp only [inRanges, if_neg hc, inClassB, inRanges_even c rest h]
      have : (decide (lo ≤ c) && decide (c ≤ hi)) = false := by
        simp only [Bool.and_eq_false_imp, decide_eq_true_eq, decide_eq_false_iff_not]
        intro h1 h2
        exact hc ⟨h1, h2⟩
      rw [this, Bool.false_or]

theorem possibleChars_even (runes : List Int) (h : evenRunes runes = true) :
    ∀ cs : List Nat, possibleChars runes cs =
      .ok (cs.filter (fun c : Nat => inClassB (c : Int) runes))
  | [] => rfl
  | c :: cs => by
    simp only [possibleChars, inRanges_even _ runes h, possibleChars_even runes h cs,
      List.filter_cons]

/-- The unbounded branch of `OpCharClass`: on a list of pairs with a range ending at
`runeRangeEnd` and a printable character in a range, the result is the element at the
drawn index of the printable alphabet filtered by range membership. -/
theorem genCharClass_unbounded (runes : List Int) (rand : Rand)
    (hev : evenRunes runes = true) (hend : reachesEnd runes = true)
    (hp : hasPrintable runes = true) :
    ∃ c : Nat,
      (printableChars.filter (fun c : Nat => inClassB (c : Int) runes)).get?
        ((rand 0 : Int) %
          ((printableChars.filter (fun c : Nat => inClassB (c : Int) runes)).length : Int)).toNat
        = some c ∧
      c ∈ printableChars ∧ inClass (c : Int) runes ∧
      genCharClass runes rand = .ok ([c], rand.tail) := by
  simp only [hasPrintable, List.any_eq_true] at hp
  obtain ⟨c0, hc0, hin0⟩ := hp
  have hmem : c0 ∈ printableChars.filter (fun c : Nat => inClassB (c : Int) runes) :=
    List.mem_filter.mpr ⟨hc0, hin0⟩
  have hlen : 0 < (printableChars.filter (fun c : Nat => inClassB (c : Int) runes)).length :=
    List.length_pos_of_mem hmem
  have hposI : (0 : Int) <
      ((printableChars.filter (fun c : Nat => inClassB (c : Int) runes)).length : Int) := by
    omega
  obtain ⟨c, e, hcm, hget⟩ :=
    index_spec (printableChars.filter (fun c : Nat => inClassB (c : Int) runes))
      ((rand 0 : Int) % ((printableChars.filter
        (fun c : Nat => inClassB (c : Int) runes)).length : Int))
      (Int.emod_nonneg _ (by omega)) (Int.emod_lt_of_pos _ hposI)
  refine ⟨c, hget, (List.mem_filter.mp hcm).1,
    inClass_of_inClassB _ _ (List.mem_filter.mp hcm).2, ?_⟩
  simp only [genCharClass, classSum_reaches_even runes 0 hev hend,
    possibleChars_even runes hev, if_true, if_pos hlen, Intn_pos rand _ hposI, e]

theorem offsetAt_nonneg : ∀ (runes : List Int) (k : Nat), rangesOk runes = true →
    0 ≤ offsetAt runes k
  | [], _, _ => by simp [offsetAt]
  | [_], _, _ => by simp [offsetAt]
  | _ :: _ :: _, 0, _ => by simp [offsetAt]
  | lo :: hi :: rest, k + 1, h => by
    simp only [rangesOk, Bool.and_eq_true, decide_eq_true_eq] at h
    have := offsetAt_nonneg rest k h.2
    simp only [offsetAt]
    omega

theorem offsetAt_mono : ∀ (runes : List Int) (j k : Nat), rangesOk runes = true → j ≤ k →
    (∃ p, rangeAt runes k = some p) → offsetAt runes j ≤ offsetAt runes k
  | [], _, k, _, _, ⟨p, hp⟩ => by cases k <;> simp [rangeAt] at hp
  | [_], _, k, _, _, ⟨p, hp⟩ => by cases k <;> simp [rangeAt] at hp
  | lo :: hi :: rest, 0, k, h, _, _ => by
    have := offsetAt_nonneg (lo :: hi :: rest) k h
    simpa [offsetAt] using this
  | lo :: hi :: rest, j + 1, 0, _, hjk, _ => by omega
  | lo :: hi :: rest, j + 1, k + 1, h, hjk, ⟨p, hp⟩ => by
    simp only [rangesOk, Bool.and_eq_true, decide_eq_true_eq] at h
    have := offsetAt_mono rest j k h.2 (by omega) ⟨p, by simpa [rangeAt] using hp⟩
    simp only [offsetAt]
    omega

/-- The index walk of `OpCharClass`: the index `r` is owned by the first range whose
cumulative size exceeds it, and the rune is `lo + (r - offset)` in that range. -/
theorem pickRune_owner (r : Int) : ∀ (runes : List Int) (acc : Int), rangesOk runes = true →
    fitRanges runes = true → 0 ≤ acc → acc + classTotal runes < 9223372036854775808 →
    acc ≤ r → r < acc + classTotal runes →
    ∃ (k : Nat) (lo hi : Int), rangeAt runes k = some (lo, hi) ∧
      acc + offsetAt runes k ≤ r ∧ r < acc + offsetAt runes k + ((hi - lo) + 1) ∧
      pickRune r runes acc = .ok (lo + (r - (acc + offsetAt runes k))) ∧
      lo ≤ lo + (r - (acc + offsetAt runes k)) ∧ lo + (r - (acc + offsetAt runes k)) ≤ hi
  | [], acc, _, _, _, _, h1, h2 => by
    simp only [classTotal] at h2
    omega
  | [_], _, h, _, _, _, _, _ => by simp [rangesOk] at h
  | lo :: hi :: rest, acc, h, hf, h0, hT, h1, h2 => by
    simp only [rangesOk, Bool.and_eq_true, decide_eq_true_eq] at h
    simp only [fitRanges, Bool.and_eq_true, decide_eq_true_eq] at hf
    simp only [classTotal] at h2 hT
    have ht := classTotal_nonneg rest h.2
    rw [pickRune_cons r lo hi rest acc h.1 hf.1.1.1 hf.1.1.2 hf.1.2 h0 h1 (by omega)]
    by_cases hc : acc + ((hi - lo) + 1) > r
    · refine ⟨0, lo, hi, rfl, ?_, ?_, ?_, ?_, ?_⟩
      · simp only [offsetAt]; omega
      · simp only [offsetAt]; omega
      · simp only [if_pos hc, offsetAt, add_zero]
      · simp only [offsetAt]; omega
      · simp only [offsetAt]; omega
    · obtain ⟨k, lo1, hi1, hr, ha, hb, e, hl, hh⟩ :=
        pickRune_owner r rest (acc + ((hi - lo) + 1)) h.2 hf.2 (by omega) (by omega)
          (by omega) (by omega)
      have hoff : acc + ((hi - lo) + 1) + offsetAt rest k =
          acc + offsetAt (lo :: hi :: rest) (k + 1) := by
        simp only [offsetAt]
        omega
      rw [hoff] at ha hb e hl hh
      exact ⟨k + 1, lo1, hi1, by simpa [rangeAt] using hr, ha, hb,
        by rw [if_neg hc, e], hl, hh⟩

/-- The bounded branch of `OpCharClass`: on a non-empty list of ranges `lo ≤ hi` none of
which ends at `runeRangeEnd`, the result is `string(ru)` for the rune `ru` that the index
walk finds at the drawn index. -/
theorem genCharClass_bounded (runes : List Int) (rand : Rand) (hok : rangesOk runes = true)
    (hne : runes ≠ []) (hb : reachesEnd runes = false) (hf : fitRanges runes = true)
    (hT : classTotal runes < 9223372036854775808) :
    0 < classTotal runes ∧
    ∃ ru : Int, pickRune ((rand 0 : Int) % classTotal runes) runes 0 = .ok ru ∧
      inClass ru runes ∧ genCharClass runes rand = .ok (stringOfRune ru, rand.tail) := by
  have hpos := classTotal_pos runes hok hne
  have hsum : classSum runes 0 = .ok (classTotal runes) := by
    rw [classSum_bounded runes 0 hok hb hf le_rfl (by omega), zero_add]
  have hne1 : ¬ classTotal runes = -1 := by omega
  have h0 := Int.emod_nonneg (rand 0 : Int) (show classTotal runes ≠ 0 by omega)
  have h1 := Int.emod_lt_of_pos (rand 0 : Int) hpos
  obtain ⟨ru, e, hin⟩ := pickRune_spec ((rand 0 : Int) % classTotal runes) runes 0 hok hf
    le_rfl (by omega) h0 (by omega)
  refine ⟨hpos, ru, e, hin, ?_⟩
  simp only [genCharClass, hsum, if_neg hne1, pickFromSum, Intn_pos rand _ hpos, e]

theorem not_inClass_of_not_overlaps (lo hi c : Int) : ∀ rest : List Int,
    overlapsAny lo hi rest = false → inClass c rest → ¬ (lo ≤ c ∧ c ≤ hi)
  | [], _, h => h.elim
  | [_], _, h => h.elim
  | lo1 :: hi1 :: rest, ho, h => by
    simp only [overlapsAny, Bool.or_eq_false_iff, Bool.and_eq_false_imp, decide_eq_true_eq,
      decide_eq_false_iff_not] at ho
    rcases h with h | h
    · rintro ⟨h1, h2⟩
      exact ho.1 (by omega) (by omega)
    · exact not_inClass_of_not_overlaps lo hi c rest ho.2 h

theorem pickRune_inj (r1 r2 : Int) : ∀ (runes : List Int) (acc ru1 ru2 : Int),
    rangesOk runes = true → disjointRanges runes = true →
    fitRanges runes = true → 0 ≤ acc → acc + classTotal runes < 9223372036854775808 →
    acc ≤ r1 → r1 < acc + classTotal runes → acc ≤ r2 → r2 < acc + classTotal runes →
    pickRune r1 runes acc = .ok ru1 → pickRune r2 runes acc = .ok ru2 → ru1 = ru2 → r1 = r2
  | [], acc, _, _, _, _, _, _, _, h1, h2, _, _, _, _, _ => by
    simp only [classTotal] at h2
    omega
  | [_], _, _, _, h, _, _, _, _, _, _, _, _, _, _, _ => by simp [rangesOk] at h
  | lo :: hi :: rest, acc, ru1, ru2, h, hd, hf, h0, hT, ha1, hb1, ha2, hb2, e1, e2, he => by
    simp only [rangesOk, Bool.and_eq_true, decide_eq_true_eq] at h
    simp only [disjointRanges, Bool.and_eq_true, Bool.not_eq_true'] at hd
    simp only [fitRanges, Bool.and_eq_true, decide_eq_true_eq] at hf
    simp only [classTotal] at hb1 hb2 hT
    have ht := classTotal_nonneg rest h.2
    rw [pickRune_cons r1 lo hi rest acc h.1 hf.1.1.1 hf.1.1.2 hf.1.2 h0 ha1 (by omega)] at e1
    rw [pickRune_cons r2 lo hi rest acc h.1 hf.1.1.1 hf.1.1.2 hf.1.2 h0 ha2 (by omega)] at e2
    by_cases c1 : acc + ((hi - lo) + 1) > r1 <;> by_cases c2 : acc + ((hi - lo) + 1) > r2
    · simp only [if_pos c1, Except.ok.injEq] at e1
      simp only [if_pos c2, Except.ok.injEq] at e2
      omega
    · simp only [if_pos c1, Except.ok.injEq] at e1
      simp only [if_neg c2] at e2
      obtain ⟨ru, e, hin⟩ := pickRune_spec r2 rest (acc + ((hi - lo) + 1)) h.2 hf.2
        (by omega) (by omega) (by omega) (by omega)
      rw [e2, Except.ok.injEq] at e
      subst e
      exact absurd ⟨by omega, by omega⟩ (not_inClass_of_not_overlaps lo hi ru2 rest hd.1 hin)
    · simp only [if_neg c1] at e1
      simp only [if_pos c2, Except.ok.injEq] at e2
      obtain ⟨ru, e, hin⟩ := pickRune_spec r1 rest (acc + ((hi - lo) + 1)) h.2 hf.2
        (by omega) (by omega) (by omega) (by omega)
      rw [e1, Except.ok.injEq] at e
      subst e
      exact absurd ⟨by omega, by omega⟩ (not_inClass_of_not_overlaps lo hi ru1 rest hd.1 hin)
    · simp only [if_neg c1] at e1
      simp only [if_neg c2] at e2
      exact pickRune_inj r1 r2 rest (acc + ((hi - lo) + 1)) ru1 ru2 h.2 hd.2 hf.2
        (by omega) (by omega) (by omega) (by omega) (by omega) (by omega) e1 e2 he

theorem pickRune_surj (c : Int) : ∀ (runes : List Int) (acc : Int), rangesOk runes = true →
    fitRanges runes = true → 0 ≤ acc → acc + classTotal runes < 9223372036854775808 →
    inClass c runes →
    ∃ r : Int, acc ≤ r ∧ r < acc + classTotal runes ∧ pickRune r runes acc = .ok c
  | [], _, _, _, _, _, h => h.elim
  | [_], _, _, _, _, _, h => h.elim
  | lo :: hi :: rest, acc, h, hf, h0, hT, hin => by
    simp only [rangesOk, Bool.and_eq_true, decide_eq_true_eq] at h
    simp only [fitRanges, Bool.and_eq_true, decide_eq_true_eq] at hf
    simp only [classTotal] at hT
    have ht := classTotal_nonneg rest h.2
    rcases hin with hin | hin
    · refine ⟨acc + (c - lo), by omega, by simp only [classTotal]; omega, ?_⟩
      rw [pickRune_cons _ lo hi rest acc h.1 hf.1.1.1 hf.1.1.2 hf.1.2 h0 (by omega) (by omega),
        if_pos (by omega)]
      congr 1
      omega
    · obtain ⟨r, h1, h2, e⟩ := pickRune_surj c rest (acc + ((hi - lo) + 1)) h.2 hf.2
        (by omega) (by omega) hin
      refine ⟨r, by omega, by simp only [classTotal]; omega, ?_⟩
      rw [pickRune_cons _ lo hi rest acc h.1 hf.1.1.1 hf.1.1.2 hf.1.2 h0 (by omega) (by omega),
        if_neg (by omega)]
      exact e

/-- Pairwise disjoint ranges inside a finite set of integers hold at most as many code
points as the set. -/
theorem classTotal_le_card : ∀ (runes : List Int) (A : Finset Int), rangesOk runes = true →
    disjointRanges runes = true → (∀ c, inClass c runes → c ∈ A) →
    classTotal runes ≤ (A.card : Int)
  | [], _, _, _, _ => by simp [classTotal]
  | [_], _, _, _, _ => by simp [classTotal]
  | lo :: hi :: rest, A, h, hd, hA => by
    simp only [rangesOk, Bool.and_eq_true, decide_eq_true_eq] at h
    simp only [disjointRanges, Bool.and_eq_true, Bool.not_eq_true'] at hd
    have hsub : Finset.Icc lo hi ⊆ A := by
      intro c hc
      rw [Finset.mem_Icc] at hc
      exact hA c (Or.inl hc)
    have hrest : ∀ c, inClass c rest → c ∈ A \ Finset.Icc lo hi := by
      intro c hc
      rw [Finset.mem_sdiff, Finset.mem_Icc]
      exact ⟨hA c (Or.inr hc), not_inClass_of_not_overlaps lo hi c rest hd.1 hc⟩
    have ih := classTotal_le_card rest (A \ Finset.Icc lo hi) h.2 hd.2 hrest
    have hcard := Finset.card_sdiff_add_card_eq_card hsub
    rw [Int.card_Icc] at hcard
    simp only [classTotal]
    omega

/-- Pairwise disjoint ranges of scalar values hold at most `0x110000` code points. -/
theorem classTotal_le_of_disjoint (runes : List Int) (hok : rangesOk runes = true)
    (hd : disjointRanges runes = true) (hs : scalarRanges runes = true) :
    classTotal runes ≤ 1114112 := by
  have h := classTotal_le_card runes (Finset.Icc 0 0x10ffff) hok hd (fun c hc => by
    have := isScalar_of_inClass c runes hs hc
    simp only [isScalar, decide_eq_true_eq] at this
    rw [Finset.mem_Icc]
    exact ⟨this.1, this.2.1⟩)
  rw [Int.card_Icc] at h
  simpa using h

/-- The bounded branch on the stream that starts with the index `i < total`. -/
theorem genCharClass_at (runes : List Int) (i : Nat) (rest : Rand)
    (hok : rangesOk runes = true) (hne : runes ≠ []) (hb : reachesEnd runes = false)
    (hf : fitRanges runes = true) (hT : classTotal runes < 9223372036854775808)
    (hi : (i : Int) < classTotal runes) :
    ∃ ru : Int, pickRune (i : Int) runes 0 = .ok ru ∧ inClass ru runes ∧
      genCharClass runes (Rand.cons i rest) = .ok (stringOfRune ru, rest) := by
  obtain ⟨_, ru, e, hin, eg⟩ :=
    genCharClass_bounded runes (Rand.cons i rest) hok hne hb hf hT
  rw [cons_zero, Int.emod_eq_of_lt (by omega) hi] at e
  rw [cons_tail] at eg
  exact ⟨ru, e, hin, eg⟩

/-! ## Choice-free trees -/

theorem literalString_append : ∀ a b : List Int,
    literalString (a ++ b) = literalString a ++ literalString b
  | [], _ => rfl
  | x :: xs, b => by
    show stringOfRune x ++ literalString (xs ++ b) =
      stringOfRune x ++ literalString xs ++ literalString b
    rw [literalString_append xs b, List.append_assoc]

theorem genSubs_choiceFree (g : Regexp → Rand → Res (Str × Regexp × Rand)) :
    ∀ (subs : List Regexp),
    (∀ r ∈ subs, ∀ rand, g r rand = .ok (literalString (leafRunes r), r, rand)) →
    ∀ rand, genSubs g subs rand = .ok (literalString (leafRunesList subs), subs, rand)
  | [], _, _ => rfl
  | r :: rs, h, rand => by
    rw [genSubs, h r (List.mem_cons_self _ _) rand]
    simp only [genSubs_choiceFree g rs (fun x hx => h x (List.mem_cons_of_mem _ hx)) rand,
      leafRunesList, literalString_append]

/-- On a choice-free tree `generate` returns the strings of the runes of the Literal leaves
in order, and leaves the tree and the stream as they were. -/
theorem choiceFree_main (s : state) : ∀ (fuel : Nat) (re : Regexp),
    re.depth ≤ fuel → re.all choiceFreeNode = true →
    ∀ rand, generate fuel s re rand = .ok (literalString (leafRunes re), re, rand)
  | 0, .mk _ _ _ _ _ _, hd, _ => by
    rw [Regexp.depth] at hd
    omega
  | fuel + 1, .mk op rune sub sub0 mn mx, hd, hs => by
    intro rand
    rw [Regexp.depth] at hd
    have hd1 : depthList sub ≤ fuel := by
      have := le_max_left (depthList sub) (depthOpt sub0)
      omega
    have hd2 : depthOpt sub0 ≤ fuel := by
      have := le_max_right (depthList sub) (depthOpt sub0)
      omega
    rw [Regexp.all, Bool.and_eq_true, Bool.and_eq_true] at hs
    obtain ⟨⟨hnode, hsl⟩, hso⟩ := hs
    cases op with
    | OpNoMatch => simp [generate, Regexp.Op, leafRunes, literalString]
    | OpEmptyMatch => simp [generate, Regexp.Op, leafRunes, literalString]
    | OpLiteral => simp [generate, Regexp.Op, Regexp.Rune, leafRunes]
    | OpBeginLine => simp [generate, Regexp.Op, leafRunes, literalString]
    | OpEndLine => simp [generate, Regexp.Op, leafRunes, literalString]
    | OpBeginText => simp [generate, Regexp.Op, leafRunes, literalString]
    | OpEndText => simp [generate, Regexp.Op, leafRunes, literalString]
    | OpWordBoundary => simp [generate, Regexp.Op, leafRunes, literalString]
    | OpNoWordBoundary => simp [generate, Regexp.Op, leafRunes, literalString]
    | OpCapture =>
      have hsome : sub0.isSome = true := by
        simpa [choiceFreeNode, Regexp.Op, Regexp.Sub0] using hnode
      obtain ⟨child, rfl⟩ := Option.isSome_iff_exists.mp hsome
      rw [allOpt] at hso
      rw [depthOpt] at hd2
      have e := choiceFree_main s fuel child hd2 hso rand
      simp only [generate, Regexp.Op, Regexp.Sub0, e, leafRunes, leafRunesOpt,
        Regexp.setSub0]
    | OpConcat =>
      have e := genSubs_choiceFree (generate fuel s) sub (fun r hr rand1 =>
        choiceFree_main s fuel r (le_trans (depth_le_depthList sub r hr) hd1)
          (all_of_allList _ sub r hsl hr) rand1) rand
      simp only [generate, Regexp.Op, Regexp.Sub, e, withSub, leafRunes, Regexp.setSub]
    | OpCharClass => simp [choiceFreeNode, Regexp.Op] at hnode
    | OpAnyCharNotNL => simp [choiceFreeNode, Regexp.Op] at hnode
    | OpAnyChar => simp [choiceFreeNode, Regexp.Op] at hnode
    | OpStar => simp [choiceFreeNode, Regexp.Op] at hnode
    | OpPlus => simp [choiceFreeNode, Regexp.Op] at hnode
    | OpQuest => simp [choiceFreeNode, Regexp.Op] at hnode
    | OpRepeat => simp [choiceFreeNode, Regexp.Op] at hnode
    | OpAlternate => simp [choiceFreeNode, Regexp.Op] at hnode
    | OpUnknown code => simp [choiceFreeNode, Regexp.Op] at hnode

/-! ## Calls on a tree left behind by earlier calls -/

theorem CapOf_fields (L : Int) (re0 re : Regexp) (h : CapOf L re0 re) :
    re.Op = re0.Op ∧ re.Rune = re0.Rune ∧ re.Min = re0.Min ∧
    (re.Max = re0.Max ∨ re.Max = capMax re0.Max L) ∧ CapOfList L re0.Sub re.Sub ∧
    CapOfOpt L re0.Sub0 re.Sub0 := by
  cases re0
  rw [CapOf] at h
  exact h

theorem CapOf_of_fields (L : Int) (re0 re : Regexp) (h1 : re.Op = re0.Op)
    (h2 : re.Rune = re0.Rune) (h3 : re.Min = re0.Min)
    (h4 : re.Max = re0.Max ∨ re.Max = capMax re0.Max L) (h5 : CapOfList L re0.Sub re.Sub)
    (h6 : CapOfOpt L re0.Sub0 re.Sub0) : CapOf L re0 re := by
  cases re0
  rw [CapOf]
  exact ⟨h1, h2, h3, h4, h5, h6⟩

theorem CapOf_setSub (L : Int) (re0 re : Regexp) (l : List Regexp) (h : CapOf L re0 re)
    (hl : CapOfList L re0.Sub l) : CapOf L re0 (re.setSub l) := by
  obtain ⟨h1, h2, h3, h4, _, h6⟩ := CapOf_fields L re0 re h
  exact CapOf_of_fields L re0 _ (by simpa using h1) (by simpa using h2) (by simpa using h3)
    (by simpa using h4) (by simpa using hl) (by simpa using h6)

theorem CapOf_setSub0 (L : Int) (re0 re : Regexp) (o : Option Regexp) (h : CapOf L re0 re)
    (ho : CapOfOpt L re0.Sub0 o) : CapOf L re0 (re.setSub0 o) := by
  obtain ⟨h1, h2, h3, h4, h5, _⟩ := CapOf_fields L re0 re h
  exact CapOf_of_fields L re0 _ (by simpa using h1) (by simpa using h2) (by simpa using h3)
    (by simpa using h4) (by simpa using h5) (by simpa using ho)

theorem cap_min (L : Int) (re0 re : Regexp) (h : CapOf L re0 re) :
    capMax re.Max L = capMax re0.Max L := by
  rcases (CapOf_fields L re0 re h).2.2.2.1 with h | h
  · rw [h]
  · rw [h, capMax_idem]

theorem CapOf_setMax (L : Int) (re0 re : Regexp) (h : CapOf L re0 re) :
    CapOf L re0 (re.setMax (capMax re.Max L)) := by
  obtain ⟨h1, h2, h3, _, h5, h6⟩ := CapOf_fields L re0 re h
  exact CapOf_of_fields L re0 _ (by simpa using h1) (by simpa using h2) (by simpa using h3)
    (Or.inr (by rw [setMax_Max]; exact cap_min L re0 re h)) (by simpa using h5)
    (by simpa using h6)

theorem withSub_same (L : Int) (re0 re re2 : Regexp) (h : CapOf L re0 re)
    (h2 : CapOf L re0 re2) (a b : Res (Str × List Regexp × Rand))
    (hab : SameOutList L re0.Sub a b) : SameOut L re0 (withSub re a) (withSub re2 b) := by
  cases a with
  | error e =>
    cases b with
    | error e2 => exact hab
    | ok v => exact hab.elim
  | ok v =>
    obtain ⟨w, l1, rand1⟩ := v
    cases b with
    | error e2 => exact hab.elim
    | ok v2 =>
      obtain ⟨w2, l2, rand2⟩ := v2
      obtain ⟨e1, e2, c1, c2⟩ := hab
      exact ⟨e1, e2, CapOf_setSub L re0 re l1 h c1, CapOf_setSub L re0 re2 l2 h2 c2⟩

theorem genSubs_stable (L : Int) (g : Regexp → Rand → Res (Str × Regexp × Rand)) :
    ∀ (subs0 subs subs2 : List Regexp) (rand : Rand),
    (∀ r0 ∈ subs0, Stable L g r0) → CapOfList L subs0 subs → CapOfList L subs0 subs2 →
    SameOutList L subs0 (genSubs g subs rand) (genSubs g subs2 rand)
  | [], subs, subs2, rand, _, hc, hc2 => by
    rw [CapOfList] at hc hc2
    subst hc
    subst hc2
    refine ⟨rfl, rfl, ?_, ?_⟩ <;> rw [CapOfList]
  | r0 :: rs0, subs, subs2, rand, hg, hc, hc2 => by
    rw [CapOfList] at hc hc2
    obtain ⟨r, rs, rfl, hr, hrs⟩ := hc
    obtain ⟨r2, rs2, rfl, hr2, hrs2⟩ := hc2
    have h1 := hg r0 (List.mem_cons_self _ _) r r2 rand hr hr2
    rw [genSubs, genSubs]
    cases ha : g r rand with
    | error e =>
      cases hb : g r2 rand with
      | error e2 =>
        rw [ha, hb] at h1
        exact h1
      | ok v2 =>
        rw [ha, hb] at h1
        exact h1.elim
    | ok v =>
      obtain ⟨w, r1, rand1⟩ := v
      cases hb : g r2 rand with
      | error e2 =>
        rw [ha, hb] at h1
        exact h1.elim
      | ok v2 =>
        obtain ⟨w2, r12, rand12⟩ := v2
        rw [ha, hb] at h1
        obtain ⟨rfl, rfl, c1, c2⟩ := h1
        have h2 := genSubs_stable L g rs0 rs rs2 rand1
          (fun x hx => hg x (List.mem_cons_of_mem _ hx)) hrs hrs2
        cases hc : genSubs g rs rand1 with
        | error e =>
          cases hd : genSubs g rs2 rand1 with
          | error e2 =>
            rw [hc, hd] at h2
            simp only [hc, hd]
            exact h2
          | ok v4 =>
            rw [hc, hd] at h2
            exact h2.elim
        | ok v3 =>
          obtain ⟨w3, l3, rand3⟩ := v3
          cases hd : genSubs g rs2 rand1 with
          | error e2 =>
            rw [hc, hd] at h2
            exact h2.elim
          | ok v4 =>
            obtain ⟨w4, l4, rand4⟩ := v4
            rw [hc, hd] at h2
            obtain ⟨rfl, rfl, c3, c4⟩ := h2
            simp only [hc, hd]
            refine ⟨rfl, rfl, ?_, ?_⟩
            · rw [CapOfList]
              exact ⟨r1, l3, rfl, c1, c3⟩
            · rw [CapOfList]
              exact ⟨r12, l4, rfl, c2, c4⟩

theorem genLoop_stable (L : Int) (g : Regexp → Rand → Res (Str × Regexp × Rand))
    (subs0 : List Regexp) (hg : ∀ r0 ∈ subs0, Stable L g r0) :
    ∀ (n : Nat) (subs subs2 : List Regexp) (rand : Rand),
    CapOfList L subs0 subs → CapOfList L subs0 subs2 →
    SameOutList L subs0 (genLoop g n subs rand) (genLoop g n subs2 rand)
  | 0, subs, subs2, rand, hc, hc2 => ⟨rfl, rfl, hc, hc2⟩
  | n + 1, subs, subs2, rand, hc, hc2 => by
    have h1 := genSubs_stable L g subs0 subs subs2 rand hg hc hc2
    rw [genLoop, genLoop]
    cases ha : genSubs g subs rand with
    | error e =>
      cases hb : genSubs g subs2 rand with
      | error e2 =>
        rw [ha, hb] at h1
        exact h1
      | ok v2 =>
        rw [ha, hb] at h1
        exact h1.elim
    | ok v =>
      obtain ⟨w, l1, rand1⟩ := v
      cases hb : genSubs g subs2 rand with
      | error e2 =>
        rw [ha, hb] at h1
        exact h1.elim
      | ok v2 =>
        obtain ⟨w2, l2, rand2⟩ := v2
        rw [ha, hb] at h1
        obtain ⟨rfl, rfl, c1, c2⟩ := h1
        have h2 := genLoop_stable L g subs0 hg n l1 l2 rand1 c1 c2
        cases hc : genLoop g n l1 rand1 with
        | error e =>
          cases hd : genLoop g n l2 rand1 with
          | error e2 =>
            rw [hc, hd] at h2
            simp only [hc, hd]
            exact h2
          | ok v4 =>
            rw [hc, hd] at h2
            exact h2.elim
        | ok v3 =>
          obtain ⟨w3, l3, rand3⟩ := v3
          cases hd : genLoop g n l2 rand1 with
          | error e2 =>
            rw [hc, hd] at h2
            exact h2.elim
          | ok v4 =>
            obtain ⟨w4, l4, rand4⟩ := v4
            rw [hc, hd] at h2
            obtain ⟨rfl, rfl, c3, c4⟩ := h2
            simp only [hc, hd]
            exact ⟨rfl, rfl, c3, c4⟩

theorem CapOfList_get_of (L : Int) : ∀ (l0 l : List Regexp) (k : Nat) (r0 : Regexp),
    CapOfList L l0 l → l0.get? k = some r0 → ∃ r, l.get? k = some r ∧ CapOf L r0 r
  | [], _, k, _, _, hg => by cases hg
  | x0 :: xs0, l, k, r0, hc, hg => by
    rw [CapOfList] at hc
    obtain ⟨x, xs, rfl, hx, hxs⟩ := hc
    cases k with
    | zero =>
      simp only [List.get?_cons_zero, Option.some.injEq] at hg
      subst hg
      exact ⟨x, rfl, hx⟩
    | succ k =>
      simp only [List.get?_cons_succ] at hg
      obtain ⟨r, e, hr⟩ := CapOfList_get_of L xs0 xs k r0 hxs hg
      exact ⟨r, by simpa using e, hr⟩

theorem index_cap (L : Int) (l0 l l2 : List Regexp) (i : Int) (hc : CapOfList L l0 l)
    (hc2 : CapOfList L l0 l2) :
    (∃ e, index l i = .error e ∧ index l2 i = .error e) ∨
    (∃ c0 c c2, c0 ∈ l0 ∧ l0.get? i.toNat = some c0 ∧ index l i = .ok c ∧
      index l2 i = .ok c2 ∧ CapOf L c0 c ∧ CapOf L c0 c2) := by
  unfold index
  by_cases hi : i < 0
  · left
    exact ⟨.panic, by rw [if_pos hi], by rw [if_pos hi]⟩
  · rw [if_neg hi, if_neg hi]
    cases h : l.get? i.toNat with
    | none =>
      left
      have hlen : l2.length = l.length := by
        rw [CapOfList_length L l0 l hc, CapOfList_length L l0 l2 hc2]
      have h2 : l2.get? i.toNat = none := by
        rw [List.get?_eq_none] at h ⊢
        omega
      exact ⟨.panic, rfl, by rw [h2]⟩
    | some c =>
      right
      obtain ⟨c0, e0, hm, hcc⟩ := CapOfList_get L l0 l i.toNat c hc h
      obtain ⟨c2, e2, hcc2⟩ := CapOfList_get_of L l0 l2 i.toNat c0 hc2 e0
      exact ⟨c0, c, c2, hm, e0, rfl, by rw [e2], hcc, hcc2⟩

theorem sameOut_leaf (L : Int) (re0 re re2 : Regexp) (h : CapOf L re0 re)
    (h2 : CapOf L re0 re2) (x : Res (Str × Rand)) :
    SameOut L re0
      (match x with
        | .error e => .error e
        | .ok (res, rand1) => .ok (res, re, rand1))
      (match x with
        | .error e => .error e
        | .ok (res, rand1) => .ok (res, re2, rand1)) := by
  cases x with
  | error e => rfl
  | ok v => exact ⟨rfl, rfl, h, h2⟩

/-- Two calls of `generate` at one limit on two versions of one tree (the tree as parsed
or as left behind by earlier calls at that limit) fail in the same way or return the same
string and the same stream, and leave versions of the tree behind. -/
theorem generate_stable (s : state) : ∀ (fuel : Nat) (re0 : Regexp),
    Stable s.limit (generate fuel s) re0
  | 0, _ => fun _ _ _ _ _ => rfl
  | fuel + 1, re0 => by
    intro re re2 rand hc hc2
    obtain ⟨hop, hrune, hmin, hmax, hsub, hsub0⟩ := CapOf_fields _ re0 re hc
    obtain ⟨hop2, hrune2, hmin2, hmax2, hsub2, hsub02⟩ := CapOf_fields _ re0 re2 hc2
    have hkids : ∀ r0 ∈ re0.Sub, Stable s.limit (generate fuel s) r0 :=
      fun r0 _ => generate_stable s fuel r0
    cases hk : re0.Op with
    | OpNoMatch =>
      rw [hk] at hop hop2
      simp only [generate, hop, hop2]
      exact ⟨rfl, rfl, hc, hc2⟩
    | OpEmptyMatch =>
      rw [hk] at hop hop2
      simp only [generate, hop, hop2]
      exact ⟨rfl, rfl, hc, hc2⟩
    | OpLiteral =>
      rw [hk] at hop hop2
      simp only [generate, hop, hop2, hrune, hrune2]
      exact ⟨rfl, rfl, hc, hc2⟩
    | OpCharClass =>
      rw [hk] at hop hop2
      simp only [generate, hop, hop2, hrune, hrune2]
      exact sameOut_leaf _ re0 re re2 hc hc2 _
    | OpAnyCharNotNL =>
      rw [hk] at hop hop2
      simp only [generate, hop, hop2]
      exact sameOut_leaf _ re0 re re2 hc hc2 _
    | OpAnyChar =>
      rw [hk] at hop hop2
      simp only [generate, hop, hop2]
      exact sameOut_leaf _ re0 re re2 hc hc2 _
    | OpBeginLine =>
      rw [hk] at hop hop2
      simp only [generate, hop, hop2]
      exact ⟨rfl, rfl, hc, hc2⟩
    | OpEndLine =>
      rw [hk] at hop hop2
      simp only [generate, hop, hop2]
      exact ⟨rfl, rfl, hc, hc2⟩
    | OpBeginText =>
      rw [hk] at hop hop2
      simp only [generate, hop, hop2]
      exact ⟨rfl, rfl, hc, hc2⟩
    | OpEndText =>
      rw [hk] at hop hop2
      simp only [generate, hop, hop2]
      exact ⟨rfl, rfl, hc, hc2⟩
    | OpWordBoundary =>
      rw [hk] at hop hop2
      simp only [generate, hop, hop2]
      exact ⟨rfl, rfl, hc, hc2⟩
    | OpNoWordBoundary =>
      rw [hk] at hop hop2
      simp only [generate, hop, hop2]
      exact ⟨rfl, rfl, hc, hc2⟩
    | OpUnknown code =>
      rw [hk] at hop hop2
      simp only [generate, hop, hop2]
      exact ⟨rfl, rfl, hc, hc2⟩
    | OpCapture =>
      rw [hk] at hop hop2
      cases h0 : re0.Sub0 with
      | none =>
        rw [h0, CapOfOpt] at hsub0 hsub02
        simp only [generate, hop, hop2, hsub0, hsub02]
        rfl
      | some child0 =>
        rw [h0, CapOfOpt] at hsub0 hsub02
        obtain ⟨child, e, hcc⟩ := hsub0
        obtain ⟨child2, e2, hcc2⟩ := hsub02
        have ih := generate_stable s fuel child0 child child2 rand hcc hcc2
        simp only [generate, hop, hop2, e, e2]
        cases ha : generate fuel s child rand with
        | error f =>
          cases hb : generate fuel s child2 rand with
          | error f2 =>
            rw [ha, hb] at ih
            exact ih
          | ok v2 =>
            rw [ha, hb] at ih
            exact ih.elim
        | ok v =>
          obtain ⟨w, c1, rand1⟩ := v
          cases hb : generate fuel s child2 rand with
          | error f2 =>
            rw [ha, hb] at ih
            exact ih.elim
          | ok v2 =>
            obtain ⟨w2, c12, rand12⟩ := v2
            rw [ha, hb] at ih
            obtain ⟨rfl, rfl, k1, k2⟩ := ih
            refine ⟨rfl, rfl, CapOf_setSub0 _ re0 re _ hc ?_, CapOf_setSub0 _ re0 re2 _ hc2 ?_⟩
            · rw [h0, CapOfOpt]
              exact ⟨c1, rfl, k1⟩
            · rw [h0, CapOfOpt]
              exact ⟨c12, rfl, k2⟩
    | OpStar =>
      rw [hk] at hop hop2
      simp only [generate, hop, hop2]
      cases hI : rand.Intn (wrap64 (s.limit + 1)) with
      | error f => rfl
      | ok v =>
        exact withSub_same _ re0 re re2 hc hc2 _ _
          (genLoop_stable _ _ re0.Sub hkids _ re.Sub re2.Sub _ hsub hsub2)
    | OpPlus =>
      rw [hk] at hop hop2
      simp only [generate, hop, hop2]
      cases hI : rand.Intn s.limit with
      | error f => rfl
      | ok v =>
        exact withSub_same _ re0 re re2 hc hc2 _ _
          (genLoop_stable _ _ re0.Sub hkids _ re.Sub re2.Sub _ hsub hsub2)
    | OpQuest =>
      rw [hk] at hop hop2
      simp only [generate, hop, hop2]
      cases hI : rand.Intn 2 with
      | error f => rfl
      | ok v =>
        exact withSub_same _ re0 re re2 hc hc2 _ _
          (genLoop_stable _ _ re0.Sub hkids _ re.Sub re2.Sub _ hsub hsub2)
    | OpRepeat =>
      rw [hk] at hop hop2
      have k1 := CapOf_setMax _ re0 re hc
      have k2 := CapOf_setMax _ re0 re2 hc2
      rw [cap_min _ re0 re hc] at k1
      rw [cap_min _ re0 re2 hc2] at k2
      simp only [generate, hop, hop2, setMax_Max, setMax_Min, setMax_Sub,
        cap_min _ re0 re hc, cap_min _ re0 re2 hc2, hmin, hmin2]
      cases hI : (if capMax re0.Max s.limit > re0.Min
          then rand.Intn (wrap64 (capMax re0.Max s.limit - re0.Min + 1))
          else (Except.ok (0, rand) : Res (Int × Rand))) with
      | error f => rfl
      | ok v =>
        exact withSub_same _ re0 _ _ k1 k2 _ _
          (genLoop_stable _ _ re0.Sub hkids _ re.Sub re2.Sub _ hsub hsub2)
    | OpConcat =>
      rw [hk] at hop hop2
      simp only [generate, hop, hop2]
      exact withSub_same _ re0 re re2 hc hc2 _ _
        (genSubs_stable _ _ re0.Sub re.Sub re2.Sub _ hkids hsub hsub2)
    | OpAlternate =>
      rw [hk] at hop hop2
      simp only [generate, hop, hop2, CapOfList_length _ re0.Sub re.Sub hsub,
        CapOfList_length _ re0.Sub re2.Sub hsub2]
      cases hI : rand.Intn (re0.Sub.length : Int) with
      | error f => rfl
      | ok v =>
        obtain ⟨i, rand1⟩ := v
        rcases index_cap s.limit re0.Sub re.Sub re2.Sub i hsub hsub2 with
          ⟨e, e1, e2⟩ | ⟨c0, c, c2, hm, hg0, e1, e2, hcc, hcc2⟩
        · simp only [e1, e2]
          rfl
        · have ih := hkids c0 hm c c2 rand1 hcc hcc2
          simp only [e1, e2]
          cases ha : generate fuel s c rand1 with
          | error f =>
            cases hb : generate fuel s c2 rand1 with
            | error f2 =>
              rw [ha, hb] at ih
              exact ih
            | ok v2 =>
              rw [ha, hb] at ih
              exact ih.elim
          | ok v =>
            obtain ⟨w, c1, rand2⟩ := v
            cases hb : generate fuel s c2 rand1 with
            | error f2 =>
              rw [ha, hb] at ih
              exact ih.elim
            | ok v2 =>
              obtain ⟨w2, c12, rand22⟩ := v2
              rw [ha, hb] at ih
              obtain ⟨rfl, rfl, k1, k2⟩ := ih
              exact ⟨rfl, rfl,
                CapOf_setSub _ re0 re _ hc (CapOfList_set _ re0.Sub re.Sub _ c0 c1 hsub hg0 k1),
                CapOf_setSub _ re0 re2 _ hc2
                  (CapOfList_set _ re0.Sub re2.Sub _ c0 c12 hsub2 hg0 k2)⟩

theorem CapOf_depth (L : Int) (re0 : Regexp) : ∀ re, CapOf L re0 re → re.depth = re0.depth := by
  refine Regexp.rec (motive_1 := fun re0 => ∀ re, CapOf L re0 re → re.depth = re0.depth)
    (motive_2 := fun l0 => ∀ l, CapOfList L l0 l → depthList l = depthList l0)
    (motive_3 := fun o0 => ∀ o, CapOfOpt L o0 o → depthOpt o = depthOpt o0)
    ?_ ?_ ?_ ?_ ?_ re0
  · intro op rune sub sub0 mn mx h2 h3 re h
    cases re with
    | mk op1 rune1 sub1 sub01 mn1 mx1 =>
      rw [CapOf] at h
      simp only [Regexp.Sub, Regexp.Sub0] at h
      rw [Regexp.depth, Regexp.depth, h2 sub1 h.2.2.2.2.1, h3 sub01 h.2.2.2.2.2]
  · intro l h
    rw [CapOfList] at h
    rw [h]
  · intro hd tl h1 h2 l h
    rw [CapOfList] at h
    obtain ⟨r1, rs1, rfl, hr, hrs⟩ := h
    rw [depthList, depthList, h1 r1 hr, h2 rs1 hrs]
  · intro o h
    rw [CapOfOpt] at h
    rw [h]
  · intro v h1 o h
    rw [CapOfOpt] at h
    obtain ⟨r1, rfl, hr⟩ := h
    rw [depthOpt, depthOpt, h1 r1 hr]

theorem out_of_sameOut (L : Int) (r0 : Regexp) (a b : Res (Str × Regexp × Rand))
    (h : SameOut L r0 a b) : a.out = b.out := by
  cases a with
  | error e =>
    cases b with
    | error e2 =>
      have : e = e2 := h
      rw [this]
    | ok v => exact h.elim
  | ok v =>
    obtain ⟨w, r1, rand1⟩ := v
    cases b with
    | error e2 => exact h.elim
    | ok v2 =>
      obtain ⟨w2, r2, rand2⟩ := v2
      obtain ⟨e1, e2, _, _⟩ := h
      simp only [Res.out, e1, e2]

/-- A call that returns leaves behind a version of the tree it was given. -/
theorem generate_capOf (s : state) (fuel : Nat) (re0 re : Regexp) (rand : Rand)
    (hc : CapOf s.limit re0 re) (w : Str) (re1 : Regexp) (rand1 : Rand)
    (h : generate fuel s re rand = .ok (w, re1, rand1)) : CapOf s.limit re0 re1 := by
  have := generate_stable s fuel re0 re re rand hc hc
  rw [h] at this
  exact this.2.2.1

theorem generate_repeat_Max (s : state) (fuel : Nat) (re : Regexp) (rand : Rand)
    (hop : re.Op = .OpRepeat) (w : Str) (re1 : Regexp) (rand1 : Rand)
    (h : generate (fuel + 1) s re rand = .ok (w, re1, rand1)) :
    re1.Max = capMax re.Max s.limit := by
  simp only [generate, hop, setMax_Max, setMax_Min, setMax_Sub] at h
  cases hI : (if capMax re.Max s.limit > re.Min
      then rand.Intn (wrap64 (capMax re.Max s.limit - re.Min + 1))
      else (Except.ok (0, rand) : Res (Int × Rand))) with
  | error f =>
    rw [hI] at h
    cases h
  | ok v =>
    rw [hI] at h
    simp only at h
    cases hl : genLoop (generate fuel s) (rounds re.Min (wrap64 (re.Min + v.1))) re.Sub v.2 with
    | error f =>
      rw [hl] at h
      cases h
    | ok v2 =>
      obtain ⟨w2, l2, rand2⟩ := v2
      rw [hl] at h
      simp only [withSub, Except.ok.injEq, Prod.mk.injEq] at h
      rw [← h.2.1, setSub_Max, setMax_Max]

/-! ## The depth budget -/

theorem Intn_ne_fuel (rand : Rand) (n : Int) : rand.Intn n ≠ .error .fuel := by
  unfold Rand.Intn
  split <;> simp

theorem index_ne_fuel {α : Type} (xs : List α) (i : Int) : index xs i ≠ .error .fuel := by
  unfold index
  split
  · simp
  · split <;> simp

theorem classSum_ne_fuel : ∀ (runes : List Int) (acc : Int),
    classSum runes acc ≠ .error .fuel
  | [], _ => by simp [classSum]
  | [_], _ => by simp [classSum]
  | lo :: hi :: rest, acc => by
    rw [classSum]
    split
    · simp
    · exact classSum_ne_fuel rest _

theorem inRanges_ne_fuel (c : Int) : ∀ runes : List Int, inRanges c runes ≠ .error .fuel
  | [] => by simp [inRanges]
  | [_] => by
    rw [inRanges]
    split <;> simp
  | lo :: hi :: rest => by
    rw [inRanges]
    split
    · simp
    · exact inRanges_ne_fuel c rest

theorem possibleChars_ne_fuel (runes : List Int) : ∀ cs : List Nat,
    possibleChars runes cs ≠ .error .fuel
  | [] => by simp [possibleChars]
  | c :: cs => by
    rw [possibleChars]
    cases h1 : inRanges (c : Int) runes with
    | error e =>
      intro h
      simp only [Except.error.injEq] at h
      exact inRanges_ne_fuel _ runes (by rw [h1, h])
    | ok b =>
      cases h2 : possibleChars runes cs with
      | error e =>
        intro h
        simp only [Except.error.injEq] at h
        exact possibleChars_ne_fuel runes cs (by rw [h2, h])
      | ok rest => simp

theorem pickRune_ne_fuel (r : Int) : ∀ (runes : List Int) (acc : Int),
    pickRune r runes acc ≠ .error .fuel
  | [], _ => by simp [pickRune]
  | [_], _ => by simp [pickRune]
  | lo :: hi :: rest, acc => by
    rw [pickRune]
    split
    · simp
    · exact pickRune_ne_fuel r rest _

theorem pickFromSum_ne_fuel (runes : List Int) (sum : Int) (rand : Rand) :
    pickFromSum runes sum rand ≠ .error .fuel := by
  unfold pickFromSum
  cases h1 : rand.Intn sum with
  | error e =>
    intro h
    simp only [Except.error.injEq] at h
    exact Intn_ne_fuel rand sum (by rw [h1, h])
  | ok v =>
    cases h2 : pickRune v.1 runes 0 with
    | error e =>
      intro h
      simp only [h2, Except.error.injEq] at h
      exact pickRune_ne_fuel v.1 runes 0 (by rw [h2, h])
    | ok ru => simp [h2]

theorem genAnyChar_ne_fuel (chars : List Nat) (rand : Rand) :
    genAnyChar chars rand ≠ .error .fuel := by
  unfold genAnyChar
  cases h1 : rand.Intn (chars.length : Int) with
  | error e =>
    intro h
    simp only [Except.error.injEq] at h
    exact Intn_ne_fuel rand _ (by rw [h1, h])
  | ok v =>
    cases h2 : index chars v.1 with
    | error e =>
      intro h
      simp only [h2, Except.error.injEq] at h
      exact index_ne_fuel chars v.1 (by rw [h2, h])
    | ok c => simp [h2]

theorem genCharClass_ne_fuel (runes : List Int) (rand : Rand) :
    genCharClass runes rand ≠ .error .fuel := by
  unfold genCharClass
  cases h1 : classSum runes 0 with
  | error e =>
    intro h
    simp only [Except.error.injEq] at h
    exact classSum_ne_fuel runes 0 (by rw [h1, h])
  | ok sum =>
    simp only
    split
    · cases h2 : possibleChars runes printableChars with
      | error e =>
        intro h
        simp only [Except.error.injEq] at h
        exact possibleChars_ne_fuel runes _ (by rw [h2, h])
      | ok possible =>
        simp only
        split
        · exact genAnyChar_ne_fuel possible rand
        · exact pickFromSum_ne_fuel runes sum rand
    · exact pickFromSum_ne_fuel runes sum rand

theorem genSubs_settled (L : Int) (g g2 : Regexp → Rand → Res (Str × Regexp × Rand)) :
    ∀ (subs0 subs : List Regexp) (rand : Rand),
    (∀ r0 ∈ subs0, Settled L g g2 r0) → CapOfList L subs0 subs →
    genSubs g2 subs rand = genSubs g subs rand ∧ genSubs g subs rand ≠ .error .fuel ∧
    ∀ (w : Str) (l1 : List Regexp) (rand1 : Rand),
      genSubs g subs rand = .ok (w, l1, rand1) → CapOfList L subs0 l1
  | [], subs, rand, _, hc => by
    rw [CapOfList] at hc
    subst hc
    refine ⟨rfl, by simp [genSubs], fun w l1 rand1 h => ?_⟩
    simp only [genSubs, Except.ok.injEq, Prod.mk.injEq] at h
    rw [← h.2.1, CapOfList]
  | r0 :: rs0, subs, rand, hg, hc => by
    rw [CapOfList] at hc
    obtain ⟨r, rs, rfl, hr, hrs⟩ := hc
    obtain ⟨e, nf, cap⟩ := hg r0 (List.mem_cons_self _ _) r rand hr
    rw [genSubs, genSubs, e]
    cases ha : g r rand with
    | error f =>
      refine ⟨rfl, ?_, fun w l1 rand1 h => by cases h⟩
      intro h
      simp only [Except.error.injEq] at h
      exact nf (by rw [ha, h])
    | ok v =>
      obtain ⟨w1, r1, rand1⟩ := v
      obtain ⟨e2, nf2, cap2⟩ := genSubs_settled L g g2 rs0 rs rand1
        (fun x hx => hg x (List.mem_cons_of_mem _ hx)) hrs
      simp only [e2]
      cases hb : genSubs g rs rand1 with
      | error f =>
        refine ⟨trivial, ?_, fun w l1 rand2 h => by cases h⟩
        intro h
        simp only [Except.error.injEq] at h
        exact nf2 (by rw [hb, h])
      | ok v2 =>
        obtain ⟨w2, l2, rand2⟩ := v2
        refine ⟨trivial, by simp, fun w l1 rand3 h => ?_⟩
        simp only [Except.ok.injEq, Prod.mk.injEq] at h
        rw [← h.2.1, CapOfList]
        exact ⟨r1, l2, rfl, cap w1 r1 rand1 ha, cap2 w2 l2 rand2 hb⟩

theorem genLoop_settled (L : Int) (g g2 : Regexp → Rand → Res (Str × Regexp × Rand))
    (subs0 : List Regexp) (hg : ∀ r0 ∈ subs0, Settled L g g2 r0) :
    ∀ (n : Nat) (subs : List Regexp) (rand : Rand), CapOfList L subs0 subs →
    genLoop g2 n subs rand = genLoop g n subs rand ∧ genLoop g n subs rand ≠ .error .fuel ∧
    ∀ (w : Str) (l1 : List Regexp) (rand1 : Rand),
      genLoop g n subs rand = .ok (w, l1, rand1) → CapOfList L subs0 l1
  | 0, subs, rand, hc => by
    refine ⟨rfl, by simp [genLoop], fun w l1 rand1 h => ?_⟩
    simp only [genLoop, Except.ok.injEq, Prod.mk.injEq] at h
    rw [← h.2.1]
    exact hc
  | n + 1, subs, rand, hc => by
    obtain ⟨e, nf, cap⟩ := genSubs_settled L g g2 subs0 subs rand hg hc
    rw [genLoop, genLoop, e]
    cases ha : genSubs g subs rand with
    | error f =>
      refine ⟨rfl, ?_, fun w l1 rand1 h => by cases h⟩
      intro h
      simp only [Except.error.injEq] at h
      exact nf (by rw [ha, h])
    | ok v =>
      obtain ⟨w1, l1, rand1⟩ := v
      obtain ⟨e2, nf2, cap2⟩ := genLoop_settled L g g2 subs0 hg n l1 rand1
        (cap w1 l1 rand1 ha)
      simp only [e2]
      cases hb : genLoop g n l1 rand1 with
      | error f =>
        refine ⟨trivial, ?_, fun w l2 rand2 h => by cases h⟩
        intro h
        simp only [Except.error.injEq] at h
        exact nf2 (by rw [hb, h])
      | ok v2 =>
        obtain ⟨w2, l2, rand2⟩ := v2
        refine ⟨trivial, by simp, fun w l3 rand3 h => ?_⟩
        simp only [Except.ok.injEq, Prod.mk.injEq] at h
        rw [← h.2.1]
        exact cap2 w2 l2 rand2 hb

theorem withSub_settled (re : Regexp) (a a2 : Res (Str × List Regexp × Rand))
    (h : a2 = a ∧ a ≠ .error .fuel) :
    withSub re a2 = withSub re a ∧ withSub re a ≠ .error .fuel := by
  refine ⟨by rw [h.1], ?_⟩
  cases a with
  | error f =>
    intro hh
    simp only [withSub, Except.error.injEq] at hh
    exact h.2 (by rw [hh])
  | ok v => simp [withSub]

theorem leaf_settled (re : Regexp) (x : Res (Str × Rand)) (hx : x ≠ .error .fuel) :
    (match x with
      | .error e => (.error e : Res (Str × Regexp × Rand))
      | .ok (res, rand1) => .ok (res, re, rand1)) ≠ .error .fuel := by
  cases x with
  | error f =>
    intro hh
    simp only [Except.error.injEq] at hh
    exact hx (by rw [hh])
  | ok v => simp

theorem depth_parts (re : Regexp) :
    depthList re.Sub + 1 ≤ re.depth ∧ depthOpt re.Sub0 + 1 ≤ re.depth := by
  cases re
  rw [Regexp.depth]
  simp only [Regexp.Sub, Regexp.Sub0]
  constructor
  · have := le_max_left (depthList ‹List Regexp›) (depthOpt ‹Option Regexp›)
    omega
  · have := le_max_right (depthList ‹List Regexp›) (depthOpt ‹Option Regexp›)
    omega

/-- A budget of at least the depth of the tree is never exhausted, and a larger budget
gives the same result: `generate` recurses on the children of the node only. -/
theorem generate_settled (s : state) : ∀ (fuel : Nat) (re0 : Regexp), re0.depth ≤ fuel →
    ∀ k : Nat, Settled s.limit (generate fuel s) (generate (fuel + k) s) re0
  | 0, re0, hd, _ => by
    have := depth_pos re0
    omega
  | fuel + 1, re0, hd, k => by
    intro re rand hc
    refine ⟨?_, ?_, fun w r1 rand1 h => generate_capOf s (fuel + 1) re0 re rand hc w r1 rand1 h⟩
    all_goals
      have hfk : fuel + 1 + k = (fuel + k) + 1 := by omega
      obtain ⟨hop, hrune, hmin, hmax, hsub, hsub0⟩ := CapOf_fields _ re0 re hc
      have hdp := depth_parts re0
      have hkids : ∀ r0 ∈ re0.Sub,
          Settled s.limit (generate fuel s) (generate (fuel + k) s) r0 := fun r0 hr0 =>
        generate_settled s fuel r0
          (by have := depth_le_depthList re0.Sub r0 hr0; omega) k
    · rw [hfk]
      cases hk : re0.Op with
      | OpNoMatch => rw [hk] at hop; simp only [generate, hop]
      | OpEmptyMatch => rw [hk] at hop; simp only [generate, hop]
      | OpLiteral => rw [hk] at hop; simp only [generate, hop]
      | OpCharClass => rw [hk] at hop; simp only [generate, hop]
      | OpAnyCharNotNL => rw [hk] at hop; simp only [generate, hop]
      | OpAnyChar => rw [hk] at hop; simp only [generate, hop]
      | OpBeginLine => rw [hk] at hop; simp only [generate, hop]
      | OpEndLine => rw [hk] at hop; simp only [generate, hop]
      | OpBeginText => rw [hk] at hop; simp only [generate, hop]
      | OpEndText => rw [hk] at hop; simp only [generate, hop]
      | OpWordBoundary => rw [hk] at hop; simp only [generate, hop]
      | OpNoWordBoundary => rw [hk] at hop; simp only [generate, hop]
      | OpUnknown code => rw [hk] at hop; simp only [generate, hop]
      | OpCapture =>
        rw [hk] at hop
        cases h0 : re0.Sub0 with
        | none =>
          rw [h0, CapOfOpt] at hsub0
          simp only [generate, hop, hsub0]
        | some child0 =>
          rw [h0, CapOfOpt] at hsub0
          obtain ⟨child, e, hcc⟩ := hsub0
          rw [h0, depthOpt] at hdp
          have ih := generate_settled s fuel child0 (by omega) k child rand hcc
          simp only [generate, hop, e, ih.1]
      | OpStar =>
        rw [hk] at hop
        simp only [generate, hop]
        cases hI : rand.Intn (wrap64 (s.limit + 1)) with
        | error f => rfl
        | ok v =>
          exact (withSub_settled re _ _
            ⟨(genLoop_settled _ _ _ re0.Sub hkids _ re.Sub _ hsub).1,
              (genLoop_settled _ _ _ re0.Sub hkids _ re.Sub _ hsub).2.1⟩).1
      | OpPlus =>
        rw [hk] at hop
        simp only [generate, hop]
        cases hI : rand.Intn s.limit with
        | error f => rfl
        | ok v =>
          exact (withSub_settled re _ _
            ⟨(genLoop_settled _ _ _ re0.Sub hkids _ re.Sub _ hsub).1,
              (genLoop_settled _ _ _ re0.Sub hkids _ re.Sub _ hsub).2.1⟩).1
      | OpQuest =>
        rw [hk] at hop
        simp only [generate, hop]
        cases hI : rand.Intn 2 with
        | error f => rfl
        | ok v =>
          exact (withSub_settled re _ _
            ⟨(genLoop_settled _ _ _ re0.Sub hkids _ re.Sub _ hsub).1,
              (genLoop_settled _ _ _ re0.Sub hkids _ re.Sub _ hsub).2.1⟩).1
      | OpRepeat =>
        rw [hk] at hop
        simp only [generate, hop, setMax_Max, setMax_Min, setMax_Sub]
        cases hI : (if capMax re.Max s.limit > re.Min
            then rand.Intn (wrap64 (capMax re.Max s.limit - re.Min + 1))
            else (Except.ok (0, rand) : Res (Int × Rand))) with
        | error f => rfl
        | ok v =>
          exact (withSub_settled _ _ _
            ⟨(genLoop_settled _ _ _ re0.Sub hkids _ re.Sub _ hsub).1,
              (genLoop_settled _ _ _ re0.Sub hkids _ re.Sub _ hsub).2.1⟩).1
      | OpConcat =>
        rw [hk] at hop
        simp only [generate, hop]
        exact (withSub_settled re _ _
          ⟨(genSubs_settled _ _ _ re0.Sub re.Sub rand hkids hsub).1,
            (genSubs_settled _ _ _ re0.Sub re.Sub rand hkids hsub).2.1⟩).1
      | OpAlternate =>
        rw [hk] at hop
        simp only [generate, hop]
        cases hI : rand.Intn (re.Sub.length : Int) with
        | error f => rfl
        | ok v =>
          obtain ⟨i, rand1⟩ := v
          simp only
          rcases index_cap s.limit re0.Sub re.Sub re.Sub i hsub hsub with
            ⟨e, e1, _⟩ | ⟨c0, c, _, hm, _, e1, _, hcc, _⟩
          · simp only [e1]
          · simp only [e1, (hkids c0 hm c rand1 hcc).1]
    · cases hk : re0.Op with
      | OpNoMatch => rw [hk] at hop; simp [generate, hop]
      | OpEmptyMatch => rw [hk] at hop; simp [generate, hop]
      | OpLiteral => rw [hk] at hop; simp [generate, hop]
      | OpCharClass =>
        rw [hk] at hop
        simp only [generate, hop]
        exact leaf_settled re _ (genCharClass_ne_fuel _ _)
      | OpAnyCharNotNL =>
        rw [hk] at hop
        simp only [generate, hop]
        exact leaf_settled re _ (genAnyChar_ne_fuel _ _)
      | OpAnyChar =>
        rw [hk] at hop
        simp only [generate, hop]
        exact leaf_settled re _ (genAnyChar_ne_fuel _ _)
      | OpBeginLine => rw [hk] at hop; simp [generate, hop]
      | OpEndLine => rw [hk] at hop; simp [generate, hop]
      | OpBeginText => rw [hk] at hop; simp [generate, hop]
      | OpEndText => rw [hk] at hop; simp [generate, hop]
      | OpWordBoundary => rw [hk] at hop; simp [generate, hop]
      | OpNoWordBoundary => rw [hk] at hop; simp [generate, hop]
      | OpUnknown code => rw [hk] at hop; simp [generate, hop]
      | OpCapture =>
        rw [hk] at hop
        cases h0 : re0.Sub0 with
        | none =>
          rw [h0, CapOfOpt] at hsub0
          simp [generate, hop, hsub0]
        | some child0 =>
          rw [h0, CapOfOpt] at hsub0
          obtain ⟨child, e, hcc⟩ := hsub0
          rw [h0, depthOpt] at hdp
          have ih := generate_settled s fuel child0 (by omega) k child rand hcc
          simp only [generate, hop, e]
          cases ha : generate fuel s child rand with
          | error f =>
            intro hh
            simp only [Except.error.injEq] at hh
            exact ih.2.1 (by rw [ha, hh])
          | ok v => simp
      | OpStar =>
        rw [hk] at hop
        simp only [generate, hop]
        cases hI : rand.Intn (wrap64 (s.limit + 1)) with
        | error f =>
          intro hh
          simp only [Except.error.injEq] at hh
          exact Intn_ne_fuel rand _ (by rw [hI, hh])
        | ok v =>
          exact (withSub_settled re _ _
            ⟨(genLoop_settled _ _ _ re0.Sub hkids _ re.Sub _ hsub).1,
              (genLoop_settled _ _ _ re0.Sub hkids _ re.Sub _ hsub).2.1⟩).2
      | OpPlus =>
        rw [hk] at hop
        simp only [generate, hop]
        cases hI : rand.Intn s.limit with
        | error f =>
          intro hh
          simp only [Except.error.injEq] at hh
          exact Intn_ne_fuel rand _ (by rw [hI, hh])
        | ok v =>
          exact (withSub_settled re _ _
            ⟨(genLoop_settled _ _ _ re0.Sub hkids _ re.Sub _ hsub).1,
              (genLoop_settled _ _ _ re0.Sub hkids _ re.Sub _ hsub).2.1⟩).2
      | OpQuest =>
        rw [hk] at hop
        simp only [generate, hop]
        cases hI : rand.Intn 2 with
        | error f =>
          intro hh
          simp only [Except.error.injEq] at hh
          exact Intn_ne_fuel rand _ (by rw [hI, hh])
        | ok v =>
          exact (withSub_settled re _ _
            ⟨(genLoop_settled _ _ _ re0.Sub hkids _ re.Sub _ hsub).1,
              (genLoop_settled _ _ _ re0.Sub hkids _ re.Sub _ hsub).2.1⟩).2
      | OpRepeat =>
        rw [hk] at hop
        simp only [generate, hop, setMax_Max, setMax_Min, setMax_Sub]
        cases hI : (if capMax re.Max s.limit > re.Min
            then rand.Intn (wrap64 (capMax re.Max s.limit - re.Min + 1))
            else (Except.ok (0, rand) : Res (Int × Rand))) with
        | error f =>
          intro hh
          simp only [Except.error.injEq] at hh
          subst hh
          split at hI
          · exact Intn_ne_fuel rand _ hI
          · cases hI
        | ok v =>
          exact (withSub_settled _ _ _
            ⟨(genLoop_settled _ _ _ re0.Sub hkids _ re.Sub _ hsub).1,
              (genLoop_settled _ _ _ re0.Sub hkids _ re.Sub _ hsub).2.1⟩).2
      | OpConcat =>
        rw [hk] at hop
        simp only [generate, hop]
        exact (withSub_settled re _ _
          ⟨(genSubs_settled _ _ _ re0.Sub re.Sub rand hkids hsub).1,
            (genSubs_settled _ _ _ re0.Sub re.Sub rand hkids hsub).2.1⟩).2
      | OpAlternate =>
        rw [hk] at hop
        simp only [generate, hop]
        cases hI : rand.Intn (re.Sub.length : Int) with
        | error f =>
          intro hh
          simp only [Except.error.injEq] at hh
          exact Intn_ne_fuel rand _ (by rw [hI, hh])
        | ok v =>
          obtain ⟨i, rand1⟩ := v
          simp only
          rcases index_cap s.limit re0.Sub re.Sub re.Sub i hsub hsub with
            ⟨e, e1, _⟩ | ⟨c0, c, _, hm, _, e1, _, hcc, _⟩
          · simp only [e1]
            intro hh
            simp only [Except.error.injEq] at hh
            exact index_ne_fuel re.Sub i (by rw [e1, hh])
          · simp only [e1]
            cases ha : generate fuel s c rand1 with
            | error f =>
              intro hh
              simp only [Except.error.injEq] at hh
              exact (hkids c0 hm c rand1 hcc).2.1 (by rw [ha, hh])
            | ok v2 => simp

theorem safeNode_congr (re0 re : Regexp) (hop : re.Op = re0.Op) (hrune : re.Rune = re0.Rune)
    (hmin : re.Min = re0.Min)
    (hs0 : re.Sub0.isSome = re0.Sub0.isSome) (hs : re.Sub.isEmpty = re0.Sub.isEmpty) :
    safeNode re = safeNode re0 := by
  unfold safeNode
  rw [hop, hrune, hs0, hs, hmin]

theorem all_safe_of_CapOf (L : Int) (re0 : Regexp) :
    ∀ re, CapOf L re0 re → re0.all safeNode = true → re.all safeNode = true := by
  refine Regexp.rec
    (motive_1 := fun re0 => ∀ re, CapOf L re0 re → re0.all safeNode = true →
      re.all safeNode = true)
    (motive_2 := fun l0 => ∀ l, CapOfList L l0 l → allList safeNode l0 = true →
      allList safeNode l = true)
    (motive_3 := fun o0 => ∀ o, CapOfOpt L o0 o → allOpt safeNode o0 = true →
      allOpt safeNode o = true)
    ?_ ?_ ?_ ?_ ?_ re0
  · intro op rune sub sub0 mn mx h2 h3 re h hs
    have hlen : re.Sub.length = sub.length :=
      CapOfList_length L _ _ (CapOf_fields L _ re h).2.2.2.2.1
    obtain ⟨hop, hrune, hmin, _, hsub, hsub0⟩ := CapOf_fields L _ re h
    have hsubA : CapOfList L sub re.Sub := hsub
    have hsubB : CapOfOpt L sub0 re.Sub0 := hsub0
    have hn : safeNode re = safeNode (.mk op rune sub sub0 mn mx) := by
      refine safeNode_congr _ re hop hrune hmin ?_ ?_
      · show re.Sub0.isSome = sub0.isSome
        cases hz : sub0 with
        | none =>
          rw [hz, CapOfOpt] at hsubB
          rw [hsubB]
        | some v =>
          rw [hz, CapOfOpt] at hsubB
          obtain ⟨r1, e, _⟩ := hsubB
          rw [e]
          rfl
      · show re.Sub.isEmpty = sub.isEmpty
        cases hl : re.Sub with
        | nil =>
          rw [hl] at hlen
          cases hz : sub with
          | nil => rfl
          | cons a b =>
            rw [hz] at hlen
            simp at hlen
        | cons a b =>
          rw [hl] at hlen
          cases hz : sub with
          | nil =>
            rw [hz] at hlen
            simp at hlen
          | cons a2 b2 => rfl
    rw [Regexp.all, Bool.and_eq_true, Bool.and_eq_true] at hs
    cases re with
    | mk op1 rune1 sub1 sub01 mn1 mx1 =>
      rw [Regexp.all, Bool.and_eq_true, Bool.and_eq_true]
      exact ⟨⟨by rw [hn]; exact hs.1.1, h2 sub1 hsubA hs.1.2⟩, h3 sub01 hsubB hs.2⟩
  · intro l h _
    rw [CapOfList] at h
    rw [h]
    rfl
  · intro hd tl h1 h2 l h hs
    rw [CapOfList] at h
    obtain ⟨r1, rs1, rfl, hr, hrs⟩ := h
    rw [allList, Bool.and_eq_true] at hs
    rw [allList, Bool.and_eq_true]
    exact ⟨h1 r1 hr hs.1, h2 rs1 hrs hs.2⟩
  · intro o h _
    rw [CapOfOpt] at h
    rw [h]
    rfl
  · intro v h1 o h hs
    rw [CapOfOpt] at h
    obtain ⟨r1, rfl, hr⟩ := h
    rw [allOpt] at hs
    rw [allOpt]
    exact h1 r1 hr hs

theorem Intn_nonpos (rand : Rand) (n : Int) (h : n ≤ 0) : rand.Intn n = .error .panic := by
  unfold Rand.Intn
  rw [if_pos h]

/-- The count of a Star is at most the limit. -/
theorem wrap64_star (limit count : Int) (hl : 1 ≤ limit) (h : count < wrap64 (limit + 1)) :
    count ≤ limit := by
  unfold wrap64 at h
  omega

/-- The count of a Plus is at most the limit. -/
theorem wrap64_plus (limit count : Int) (h0 : 0 ≤ count) (h : count < limit) :
    wrap64 (count + 1) ≤ limit := by
  unfold wrap64
  omega

/-- The last pass of a Repeat is at most the capped `Max`. -/
theorem wrap64_repeat (cap mn count : Int) (hm : -9223372036854775808 ≤ mn) (hgt : mn < cap)
    (hc2 : cap < 9223372036854775808) (h0 : 0 ≤ count)
    (hD : count < wrap64 (cap - mn + 1)) : wrap64 (mn + count) ≤ cap := by
  unfold wrap64 at hD ⊢
  omega

theorem wrap64_le_self (a c : Int) (hc : -9223372036854775808 ≤ c) (h : c ≤ a) :
    wrap64 (a + 0) ≤ a := by
  unfold wrap64
  omega

theorem capMax_le_limit (mx limit : Int) (hl : 0 ≤ limit) (h : limit ≤ 9007199254740992) :
    capMax mx limit ≤ limit := by
  have := capMax_le mx limit hl
  rw [float64_exact limit (by omega) h] at this
  exact this

/-- Every loop of `generate` that is reached makes a number of passes bounded by the limit
(as a `float64`, for a Repeat) or by the `Min` of the node. -/
theorem loop_bound (fuel : Nat) (s : state) (re : Regexp) (rand : Rand) (hlim : 1 ≤ s.limit)
    (hmin : -9223372036854775808 ≤ re.Min)
    (hop : re.Op = .OpStar ∨ re.Op = .OpPlus ∨ re.Op = .OpQuest ∨ re.Op = .OpRepeat) :
    generate (fuel + 1) s re rand = .error .panic ∨
    ∃ (n : Nat) (re1 : Regexp) (rand1 : Rand),
      (n : Int) ≤ max (max s.limit (float64 s.limit)) re.Min ∧
      (s.limit ≤ 9007199254740992 → (n : Int) ≤ max s.limit re.Min) ∧
      generate (fuel + 1) s re rand = withSub re1 (genLoop (generate fuel s) n re.Sub rand1) := by
  have hx1 := le_max_left s.limit re.Min
  have hx2 := le_max_right s.limit re.Min
  have hy1 := le_max_left (max s.limit (float64 s.limit)) re.Min
  have hy2 := le_max_right (max s.limit (float64 s.limit)) re.Min
  have hy3 := le_max_left s.limit (float64 s.limit)
  have hy4 := le_max_right s.limit (float64 s.limit)
  rcases hop with hop | hop | hop | hop
  · by_cases hpos : 0 < wrap64 (s.limit + 1)
    · have h0 := Int.emod_nonneg (rand 0 : Int) (show wrap64 (s.limit + 1) ≠ 0 by omega)
      have h1 := Int.emod_lt_of_pos (rand 0 : Int) hpos
      have h2 := wrap64_star s.limit _ hlim h1
      refine Or.inr ⟨((rand 0 : Int) % wrap64 (s.limit + 1)).toNat, re, rand.tail, ?_, ?_, ?_⟩
      · rw [Int.toNat_of_nonneg h0]
        omega
      · intro _
        rw [Int.toNat_of_nonneg h0]
        omega
      · simp only [generate, hop, Intn_pos rand _ hpos]
    · left
      simp only [generate, hop, Intn_nonpos rand _ (not_lt.mp hpos)]
  · have hpos : 0 < s.limit := by omega
    have h0 := Int.emod_nonneg (rand 0 : Int) (show s.limit ≠ 0 by omega)
    have h1 := Int.emod_lt_of_pos (rand 0 : Int) hpos
    have h2 := wrap64_plus s.limit _ h0 h1
    refine Or.inr ⟨(wrap64 ((rand 0 : Int) % s.limit + 1)).toNat, re, rand.tail, ?_, ?_, ?_⟩
    · omega
    · intro _
      omega
    · simp only [generate, hop, Intn_pos rand _ hpos]
  · have h0 := Int.emod_nonneg (rand 0 : Int) (show (2 : Int) ≠ 0 by omega)
    have h1 := Int.emod_lt_of_pos (rand 0 : Int) (show (0 : Int) < 2 by omega)
    refine Or.inr ⟨((rand 0 : Int) % 2).toNat, re, rand.tail, ?_, ?_, ?_⟩
    · rw [Int.toNat_of_nonneg h0]
      omega
    · intro _
      rw [Int.toNat_of_nonneg h0]
      omega
    · simp only [generate, hop, Intn_pos rand 2 (by omega)]
  · have hr := capMax_range re.Max s.limit
    have hm1 := capMax_le re.Max s.limit (by omega)
    by_cases hgt : capMax re.Max s.limit > re.Min
    · by_cases hpos : 0 < wrap64 (capMax re.Max s.limit - re.Min + 1)
      · have h0 : 0 ≤ (rand 0 : Int) % wrap64 (capMax re.Max s.limit - re.Min + 1) :=
          Int.emod_nonneg _ (by omega)
        have h1 := Int.emod_lt_of_pos (rand 0 : Int) hpos
        have h2 := wrap64_repeat (capMax re.Max s.limit) re.Min _ hmin hgt (by omega) h0 h1
        have h3 := max_le (le_of_lt hgt) h2
        refine Or.inr ⟨rounds re.Min
            (wrap64 (re.Min + (rand 0 : Int) % wrap64 (capMax re.Max s.limit - re.Min + 1))),
          re.setMax (capMax re.Max s.limit), rand.tail, ?_, ?_, ?_⟩
        · unfold rounds
          omega
        · intro hs
          have := capMax_le_limit re.Max s.limit (by omega) hs
          unfold rounds
          omega
        · simp only [generate, hop, setMax_Max, setMax_Min, setMax_Sub, if_pos hgt,
            Intn_pos rand _ hpos]
      · left
        simp only [generate, hop, setMax_Max, setMax_Min, setMax_Sub, if_pos hgt,
          Intn_nonpos rand _ (not_lt.mp hpos)]
    · have h2 := wrap64_le_self re.Min (capMax re.Max s.limit) hr.1 (not_lt.mp hgt)
      have h3 := max_le (le_refl re.Min) h2
      refine Or.inr ⟨rounds re.Min (wrap64 (re.Min + 0)), re.setMax (capMax re.Max s.limit),
        rand, ?_, ?_, ?_⟩
      · unfold rounds
        omega
      · intro _
        unfold rounds
        omega
      · simp only [generate, hop, setMax_Max, setMax_Min, setMax_Sub, if_neg hgt]

/-- Passes over the one child `Z`: `n` passes give `n` times `Z`. -/
theorem genLoop_Z (g : Regexp → Rand → Res (Str × Regexp × Rand))
    (hg : ∀ rand, g (lit [90]) rand = .ok ([90], lit [90], rand)) :
    ∀ (n : Nat) (rand : Rand),
      genLoop g n [lit [90]] rand = .ok (List.replicate n 90, [lit [90]], rand)
  | 0, rand => rfl
  | n + 1, rand => by
    simp only [genLoop, genSubs, hg, genLoop_Z g hg n, List.replicate_succ]
    rfl

theorem RepOf_length (P : Str → Prop) (hP : ∀ u, P u → u.length = 1) :
    ∀ (n : Nat) (w : Str), RepOf P n w → w.length = n
  | 0, w, h => by
    rw [RepOf] at h
    rw [h]
    rfl
  | n + 1, w, h => by
    rw [RepOf] at h
    obtain ⟨u, v, rfl, hu, hv⟩ := h
    rw [List.length_append, hP u hu, RepOf_length P hP n v hv]
    omega

theorem MatchesSeq_Z_length (u : Str) (h : MatchesSeq [lit [90]] u) : u.length = 1 := by
  rw [MatchesSeq] at h
  obtain ⟨u1, v, rfl, h1, h2⟩ := h
  rw [MatchesSeq] at h2
  rw [lit, Matches] at h1
  have := congrArg List.length h1
  simp only [List.length_map, List.length_singleton] at this
  rw [h2, List.append_nil, this]

/-- The run of `reBigMax3` at limit `2^53 + 3` on a stream that starts with `2^53 + 4`: the
cap through `float64` is `2^53 + 4`, and the loop makes `2^53 + 4` passes. -/
theorem bigMax3_run (rest : Rand) :
    generate 2 (state.mk 9007199254740995) reBigMax3 (Rand.cons 9007199254740996 rest) =
      withSub (reBigMax3.setMax 9007199254740996)
        (genLoop (generate 1 (state.mk 9007199254740995)) 9007199254740996 reBigMax3.Sub
          rest) := by
  have hop : reBigMax3.Op = .OpRepeat := rfl
  have hmax : reBigMax3.Max = 9007199254740995 := rfl
  have hmin : reBigMax3.Min = 0 := rfl
  have hcap : capMax 9007199254740995 (state.mk 9007199254740995).limit =
      9007199254740996 := by
    decide
  have hgt : (9007199254740996 : Int) > 0 := by decide
  have hw : wrap64 (9007199254740996 - 0 + 1) = 9007199254740997 := by decide
  have hpos : (0 : Int) < 9007199254740997 := by decide
  have hr : rounds 0 (wrap64 (0 + ((9007199254740996 : Nat) : Int) % 9007199254740997)) =
      9007199254740996 := by decide
  simp only [generate, hop, setMax_Max, setMax_Min, setMax_Sub, hmax, hmin, hcap, if_pos hgt,
    hw, Intn_pos _ _ hpos, cons_zero, cons_tail, hr]

theorem bigMax3_str (rest : Rand) :
    (Generate reBigMax3 9007199254740995 (Rand.cons 9007199254740996 rest)).str =
      some (List.replicate 9007199254740996 90) := by
  have hd : reBigMax3.depth = 2 := rfl
  have hsub : reBigMax3.Sub = [lit [90]] := rfl
  unfold Generate
  rw [hd, bigMax3_run rest, hsub, genLoop_Z _ (fun _ => rfl)]
  rfl

theorem bigMax3_no : ¬ Matches reBigMax3 (List.replicate 9007199254740996 90) := by
  rw [reBigMax3, Matches]
  rintro ⟨n, _, h2, h3⟩
  have hl := RepOf_length _ MatchesSeq_Z_length n _ h3
  rw [List.length_replicate] at hl
  rcases h2 with h2 | h2
  · omega
  · omega

/-- The cap of a missing upper bound `Max = -1` stays negative; it is `-1` at every limit
`≥ 0`. -/
theorem capMax_unbounded (limit : Int) :
    capMax (-1) limit ≤ -1 ∧ (0 ≤ limit → capMax (-1) limit = -1) := by
  have hf : float64 (-1) = -1 := float64_exact (-1) (by omega) (by omega)
  have hm := min_le_left (-1 : Int) (float64 limit)
  unfold capMax intOfFloat
  rw [hf]
  refine ⟨?_, fun h => ?_⟩
  · split <;> omega
  · have := float64_nonneg limit h
    rw [min_eq_left (by omega), if_pos (by omega)]

/-! ## Claims -/

/-- C1 as stated fails.  On code points that are not Unicode scalar values: the literal
`\x{D800}` and the class `[\x{D800}-\x{DFFF}]` are trees of the stated kind, and at limit 1
`Generate` returns U+FFFD for both (the conversion `string(r)` of a surrogate), a word that
neither tree accepts.  At the largest limit: on the tree of `Z*` at limit `2^63 - 1` the
bound `s.limit + 1` of the draw wraps to `-2^63` and `rand.Intn` panics, so no word is
returned.  Above `2^53`: on a Repeat of `Z` with `Min = 0` and `Max = 2^53 + 3` at limit
`2^53 + 3` the cap through `float64` is `2^53 + 4`, and a stream that starts with
`2^53 + 4` yields `2^53 + 4` times `Z`, a word the tree does not accept. -/
theorem C1_counterexample :
    reSurrogate.all statedNode = true ∧ reSurrogateClass.all statedNode = true ∧
    (Generate reSurrogate 1 (fun _ => 0)).str = some [0xfffd] ∧
    ¬ Matches reSurrogate [0xfffd] ∧
    (Generate reSurrogateClass 1 (fun _ => 0)).str = some [0xfffd] ∧
    ¬ Matches reSurrogateClass [0xfffd] ∧
    reZStar.all statedNode = true ∧
    (∀ r : Rand, Generate reZStar 9223372036854775807 r = .error .panic) ∧
    reBigMax3.all statedNode = true ∧
    (∀ rest : Rand,
      (Generate reBigMax3 9007199254740995 (Rand.cons 9007199254740996 rest)).str =
        some (List.replicate 9007199254740996 90)) ∧
    ¬ Matches reBigMax3 (List.replicate 9007199254740996 90) := by
  refine ⟨by decide, by decide, by decide, ?_, by decide, ?_, by decide, fun _ => rfl,
    by decide, bigMax3_str, bigMax3_no⟩
  · rw [reSurrogate, lit, Matches]
    decide
  · rw [reSurrogateClass, Matches]
    rintro ⟨c, hc, hin⟩
    simp only [List.cons.injEq, and_true] at hc
    subst hc
    simp [inClass] at hin

/-- C1, amended. For every tree built from EmptySequence, Literal, CharacterClass, AnyChar,
AnyCharNoNewline, Capture, Star, Plus, Quest, Repeat (`0 ≤ Min`, `Max` missing or `≥ Min`,
`Max ≤ 2^53`), Concat and non-empty Alternate, whose literals are made of Unicode scalar
values and whose classes are non-empty lists of ranges `lo ≤ hi`, either bounded, made of
Unicode scalar values and with range sizes summing to less than `2^63`, or reaching
`0x10ffff` with a printable character in a range, for every limit in `[1, 2^63 - 2]` and
every stream, `Generate` returns a word and the tree accepts that word as a whole. -/
theorem C1_round_trip (re : Regexp) (limit : Int) (rand : Rand)
    (hre : re.all roundTripNode = true) (hlim : 1 ≤ limit)
    (hmax : limit < 9223372036854775807) :
    ∃ w re1 rand1, Generate re limit rand = .ok (w, re1, rand1) ∧ Matches re w := by
  obtain ⟨w, re1, rand1, e, _, m⟩ :=
    generate_main { limit := limit } hlim hmax re.depth re le_rfl
      (all_safe_of_roundTrip re hre) re rand (CapOf_refl limit re)
  exact ⟨w, re1, rand1, e, m hre⟩

/-- Witness of C1 (amended) on the tree of `(ab|bc)def` at limit 1. -/
theorem C1_round_trip_witness :
    reAbBcDef.all roundTripNode = true ∧ (1 : Int) ≤ 1 ∧ (1 : Int) < 9223372036854775807 ∧
    ∃ w re1 rand1, Generate reAbBcDef 1 (fun _ => 1) = .ok (w, re1, rand1) ∧
      Matches reAbBcDef w :=
  ⟨by decide, by decide, by decide,
    C1_round_trip reAbBcDef 1 (fun _ => 1) (by decide) (by decide) (by decide)⟩

/-- C2 (the code departs from it). `generate` writes the tree: after a call with limit 1 on
the tree of `Z{2,5}`, whatever the stream, the node holds `Max = 1` instead of `5`, and a
later call with limit 10 on that same tree yields "ZZ" on a stream for which the tree as
parsed yields "ZZZZZ". -/
theorem C2_generate_writes_Max :
    (∀ r : Rand, (Generate reZ25 1 r).tree = some (reZ25.setMax 1)) ∧
    reZ25.Max = 5 ∧ (reZ25.setMax 1).Max = 1 ∧
    (∀ r : Rand, (Generate (reZ25.setMax 1) 10 r).str = some [90, 90]) ∧
    (Generate reZ25 10 (fun _ => 3)).str = some [90, 90, 90, 90, 90] :=
  ⟨fun _ => rfl, rfl, rfl, fun _ => rfl, rfl⟩

/-- C3 as stated fails: at limit 1 `generate` panics on a class without ranges
(`rand.Intn(0)`), on an Alternate without children (`rand.Intn(0)`) and on a Capture whose
child is nil; on the class with the range `[-1, 0x7fffffff]` the `int32` size of the range
wraps and the bound of the draw is negative; on a Repeat with `Min = -2^63` and `Max = 5` at
limit 10 the bound `re.Max - re.Min + 1` of the draw wraps to a negative value; and on the
tree of `Z*` at limit `2^63 - 1` the bound `s.limit + 1` wraps to `-2^63`. -/
theorem C3_counterexample :
    Generate reEmptyClass 1 (fun _ => 0) = .error .panic ∧
    Generate reEmptyAlternate 1 (fun _ => 0) = .error .panic ∧
    Generate reEmptyCapture 1 (fun _ => 0) = .error .panic ∧
    (∀ r : Rand, Generate reWideClass 1 r = .error .panic) ∧
    (∀ r : Rand, Generate reNegMin 10 r = .error .panic) ∧
    (∀ r : Rand, Generate reZStar 9223372036854775807 r = .error .panic) :=
  ⟨rfl, rfl, rfl, fun _ => rfl, fun _ => rfl, fun _ => rfl⟩

/-- C3, amended. On every tree in which each class is a non-empty list of ranges `lo ≤ hi`
that holds a printable character or is bounded, with `int32` ranges of at most `2^31` code
points whose sizes sum to less than `2^63`, each Alternate has a child, each Capture has its
child and each Repeat has `0 ≤ Min`, at every limit in `[1, 2^63 - 2]` and on every stream,
`Generate` returns a string: no panic is reached, so `rand.Intn` is never called with
`n ≤ 0`.  A node of an unrecognised kind yields the empty string and leaves tree and stream
as they were. -/
theorem C3_generate_returns (re : Regexp) (limit : Int) (rand : Rand)
    (hre : re.all safeNode = true) (hlim : 1 ≤ limit) (hmax : limit < 9223372036854775807) :
    (∃ w re1 rand1, Generate re limit rand = .ok (w, re1, rand1)) ∧
    (∀ code, re.Op = .OpUnknown code → Generate re limit rand = .ok ([], re, rand)) := by
  refine ⟨?_, fun code hop => ?_⟩
  · obtain ⟨w, re1, rand1, e, _, _⟩ :=
      generate_main { limit := limit } hlim hmax re.depth re le_rfl hre re rand
        (CapOf_refl limit re)
    exact ⟨w, re1, rand1, e⟩
  · unfold Generate
    rw [depth_pos re]
    simp only [generate, hop]

/-- Witness of C3 (amended) on the tree of `(ab|bc)def` at limit 1. -/
theorem C3_generate_returns_witness :
    reAbBcDef.all safeNode = true ∧ (1 : Int) ≤ 1 ∧ (1 : Int) < 9223372036854775807 ∧
    ∃ w re1 rand1, Generate reAbBcDef 1 (fun _ => 1) = .ok (w, re1, rand1) :=
  ⟨by decide, by decide, by decide,
    (C3_generate_returns reAbBcDef 1 (fun _ => 1) (by decide) (by decide) (by decide)).1⟩

/-- C4 (the code departs from it). On the class `[^\x00-\x7f]`, whose only range
`[0x80, 0x10ffff]` holds no printable character, `generate` does not return the empty
string: it falls through to `rand.Intn(-1)` and panics, at every limit and on every
stream. -/
theorem C4_degenerate_class_panics (fuel : Nat) (s : state) (rand : Rand) :
    generate (fuel + 1) s reNonAscii rand = .error .panic := rfl

/-- C5 as stated fails above `2^53`, where the cap `int(math.Min(float64(Max),
float64(limit)))` is not `min Max limit`.  On a Repeat of `Z` with `Min = 0` and
`Max = 2^53 + 1` at limit `2^53 + 1`, `min Max limit` is `2^53 + 1` and the draw
`2^53 + 1` reduced into `[0, min Max limit - Min]` is `2^53 + 1`; the code caps at `2^53`,
writes that into the node, reduces the draw to `0`, makes no pass and returns the empty
string. -/
theorem C5_counterexample :
    reBigMax.Op = .OpRepeat ∧ 0 ≤ reBigMax.Min ∧ (1 : Int) ≤ 9007199254740993 ∧
    min reBigMax.Max 9007199254740993 = 9007199254740993 ∧
    ((fun _ => 9007199254740993 : Rand) 0 : Int) %
      (min reBigMax.Max 9007199254740993 - reBigMax.Min + 1) = 9007199254740993 ∧
    capMax reBigMax.Max 9007199254740993 = 9007199254740992 ∧
    (Generate reBigMax 9007199254740993 (fun _ => 9007199254740993)).str = some [] ∧
    (Generate reBigMax 9007199254740993 (fun _ => 9007199254740993)).tree =
      some (reBigMax.setMax 9007199254740992) :=
  ⟨rfl, by decide, by decide, by decide, by decide, by decide, rfl, rfl⟩

/-- C5, amended. A Repeat node with `0 ≤ Min` and `Max` of absolute value at most `2^53`
makes exactly `Min + extra` passes over its children, at every limit `≥ 1`, where with
`cappedMax = min Max limit`: when `cappedMax > Min`, `extra` is one draw reduced into
`[0, cappedMax - Min]` and the passes start from the advanced stream; otherwise `extra = 0`
and the passes start from the stream as it came.  The tree of `Z{2,5}` with limit 1 yields
exactly "ZZ" on every stream. -/
theorem C5_repeat_rounds (fuel : Nat) (s : state) (re : Regexp) (rand : Rand)
    (hop : re.Op = .OpRepeat) (hmin : 0 ≤ re.Min) (hlim : 1 ≤ s.limit)
    (hlo : -9007199254740992 ≤ re.Max) (hhi : re.Max ≤ 9007199254740992) :
    (min re.Max s.limit > re.Min →
      ∃ (extra : Int) (n : Nat), extra = (rand 0 : Int) % (min re.Max s.limit - re.Min + 1) ∧
        0 ≤ extra ∧ extra ≤ min re.Max s.limit - re.Min ∧ (n : Int) = re.Min + extra ∧
        generate (fuel + 1) s re rand =
          withSub (re.setMax (min re.Max s.limit))
            (genLoop (generate fuel s) n re.Sub rand.tail)) ∧
    (¬ min re.Max s.limit > re.Min →
      ∃ n : Nat, (n : Int) = re.Min ∧
        generate (fuel + 1) s re rand =
          withSub (re.setMax (min re.Max s.limit))
            (genLoop (generate fuel s) n re.Sub rand)) ∧
    (∀ r : Rand, (Generate reZ25 1 r).str = some [90, 90]) := by
  have hcap := capMax_exact re.Max s.limit hlo hhi hlim
  have hm := min_le_left re.Max s.limit
  refine ⟨fun hgt => ?_, fun hle => ?_, fun r => rfl⟩
  · have hpos : 0 < min re.Max s.limit - re.Min + 1 := by omega
    have h0 : 0 ≤ (rand 0 : Int) % (min re.Max s.limit - re.Min + 1) :=
      Int.emod_nonneg _ (by omega)
    have h1 := Int.emod_lt_of_pos (rand 0 : Int) hpos
    have hw : wrap64 (min re.Max s.limit - re.Min + 1) = min re.Max s.limit - re.Min + 1 :=
      wrap64_eq _ (by omega) (by omega)
    have hw2 : wrap64 (re.Min + (rand 0 : Int) % (min re.Max s.limit - re.Min + 1)) =
        re.Min + (rand 0 : Int) % (min re.Max s.limit - re.Min + 1) :=
      wrap64_eq _ (by omega) (by omega)
    refine ⟨_, _, rfl, h0, ?_, Int.toNat_of_nonneg (by omega), ?_⟩
    · omega
    · simp only [generate, hop, setMax_Max, setMax_Min, setMax_Sub, hcap, if_pos hgt, hw,
        Intn_pos rand _ hpos]
      rw [hw2, rounds_add _ _ h0]
  · refine ⟨_, Int.toNat_of_nonneg hmin, ?_⟩
    simp only [generate, hop, setMax_Max, setMax_Min, setMax_Sub, hcap, if_neg hle]
    rw [rounds_wrap_self _ hmin]

/-- Witness of C5 (amended) on the tree of `Z{2,5}` at limit 1. -/
theorem C5_repeat_rounds_witness :
    reZ25.Op = .OpRepeat ∧ 0 ≤ reZ25.Min ∧ (1 : Int) ≤ (state.mk 1).limit ∧
    -9007199254740992 ≤ reZ25.Max ∧ reZ25.Max ≤ 9007199254740992 ∧
    ∀ r : Rand, (Generate reZ25 1 r).str = some [90, 90] :=
  ⟨rfl, by decide, by decide, by decide, by decide,
    (C5_repeat_rounds 1 (state.mk 1) reZ25 (fun _ => 0) rfl (by decide) (by decide)
      (by decide) (by decide)).2.2⟩

/-- C6 (the code departs from it). On the tree of `a{2,}` (`Max = -1`) the capped maximum is
the cap of `-1` and the limit, which is `-1` and not `limit` at every limit `≥ 0` (and
negative at every limit): no draw is made and every stream yields exactly "aa", so at
limit 5 the counts 3, 4 and 5 are never produced. -/
theorem C6_unbounded_repeat_stays_at_min (limit : Int) (rand : Rand) :
    Generate reA2 limit rand = .ok ([97, 97], reA2.setMax (capMax (-1) limit), rand) ∧
    (0 ≤ limit → capMax (-1) limit = -1) ∧
    capMax reA2.Max 5 = -1 := by
  refine ⟨?_, (capMax_unbounded limit).2, by decide⟩
  have hle : ¬ capMax (-1) limit > 2 := by
    have := (capMax_unbounded limit).1
    omega
  have hd : reA2.depth = 2 := rfl
  unfold Generate
  rw [hd]
  have hop : reA2.Op = .OpRepeat := rfl
  have hmax : reA2.Max = -1 := rfl
  have hmin : reA2.Min = 2 := rfl
  have hsub : reA2.Sub = [lit [97]] := rfl
  simp only [generate, hop, setMax_Max, setMax_Min, setMax_Sub, hmax, hmin, hsub, if_neg hle]
  rfl

/-- C7 as stated fails: at limit 1 the tree of `Z{2,5}` yields "ZZ", and its result is not
that of `n` passes over the child `Z` for any `n ≤ 1`.  Moreover on the tree of `Z*` at
limit `2^63 - 1` the bound of the draw wraps and the call panics; and on a Repeat of `Z`
with `Min = 0` and `Max = 2^53 + 3` at limit `2^53 + 3` the cap through `float64` is
`2^53 + 4` and the stream that starts with `2^53 + 4` gives `2^53 + 4` passes, more than
the limit. -/
theorem C7_counterexample :
    (Generate reZ25 1 (fun _ => 0)).str = some [90, 90] ∧
    (¬ ∃ (n : Nat) (re1 : Regexp) (rand1 : Rand), (n : Int) ≤ (state.mk 1).limit ∧
      generate 2 (state.mk 1) reZ25 (fun _ => 0) =
        withSub re1 (genLoop (generate 1 (state.mk 1)) n reZ25.Sub rand1)) ∧
    (∀ r : Rand, generate 2 (state.mk 9223372036854775807) reZStar r = .error .panic) ∧
    (∀ rest : Rand,
      generate 2 (state.mk 9007199254740995) reBigMax3 (Rand.cons 9007199254740996 rest) =
        withSub (reBigMax3.setMax 9007199254740996)
          (genLoop (generate 1 (state.mk 9007199254740995)) 9007199254740996 reBigMax3.Sub
            rest)) ∧
    (state.mk 9007199254740995).limit < 9007199254740996 := by
  refine ⟨rfl, ?_, fun _ => rfl, bigMax3_run, by decide⟩
  rintro ⟨n, re1, rand1, hn, h⟩
  have hn1 : n = 0 ∨ n = 1 := by
    have : (n : Int) ≤ 1 := hn
    omega
  have h2 := congrArg Res.str h
  rcases hn1 with rfl | rfl
  · exact absurd h2 (by
      show ¬ (some [90, 90] = some [])
      decide)
  · exact absurd h2 (by
      show ¬ (some [90, 90] = some [90])
      decide)

/-- C7, amended. At every limit in `[1, 2^63 - 2]` a Star node, and at every limit `≥ 1` a
Plus node, makes at most `limit` passes over its children; at every limit `≥ 1` a Repeat
node with `0 ≤ Min` and `Max` of absolute value at most `2^53` makes at least `Min` and at
most `max Min (min Max limit)` passes, hence at most `limit` passes whenever
`Min ≤ limit`. -/
theorem C7_rounds_bound (fuel : Nat) (s : state) (re : Regexp) (rand : Rand)
    (hlim : 1 ≤ s.limit) :
    (re.Op = .OpStar → s.limit < 9223372036854775807 →
      ∃ n : Nat, (n : Int) ≤ s.limit ∧
        generate (fuel + 1) s re rand =
          withSub re (genLoop (generate fuel s) n re.Sub rand.tail)) ∧
    (re.Op = .OpPlus →
      ∃ n : Nat, (n : Int) ≤ s.limit ∧
        generate (fuel + 1) s re rand =
          withSub re (genLoop (generate fuel s) n re.Sub rand.tail)) ∧
    (re.Op = .OpRepeat → 0 ≤ re.Min → -9007199254740992 ≤ re.Max →
      re.Max ≤ 9007199254740992 →
      ∃ (n : Nat) (rand1 : Rand), re.Min ≤ (n : Int) ∧
        (n : Int) ≤ max re.Min (min re.Max s.limit) ∧ (re.Min ≤ s.limit → (n : Int) ≤ s.limit) ∧
        generate (fuel + 1) s re rand =
          withSub (re.setMax (min re.Max s.limit))
            (genLoop (generate fuel s) n re.Sub rand1)) := by
  refine ⟨fun hop hmax => ?_, fun hop => ?_, fun hop hmin hlo hhi => ?_⟩
  · have hpos : 0 < s.limit + 1 := by omega
    have hw : wrap64 (s.limit + 1) = s.limit + 1 := wrap64_eq _ (by omega) (by omega)
    have h0 := Int.emod_nonneg (rand 0 : Int) (show s.limit + 1 ≠ 0 by omega)
    have h1 := Int.emod_lt_of_pos (rand 0 : Int) hpos
    refine ⟨((rand 0 : Int) % (s.limit + 1)).toNat, ?_, ?_⟩
    · rw [Int.toNat_of_nonneg h0]; omega
    · simp only [generate, hop, hw, Intn_pos rand _ hpos]
  · have hpos : 0 < s.limit := by omega
    have h0 := Int.emod_nonneg (rand 0 : Int) (show s.limit ≠ 0 by omega)
    have h1 := Int.emod_lt_of_pos (rand 0 : Int) hpos
    have h2 := wrap64_plus s.limit _ h0 h1
    refine ⟨(wrap64 ((rand 0 : Int) % s.limit + 1)).toNat, ?_, ?_⟩
    · omega
    · simp only [generate, hop, Intn_pos rand _ hpos]
  · have hcap := capMax_exact re.Max s.limit hlo hhi hlim
    have hm := min_le_left re.Max s.limit
    have hm2 := min_le_right re.Max s.limit
    have hx1 := le_max_left re.Min (min re.Max s.limit)
    have hx2 := le_max_right re.Min (min re.Max s.limit)
    by_cases hgt : min re.Max s.limit > re.Min
    · have hpos : 0 < min re.Max s.limit - re.Min + 1 := by omega
      have h0 : 0 ≤ (rand 0 : Int) % (min re.Max s.limit - re.Min + 1) :=
        Int.emod_nonneg _ (by omega)
      have h1 := Int.emod_lt_of_pos (rand 0 : Int) hpos
      have hw : wrap64 (min re.Max s.limit - re.Min + 1) = min re.Max s.limit - re.Min + 1 :=
        wrap64_eq _ (by omega) (by omega)
      have hw2 : wrap64 (re.Min + (rand 0 : Int) % (min re.Max s.limit - re.Min + 1)) =
          re.Min + (rand 0 : Int) % (min re.Max s.limit - re.Min + 1) :=
        wrap64_eq _ (by omega) (by omega)
      refine ⟨(re.Min + (rand 0 : Int) % (min re.Max s.limit - re.Min + 1)).toNat,
        rand.tail, ?_, ?_, ?_, ?_⟩
      · rw [Int.toNat_of_nonneg (by omega)]; omega
      · rw [Int.toNat_of_nonneg (by omega)]; omega
      · intro _
        rw [Int.toNat_of_nonneg (by omega)]; omega
      · simp only [generate, hop, setMax_Max, setMax_Min, setMax_Sub, hcap, if_pos hgt, hw,
          Intn_pos rand _ hpos]
        rw [hw2, rounds_add _ _ h0]
    · refine ⟨re.Min.toNat, rand, ?_, ?_, ?_, ?_⟩
      · rw [Int.toNat_of_nonneg hmin]
      · rw [Int.toNat_of_nonneg hmin]; omega
      · intro h
        rw [Int.toNat_of_nonneg hmin]; exact h
      · simp only [generate, hop, setMax_Max, setMax_Min, setMax_Sub, hcap, if_neg hgt]
        rw [rounds_wrap_self _ hmin]

/-- Witness of C7 (amended) on the tree of `Z*` at limit 3. -/
theorem C7_rounds_bound_witness :
    (1 : Int) ≤ (state.mk 3).limit ∧
    ∃ n : Nat, (n : Int) ≤ (state.mk 3).limit ∧
      generate 2 (state.mk 3) reZStar (fun _ => 2) =
        withSub reZStar
          (genLoop (generate 1 (state.mk 3)) n reZStar.Sub (Rand.tail (fun _ => 2))) :=
  ⟨by decide,
    (C7_rounds_bound 1 (state.mk 3) reZStar (fun _ => 2) (by decide)).1 rfl (by decide)⟩

/-- C8 as stated fails at the largest limit: on the tree of `Z*` at limit `2^63 - 1` the
bound `s.limit + 1` of the draw wraps to `-2^63`, `rand.Intn` panics on every stream, and no
count in `[0, limit]` is produced. -/
theorem C8_counterexample :
    (1 : Int) ≤ (state.mk 9223372036854775807).limit ∧ reZStar.Op = .OpStar ∧
    wrap64 ((state.mk 9223372036854775807).limit + 1) = -9223372036854775808 ∧
    (∀ r : Rand, generate 2 (state.mk 9223372036854775807) reZStar r = .error .panic) ∧
    (∀ r : Rand, Generate reZStar 9223372036854775807 r = .error .panic) :=
  ⟨by decide, rfl, by decide, fun _ => rfl, fun _ => rfl⟩

/-- C8, amended. At every limit in `[1, 2^63 - 2]` a Star node makes `count` passes over
its children with `count` one draw reduced into `[0, limit]`; at every limit in
`[1, 2^63 - 1]` a Plus node makes `count` passes with `count` one draw reduced into
`[0, limit)` plus one, so in `[1, limit]`, and a Quest node with `count` one draw reduced
into `[0, 1]`; the passes start from the stream advanced by that one draw; and every count
of the interval is obtained from some draw, whatever stream follows it. -/
theorem C8_star_plus_quest_counts (fuel : Nat) (s : state) (re : Regexp)
    (hlim : 1 ≤ s.limit) (hint : s.limit ≤ 9223372036854775807) :
    (re.Op = .OpStar → s.limit < 9223372036854775807 →
      (∀ rand : Rand, ∃ count : Nat, (count : Int) = (rand 0 : Int) % (s.limit + 1) ∧
        (count : Int) ≤ s.limit ∧
        generate (fuel + 1) s re rand =
          withSub re (genLoop (generate fuel s) count re.Sub rand.tail)) ∧
      (∀ (count : Nat) (rest : Rand), (count : Int) ≤ s.limit → ∃ d : Nat,
        generate (fuel + 1) s re (Rand.cons d rest) =
          withSub re (genLoop (generate fuel s) count re.Sub rest))) ∧
    (re.Op = .OpPlus →
      (∀ rand : Rand, ∃ count : Nat, (count : Int) = (rand 0 : Int) % s.limit + 1 ∧
        1 ≤ count ∧ (count : Int) ≤ s.limit ∧
        generate (fuel + 1) s re rand =
          withSub re (genLoop (generate fuel s) count re.Sub rand.tail)) ∧
      (∀ (count : Nat) (rest : Rand), 1 ≤ count → (count : Int) ≤ s.limit → ∃ d : Nat,
        generate (fuel + 1) s re (Rand.cons d rest) =
          withSub re (genLoop (generate fuel s) count re.Sub rest))) ∧
    (re.Op = .OpQuest →
      (∀ rand : Rand, ∃ count : Nat, (count : Int) = (rand 0 : Int) % 2 ∧ count ≤ 1 ∧
        generate (fuel + 1) s re rand =
          withSub re (genLoop (generate fuel s) count re.Sub rand.tail)) ∧
      (∀ (count : Nat) (rest : Rand), count ≤ 1 → ∃ d : Nat,
        generate (fuel + 1) s re (Rand.cons d rest) =
          withSub re (genLoop (generate fuel s) count re.Sub rest))) := by
  refine ⟨fun hop hmax => ⟨fun rand => ?_, fun count rest hc => ⟨count, ?_⟩⟩,
    fun hop => ⟨fun rand => ?_, fun count rest h1 hc => ⟨count - 1, ?_⟩⟩,
    fun hop => ⟨fun rand => ?_, fun count rest hc => ⟨count, ?_⟩⟩⟩
  · have hpos : 0 < s.limit + 1 := by omega
    have hw : wrap64 (s.limit + 1) = s.limit + 1 := wrap64_eq _ (by omega) (by omega)
    have h0 := Int.emod_nonneg (rand 0 : Int) (show s.limit + 1 ≠ 0 by omega)
    have h1 := Int.emod_lt_of_pos (rand 0 : Int) hpos
    refine ⟨_, Int.toNat_of_nonneg h0, ?_, ?_⟩
    · rw [Int.toNat_of_nonneg h0]; omega
    · simp only [generate, hop, hw, Intn_pos rand _ hpos]
  · have hpos : 0 < s.limit + 1 := by omega
    have hw : wrap64 (s.limit + 1) = s.limit + 1 := wrap64_eq _ (by omega) (by omega)
    simp only [generate, hop, hw, Intn_pos _ _ hpos, cons_zero, cons_tail]
    rw [Int.emod_eq_of_lt (by omega) (by omega), Int.toNat_ofNat]
  · have hpos : 0 < s.limit := by omega
    have h0 := Int.emod_nonneg (rand 0 : Int) (show s.limit ≠ 0 by omega)
    have h1 := Int.emod_lt_of_pos (rand 0 : Int) hpos
    have hw : wrap64 ((rand 0 : Int) % s.limit + 1) = (rand 0 : Int) % s.limit + 1 :=
      wrap64_eq _ (by omega) (by omega)
    refine ⟨_, Int.toNat_of_nonneg (by omega), ?_, ?_, ?_⟩
    · omega
    · rw [Int.toNat_of_nonneg (by omega)]; omega
    · simp only [generate, hop, Intn_pos rand _ hpos]
      rw [hw]
  · have hpos : 0 < s.limit := by omega
    simp only [generate, hop, Intn_pos _ _ hpos, cons_zero, cons_tail]
    rw [Int.emod_eq_of_lt (by omega) (by omega)]
    have : ((count - 1 : Nat) : Int) + 1 = (count : Int) := by omega
    rw [this, wrap64_eq _ (by omega) (by omega), Int.toNat_ofNat]
  · have h0 := Int.emod_nonneg (rand 0 : Int) (show (2 : Int) ≠ 0 by omega)
    have h1 := Int.emod_lt_of_pos (rand 0 : Int) (show (0 : Int) < 2 by omega)
    refine ⟨_, Int.toNat_of_nonneg h0, ?_, ?_⟩
    · omega
    · simp only [generate, hop, Intn_pos rand 2 (by omega)]
  · simp only [generate, hop, Intn_pos _ 2 (by omega), cons_zero, cons_tail]
    rw [Int.emod_eq_of_lt (by omega) (by omega), Int.toNat_ofNat]

/-- Witness of C8 (amended) on the tree of `Z*` at limit 3: the draw 2 gives two passes,
"ZZ". -/
theorem C8_star_plus_quest_counts_witness :
    (1 : Int) ≤ (state.mk 3).limit ∧ (state.mk 3).limit ≤ 9223372036854775807 ∧
    ∃ count : Nat, (count : Int) = ((fun _ => 2 : Rand) 0 : Int) % ((state.mk 3).limit + 1) ∧
      (count : Int) ≤ (state.mk 3).limit ∧
      generate 2 (state.mk 3) reZStar (fun _ => 2) =
        withSub reZStar
          (genLoop (generate 1 (state.mk 3)) count reZStar.Sub (Rand.tail (fun _ => 2))) :=
  ⟨by decide, by decide,
    ((C8_star_plus_quest_counts 1 (state.mk 3) reZStar (by decide) (by decide)).1 rfl
      (by decide)).1 (fun _ => 2)⟩

/-- C9. Two streams that deliver the same draws give the same result, tree and remaining
stream, for `GenerateFromString` on one pattern and for `Generate` on one tree, at every
limit; and `k` calls in a row stay equal call by call, for every `k`. -/
theorem C9_reproducible {E : Type} (Parse : String → Except E Regexp) (text : String)
    (re : Regexp) (limit : Int) (r1 r2 : Rand) (h : ∀ i, r1 i = r2 i) :
    GenerateFromString Parse text limit r1 = GenerateFromString Parse text limit r2 ∧
    Generate re limit r1 = Generate re limit r2 ∧
    ∀ k, callSeq Parse text limit k r1 = callSeq Parse text limit k r2 := by
  have e : r1 = r2 := funext h
  subst e
  exact ⟨rfl, rfl, fun _ => rfl⟩

/-- Witness of C9: the stream `3, 3, ...` written in two ways, on the pattern `Z{2,5}`. -/
theorem C9_reproducible_witness :
    (∀ i, (fun _ => 3 : Rand) i = (fun j => 3 + (j - j) : Rand) i) ∧
    GenerateFromString parseZ25 "Z\x7b2,5\x7d" 10 (fun _ => 3) =
      GenerateFromString parseZ25 "Z\x7b2,5\x7d" 10 (fun j => 3 + (j - j)) :=
  ⟨fun i => by simp,
    (C9_reproducible parseZ25 "Z\x7b2,5\x7d" reZ25 10 (fun _ => 3) (fun j => 3 + (j - j))
      (fun i => by simp)).1⟩

/-- C10. When the parser rejects the text, `GenerateFromString` returns the empty string
with that same error and the stream untouched; when it accepts, the result is that of
`Generate` on the parsed tree with no error; so an error is returned exactly when the
parser rejects. -/
theorem C10_generate_from_string {E : Type} (Parse : String → Except E Regexp)
    (text : String) (limit : Int) (rand : Rand) :
    (∀ err, Parse text = .error err →
      GenerateFromString Parse text limit rand = .ok (([], some err), rand)) ∧
    (∀ regex, Parse text = .ok regex →
      GenerateFromString Parse text limit rand =
        match Generate regex limit rand with
        | .error e => .error e
        | .ok (res, _, rand1) => .ok ((res, none), rand1)) ∧
    (∀ out rand1, GenerateFromString Parse text limit rand = .ok (out, rand1) →
      (out.2 ≠ none ↔ ∃ err, Parse text = .error err)) := by
  refine ⟨fun err h => ?_, fun regex h => ?_, fun out rand1 h => ?_⟩
  · simp only [GenerateFromString, h]
  · simp only [GenerateFromString, h]
  · unfold GenerateFromString at h
    cases hp : Parse text with
    | error err =>
      simp only [hp, Except.ok.injEq, Prod.mk.injEq] at h
      rw [← h.1]
      simp
    | ok regex =>
      cases hg : Generate regex limit rand with
      | error e => simp only [hp, hg] at h; cases h
      | ok v =>
        obtain ⟨res, re1, rand2⟩ := v
        simp only [hp, hg, Except.ok.injEq, Prod.mk.injEq] at h
        rw [← h.1]
        simp

/-- Witness of C10: a rejected text comes back as the error, with the stream untouched. -/
theorem C10_generate_from_string_witness :
    parseZ25 "(" = .error "(" ∧
    GenerateFromString parseZ25 "(" 10 (fun _ => 3) = .ok (([], some "("), fun _ => 3) :=
  ⟨by simp [parseZ25],
    (C10_generate_from_string parseZ25 "(" 10 (fun _ => 3)).1 "(" (by simp [parseZ25])⟩

/-- C11. `generate` terminates on every tree, at every limit and on every stream: the
recursion is on the children of the node only, so a budget equal to the depth of the tree
is never exhausted, and every larger budget gives the result of `Generate`; and at a limit
`≥ 1` a call on a Star, Plus, Quest or Repeat node (whose `Min` is a Go `int`) either
panics on the draw of the count or makes a number of passes over the children that is at
most the largest of the limit, the limit as a `float64` and the `Min` of the node, hence at
most the larger of the limit and `Min` at every limit up to `2^53`. -/
theorem C11_termination (re : Regexp) (limit : Int) (rand : Rand) :
    Generate re limit rand ≠ .error .fuel ∧
    (∀ fuel : Nat, re.depth ≤ fuel →
      generate fuel { limit := limit } re rand = Generate re limit rand) ∧
    (1 ≤ limit → ∀ (fuel : Nat) (node : Regexp) (r : Rand),
      node.Op = .OpStar ∨ node.Op = .OpPlus ∨ node.Op = .OpQuest ∨ node.Op = .OpRepeat →
      -9223372036854775808 ≤ node.Min →
      generate (fuel + 1) { limit := limit } node r = .error .panic ∨
      ∃ (n : Nat) (node1 : Regexp) (r1 : Rand),
        (n : Int) ≤ max (max limit (float64 limit)) node.Min ∧
        (limit ≤ 9007199254740992 → (n : Int) ≤ max limit node.Min) ∧
        generate (fuel + 1) { limit := limit } node r =
          withSub node1 (genLoop (generate fuel { limit := limit }) n node.Sub r1)) := by
  refine ⟨?_, fun fuel hf => ?_, fun hlim fuel node r hop hmin => ?_⟩
  · exact (generate_settled { limit := limit } re.depth re le_rfl 0 re rand
      (CapOf_refl limit re)).2.1
  · have h := (generate_settled { limit := limit } re.depth re le_rfl (fuel - re.depth) re
      rand (CapOf_refl limit re)).1
    rw [show re.depth + (fuel - re.depth) = fuel by omega] at h
    exact h
  · exact loop_bound fuel { limit := limit } node r hlim hmin hop

/-- C12. On a class whose runes are pairs, with a range ending at `0x10ffff` and a printable
character inside a range, `generate` makes one draw and returns exactly one character: the
element at the drawn index of the 98-character printable alphabet filtered, in alphabet
order, by membership in a range; it belongs to the alphabet and lies inside a declared
range; the tree is left as it was.  The class of `[^1]` never yields '1'. -/
theorem C12_unbounded_class (fuel : Nat) (s : state) (re : Regexp) (rand : Rand)
    (hop : re.Op = .OpCharClass) (hev : evenRunes re.Rune = true)
    (hend : reachesEnd re.Rune = true) (hp : hasPrintable re.Rune = true) :
    (∃ c : Nat,
      (printableChars.filter (fun c : Nat => inClassB (c : Int) re.Rune)).get?
        ((rand 0 : Int) %
          ((printableChars.filter
            (fun c : Nat => inClassB (c : Int) re.Rune)).length : Int)).toNat = some c ∧
      c ∈ printableChars ∧ inClass (c : Int) re.Rune ∧
      generate (fuel + 1) s re rand = .ok ([c], re, rand.tail)) ∧
    printableChars.length = 98 ∧
    (∀ (r : Rand) (w : Str) (re1 : Regexp) (rand1 : Rand),
      generate (fuel + 1) s reNot1 r = .ok (w, re1, rand1) → w ≠ [49]) := by
  refine ⟨?_, by decide, fun r w re1 rand1 h => ?_⟩
  · obtain ⟨c, hget, hc, hin, e⟩ := genCharClass_unbounded re.Rune rand hev hend hp
    exact ⟨c, hget, hc, hin, by simp only [generate, hop, e]⟩
  · obtain ⟨c, _, _, hin, e⟩ := genCharClass_unbounded reNot1.Rune r (by decide) (by decide)
      (by decide)
    have hop1 : reNot1.Op = .OpCharClass := rfl
    simp only [generate, hop1, e, Except.ok.injEq, Prod.mk.injEq] at h
    rw [← h.1]
    intro hw
    simp only [List.cons.injEq, and_true] at hw
    subst hw
    simp [reNot1, Regexp.Rune, inClass] at hin

/-- Witness of C12 on the class of `[^1]`. -/
theorem C12_unbounded_class_witness :
    reNot1.Op = .OpCharClass ∧ evenRunes reNot1.Rune = true ∧
    reachesEnd reNot1.Rune = true ∧ hasPrintable reNot1.Rune = true ∧
    ∀ (r : Rand) (w : Str) (re1 : Regexp) (rand1 : Rand),
      generate 1 (state.mk 10) reNot1 r = .ok (w, re1, rand1) → w ≠ [49] :=
  ⟨rfl, by decide, by decide, by decide,
    (C12_unbounded_class 0 (state.mk 10) reNot1 (fun _ => 1) rfl (by decide) (by decide)
      (by decide)).2.2⟩

/-- C13 as stated fails on ranges that hold surrogates: on the class `[\x{D800}-\x{DFFF}]`
(one range, `lo ≤ hi < 0x10ffff`) the index 0 belongs to that range at offset 0, so the
stated code point is `0xd800`, but `generate` returns U+FFFD.  It also fails on a range
whose size is not an `int32`: on the class with the one range `[-0x80000000, 0]` the size
`2^31 + 1` wraps, the bound of the draw is negative and `rand.Intn` panics on every
stream. -/
theorem C13_counterexample :
    rangesOk reSurrogateClass.Rune = true ∧ reachesEnd reSurrogateClass.Rune = false ∧
    rangeAt reSurrogateClass.Rune 0 = some (0xd800, 0xdfff) ∧
    offsetAt reSurrogateClass.Rune 0 = 0 ∧
    (generate 1 (state.mk 1) reSurrogateClass (fun _ => 0)).str = some [0xfffd] ∧
    ([0xfffd] : Str) ≠ [Int.toNat (0xd800 + (0 - 0))] ∧
    rangesOk reLowClass.Rune = true ∧ reachesEnd reLowClass.Rune = false ∧
    classTotal reLowClass.Rune = 2147483649 ∧
    (∀ r : Rand, generate 1 (state.mk 1) reLowClass r = .error .panic) := by
  refine ⟨by decide, by decide, by decide, by decide, by decide, by decide, by decide,
    by decide, by decide, fun _ => rfl⟩

/-- C13, amended. On a class with a non-empty list of ranges `lo ≤ hi`, none ending at
`0x10ffff`, each made of `int32` runes and of at most `2^31` of them (so every range with
`0 ≤ lo`), with sizes summing to less than `2^63`, `generate` makes one draw, reduced to an index in `[0, total)` with `total` the
sum of the range sizes, and returns `string(ru)` for the rune `ru = lo + (index - offset)`
of the first range (in declared order) whose cumulative size exceeds the index: `offset` is
the sum of the sizes of the ranges before it, and `ru` lies inside that range.  When the
ranges are made of Unicode scalar values the result is exactly the one code point `ru`. -/
theorem C13_bounded_class (fuel : Nat) (s : state) (re : Regexp) (rand : Rand)
    (hop : re.Op = .OpCharClass) (hok : rangesOk re.Rune = true) (hne : re.Rune ≠ [])
    (hb : reachesEnd re.Rune = false) (hf : fitRanges re.Rune = true)
    (hT : classTotal re.Rune < 9223372036854775808) :
    0 ≤ (rand 0 : Int) % classTotal re.Rune ∧
    (rand 0 : Int) % classTotal re.Rune < classTotal re.Rune ∧
    ∃ (k : Nat) (lo hi ru : Int), rangeAt re.Rune k = some (lo, hi) ∧
      offsetAt re.Rune k ≤ (rand 0 : Int) % classTotal re.Rune ∧
      (rand 0 : Int) % classTotal re.Rune < offsetAt re.Rune k + ((hi - lo) + 1) ∧
      (∀ j : Nat, j < k → offsetAt re.Rune (j + 1) ≤ (rand 0 : Int) % classTotal re.Rune) ∧
      ru = lo + ((rand 0 : Int) % classTotal re.Rune - offsetAt re.Rune k) ∧
      lo ≤ ru ∧ ru ≤ hi ∧
      generate (fuel + 1) s re rand = .ok (stringOfRune ru, re, rand.tail) ∧
      (scalarRanges re.Rune = true → stringOfRune ru = [ru.toNat] ∧ (ru.toNat : Int) = ru) := by
  have hpos := classTotal_pos re.Rune hok hne
  have h0 := Int.emod_nonneg (rand 0 : Int) (show classTotal re.Rune ≠ 0 by omega)
  have h1 := Int.emod_lt_of_pos (rand 0 : Int) hpos
  obtain ⟨_, ru, e, hin, eg⟩ := genCharClass_bounded re.Rune rand hok hne hb hf hT
  obtain ⟨k, lo, hi, hr, ha, hb2, e2, hl, hh⟩ :=
    pickRune_owner ((rand 0 : Int) % classTotal re.Rune) re.Rune 0 hok hf le_rfl (by omega)
      h0 (by omega)
  rw [zero_add] at ha hb2 e2 hl hh
  rw [e2, Except.ok.injEq] at e
  refine ⟨h0, h1, k, lo, hi, ru, hr, ha, hb2, fun j hj => ?_, e.symm, ?_, ?_, ?_, fun hs => ?_⟩
  · exact le_trans (offsetAt_mono re.Rune (j + 1) k hok (by omega) ⟨_, hr⟩) ha
  · rw [← e]; exact hl
  · rw [← e]; exact hh
  · simp only [generate, hop, eg]
  · obtain ⟨e3, e4⟩ := stringOfRune_scalar ru (isScalar_of_inClass ru re.Rune hs hin)
    exact ⟨e3, Int.toNat_of_nonneg e4⟩

/-- Witness of C13 (amended) on the class `[0-2a-c]`: the draw 4 falls in the second range
at offset 3 and gives 'b'. -/
theorem C13_bounded_class_witness :
    reDigitsLetters.Op = .OpCharClass ∧ rangesOk reDigitsLetters.Rune = true ∧
    reDigitsLetters.Rune ≠ [] ∧ reachesEnd reDigitsLetters.Rune = false ∧
    fitRanges reDigitsLetters.Rune = true ∧
    classTotal reDigitsLetters.Rune < 9223372036854775808 ∧
    0 ≤ ((fun _ => 4 : Rand) 0 : Int) % classTotal reDigitsLetters.Rune ∧
    (generate 1 (state.mk 1) reDigitsLetters (fun _ => 4)).str = some [98] :=
  ⟨rfl, by decide, by decide, by decide, by decide, by decide,
    (C13_bounded_class 0 (state.mk 1) reDigitsLetters (fun _ => 4) rfl (by decide)
      (by decide) (by decide) (by decide) (by decide)).1, by decide⟩

/-- C14. An AnyChar node returns exactly one character, the one at the drawn index of the
printable alphabet, and an AnyCharNoNewline node the one at the drawn index of that alphabet
without its last two entries, which is never newline or carriage return; both make one
draw and leave the tree as it was; every character of the respective alphabet is returned
for some draw.  The alphabet is the digits, the lower- and upper-case letters, the
punctuation, then space, tab, newline and carriage return: 98 characters. -/
theorem C14_any_char (fuel : Nat) (s : state) (re : Regexp) :
    (re.Op = .OpAnyChar →
      (∀ rand : Rand, ∃ c : Nat,
        printableChars.get? ((rand 0 : Int) % (printableChars.length : Int)).toNat = some c ∧
        generate (fuel + 1) s re rand = .ok ([c], re, rand.tail)) ∧
      (∀ c ∈ printableChars, ∀ rest : Rand, ∃ d : Nat,
        generate (fuel + 1) s re (Rand.cons d rest) = .ok ([c], re, rest))) ∧
    (re.Op = .OpAnyCharNotNL →
      (∀ rand : Rand, ∃ c : Nat,
        printableCharsNoNL.get? ((rand 0 : Int) % (printableCharsNoNL.length : Int)).toNat
          = some c ∧ c ≠ 10 ∧ c ≠ 13 ∧
        generate (fuel + 1) s re rand = .ok ([c], re, rand.tail)) ∧
      (∀ c ∈ printableCharsNoNL, ∀ rest : Rand, ∃ d : Nat,
        generate (fuel + 1) s re (Rand.cons d rest) = .ok ([c], re, rest))) ∧
    printableChars = asciiDigits ++ asciiLower ++ asciiUpper ++ asciiPunct ++ [32, 9, 10, 13] ∧
    printableCharsNoNL = asciiDigits ++ asciiLower ++ asciiUpper ++ asciiPunct ++ [32, 9] ∧
    printableChars.length = 98 := by
  refine ⟨fun hop => ⟨fun rand => ?_, fun c hc rest => ?_⟩,
    fun hop => ⟨fun rand => ?_, fun c hc rest => ?_⟩, by decide, by decide, by decide⟩
  · obtain ⟨c, _, e, hget⟩ := genAnyChar_main printableChars rand (by decide)
    exact ⟨c, hget, by simp only [generate, hop, e]⟩
  · obtain ⟨d, e⟩ := genAnyChar_hit printableChars c hc rest
    exact ⟨d, by simp only [generate, hop, e]⟩
  · obtain ⟨c, hcm, e, hget⟩ := genAnyChar_main printableCharsNoNL rand (by decide)
    have hnl : ∀ x ∈ printableCharsNoNL, x ≠ 10 ∧ x ≠ 13 := by decide
    exact ⟨c, hget, (hnl c hcm).1, (hnl c hcm).2, by simp only [generate, hop, e]⟩
  · obtain ⟨d, e⟩ := genAnyChar_hit printableCharsNoNL c hc rest
    exact ⟨d, by simp only [generate, hop, e]⟩

/-- C15. An Alternate node with at least one child makes one draw `i` in `[0, k)`, `k` the
number of children, and returns exactly what `generate` returns for child `i` on the
remaining stream; in the tree left behind only child `i` is replaced; every child is
selected by some draw.  The tree of `(ab|bc)def` at limit 1 yields "abdef" or "bcdef" on
every stream, and both occur. -/
theorem C15_alternate (fuel : Nat) (s : state) (re : Regexp)
    (hop : re.Op = .OpAlternate) (hk : re.Sub ≠ []) :
    (∀ rand : Rand, ∃ (i : Nat) (child : Regexp),
      (i : Int) = (rand 0 : Int) % (re.Sub.length : Int) ∧ i < re.Sub.length ∧
      re.Sub.get? i = some child ∧
      generate (fuel + 1) s re rand =
        match generate fuel s child rand.tail with
        | .error e => .error e
        | .ok (w, child1, rand2) => .ok (w, re.setSub (re.Sub.set i child1), rand2)) ∧
    (∀ (j : Nat) (rest : Rand), j < re.Sub.length → ∃ (d : Nat) (child : Regexp),
      re.Sub.get? j = some child ∧
      generate (fuel + 1) s re (Rand.cons d rest) =
        match generate fuel s child rest with
        | .error e => .error e
        | .ok (w, child1, rand2) => .ok (w, re.setSub (re.Sub.set j child1), rand2)) ∧
    (∀ rand : Rand, (Generate reAbBcDef 1 rand).str = some [97, 98, 100, 101, 102] ∨
      (Generate reAbBcDef 1 rand).str = some [98, 99, 100, 101, 102]) ∧
    (Generate reAbBcDef 1 (fun _ => 0)).str = some [97, 98, 100, 101, 102] ∧
    (Generate reAbBcDef 1 (fun _ => 1)).str = some [98, 99, 100, 101, 102] := by
  have hpos : (0 : Int) < (re.Sub.length : Int) := by
    have := List.length_pos.mpr hk
    omega
  refine ⟨fun rand => ?_, fun j rest hj => ?_, fun rand => ?_, by decide, by decide⟩
  · have h0 := Int.emod_nonneg (rand 0 : Int) (show (re.Sub.length : Int) ≠ 0 by omega)
    have h1 := Int.emod_lt_of_pos (rand 0 : Int) hpos
    obtain ⟨child, e, _, hget⟩ := index_spec re.Sub _ h0 h1
    refine ⟨((rand 0 : Int) % (re.Sub.length : Int)).toNat, child,
      Int.toNat_of_nonneg h0, by omega, hget, ?_⟩
    simp only [generate, hop, Intn_pos rand _ hpos, e]
  · obtain ⟨child, e, _, hget⟩ := index_spec re.Sub (j : Int) (by omega) (by omega)
    rw [Int.toNat_ofNat] at hget
    have hmod : (j : Int) % (re.Sub.length : Int) = (j : Int) :=
      Int.emod_eq_of_lt (by omega) (by omega)
    refine ⟨j, child, hget, ?_⟩
    simp only [generate, hop, Intn_pos _ _ hpos, cons_zero, cons_tail, hmod, e,
      Int.toNat_ofNat]
  · have h0 := Int.emod_nonneg (rand 0 : Int) (show (2 : Int) ≠ 0 by omega)
    have h1 := Int.emod_lt_of_pos (rand 0 : Int) (show (0 : Int) < 2 by omega)
    have hI : rand.Intn 2 = .ok ((rand 0 : Int) % 2, rand.tail) := Intn_pos rand 2 (by omega)
    have hc : (rand 0 : Int) % 2 = 0 ∨ (rand 0 : Int) % 2 = 1 := by omega
    rcases hc with hc | hc
    · left
      rw [hc] at hI
      simp [Generate, generate, reAbBcDef, lit, Regexp.depth, depthList, depthOpt, Regexp.Op,
        Regexp.Sub, Regexp.Sub0, Regexp.Rune, genSubs, withSub, hI, index, literalString,
        stringOfRune, Res.str, Regexp.setSub, Regexp.setSub0]
    · right
      rw [hc] at hI
      simp [Generate, generate, reAbBcDef, lit, Regexp.depth, depthList, depthOpt, Regexp.Op,
        Regexp.Sub, Regexp.Sub0, Regexp.Rune, genSubs, withSub, hI, index, literalString,
        stringOfRune, Res.str, Regexp.setSub, Regexp.setSub0]

/-- Witness of C15 on the Alternate node of `(ab|bc)def`. -/
theorem C15_alternate_witness :
    reAbOrBc.Op = .OpAlternate ∧ reAbOrBc.Sub ≠ [] ∧
    (Generate reAbBcDef 1 (fun _ => 0)).str = some [97, 98, 100, 101, 102] :=
  ⟨rfl, List.cons_ne_nil _ _,
    (C15_alternate 1 (state.mk 1) reAbOrBc rfl (List.cons_ne_nil _ _)).2.2.2.1⟩

/-- C16 as stated fails on a literal that holds a surrogate: the tree of `^(ab)\x{D800}$` is
choice-free and its Literal leaves hold the code points `a`, `b`, `0xd800`, but `Generate`
returns `a`, `b`, U+FFFD. -/
theorem C16_counterexample :
    reAnchored.all choiceFreeNode = true ∧ leafRunes reAnchored = [97, 98, 0xd800] ∧
    (Generate reAnchored 1 (fun _ => 0)).str = some [97, 98, 0xfffd] ∧
    ([97, 98, 0xfffd] : Str).map Int.ofNat ≠ leafRunes reAnchored := by
  refine ⟨by decide, by decide, by decide, by decide⟩

/-- C16, amended. On every tree built only from NoMatch, EmptySequence, the six zero-width
assertions, Literal, Capture (with its child) and Concat, `Generate` consumes no draw and
leaves the tree as it was, and its result is the same at every limit and on every stream:
the strings `string(r)` of the runes of the Literal leaves concatenated in left-to-right
order, which are those code points verbatim when they are Unicode scalar values. -/
theorem C16_choice_free (re : Regexp) (limit : Int) (rand : Rand)
    (hre : re.all choiceFreeNode = true) :
    Generate re limit rand = .ok (literalString (leafRunes re), re, rand) ∧
    ((leafRunes re).all isScalar = true →
      (literalString (leafRunes re)).map Int.ofNat = leafRunes re) :=
  ⟨choiceFree_main { limit := limit } re.depth re le_rfl hre rand,
    literalString_scalar (leafRunes re)⟩

/-- Witness of C16 (amended) on the tree of `^(ab)def$`: "abdef" at limit 7. -/
theorem C16_choice_free_witness :
    reAnchoredAbDef.all choiceFreeNode = true ∧
    Generate reAnchoredAbDef 7 (fun _ => 5) =
      .ok (literalString (leafRunes reAnchoredAbDef), reAnchoredAbDef, fun _ => 5) ∧
    literalString (leafRunes reAnchoredAbDef) = [97, 98, 100, 101, 102] :=
  ⟨by decide, (C16_choice_free reAnchoredAbDef 7 (fun _ => 5) (by decide)).1, by decide⟩

/-- C17. A Concat node returns exactly when the calls on its children return, each child
called on the stream the child before it left and the first on the incoming stream; the
result is then the words of the children concatenated in child order, and the stream the
last child left: the node draws nothing itself (without children the stream comes back as
it came).  It fails exactly with the failure of the first child that fails. -/
theorem C17_concat (fuel : Nat) (s : state) (re : Regexp) (rand : Rand)
    (hop : re.Op = .OpConcat) :
    (∀ (w : Str) (re1 : Regexp) (rand1 : Rand),
      generate (fuel + 1) s re rand = .ok (w, re1, rand1) ↔
        ∃ subs1, Chain (generate fuel s) re.Sub rand w subs1 rand1 ∧ re1 = re.setSub subs1) ∧
    (∀ e : Fault, generate (fuel + 1) s re rand = .error e ↔
      ∃ (pre : List Regexp) (r : Regexp) (post : List Regexp) (w : Str)
        (pre1 : List Regexp) (rand1 : Rand),
        re.Sub = pre ++ r :: post ∧ Chain (generate fuel s) pre rand w pre1 rand1 ∧
        generate fuel s r rand1 = .error e) ∧
    (re.Sub = [] → generate (fuel + 1) s re rand = .ok ([], re, rand)) := by
  have hg : generate (fuel + 1) s re rand =
      withSub re (genSubs (generate fuel s) re.Sub rand) := by
    simp only [generate, hop]
  refine ⟨fun w re1 rand1 => ?_, fun e => ?_, fun h0 => ?_⟩
  · rw [hg]
    constructor
    · intro h
      cases h1 : genSubs (generate fuel s) re.Sub rand with
      | error e => rw [h1] at h; cases h
      | ok v =>
        obtain ⟨w2, subs1, rand2⟩ := v
        rw [h1] at h
        simp only [withSub, Except.ok.injEq, Prod.mk.injEq] at h
        obtain ⟨rfl, rfl, rfl⟩ := h
        exact ⟨subs1, (genSubs_ok_iff _ _ _ _ _ _).mp h1, rfl⟩
    · rintro ⟨subs1, hc, rfl⟩
      rw [(genSubs_ok_iff _ _ _ _ _ _).mpr hc]
      rfl
  · rw [hg, ← genSubs_error_iff]
    cases h1 : genSubs (generate fuel s) re.Sub rand with
    | error e1 =>
      simp only [withSub]
      constructor <;> intro h <;> cases h <;> rfl
    | ok v =>
      obtain ⟨w2, subs1, rand2⟩ := v
      simp only [withSub]
      constructor <;> intro h <;> cases h
  · rw [hg, h0]
    cases re
    simp only [Regexp.Sub] at h0
    subst h0
    rfl

/-- Witness of C17: the concatenation of the literals `ab` and `def` returns "abdef". -/
theorem C17_concat_witness :
    reAbDef.Op = .OpConcat ∧
    (generate 2 (state.mk 1) reAbDef (fun _ => 0) =
        .ok ([97, 98, 100, 101, 102], reAbDef, fun _ => 0) ↔
      ∃ subs1, Chain (generate 1 (state.mk 1)) reAbDef.Sub (fun _ => 0)
        [97, 98, 100, 101, 102] subs1 (fun _ => 0) ∧ reAbDef = reAbDef.setSub subs1) :=
  ⟨rfl, (C17_concat 1 (state.mk 1) reAbDef (fun _ => 0) rfl).1 _ _ _⟩

/-- C18 as stated fails on ranges that hold surrogates: the class `[\x{D800}-\x{D801}]` has
one range with `lo ≤ hi`, is bounded with total 2, and the indexes 0 and 1 both return
U+FFFD. -/
theorem C18_counterexample :
    rangesOk reTwoSurrogates.Rune = true ∧ reachesEnd reTwoSurrogates.Rune = false ∧
    disjointRanges reTwoSurrogates.Rune = true ∧ classTotal reTwoSurrogates.Rune = 2 ∧
    (generate 1 (state.mk 1) reTwoSurrogates (Rand.cons 0 (fun _ => 0))).str = some [0xfffd] ∧
    (generate 1 (state.mk 1) reTwoSurrogates (Rand.cons 1 (fun _ => 0))).str = some [0xfffd] := by
  refine ⟨by decide, by decide, by decide, by decide, by decide, by decide⟩

/-- C18, amended. On a bounded class whose ranges are non-empty (`lo ≤ hi`), pairwise
disjoint and made of Unicode scalar values, the map from the drawn index in `[0, total)` to
the returned code point is a bijection onto the union of the ranges: distinct indexes give
distinct code points, every index gives a code point of a range, and every code point of
every range is returned for exactly one index. -/
theorem C18_bounded_class_bijection (fuel : Nat) (s : state) (re : Regexp)
    (hop : re.Op = .OpCharClass) (hok : rangesOk re.Rune = true) (hne : re.Rune ≠ [])
    (hb : reachesEnd re.Rune = false) (hd : disjointRanges re.Rune = true)
    (hs : scalarRanges re.Rune = true) :
    (∀ (i j : Nat) (ri rj : Rand) (wi wj : Str) (rei rej : Regexp) (ri1 rj1 : Rand),
      (i : Int) < classTotal re.Rune → (j : Int) < classTotal re.Rune →
      generate (fuel + 1) s re (Rand.cons i ri) = .ok (wi, rei, ri1) →
      generate (fuel + 1) s re (Rand.cons j rj) = .ok (wj, rej, rj1) → wi = wj → i = j) ∧
    (∀ (i : Nat) (rest : Rand), (i : Int) < classTotal re.Rune →
      ∃ c : Nat, inClass (c : Int) re.Rune ∧
        generate (fuel + 1) s re (Rand.cons i rest) = .ok ([c], re, rest)) ∧
    (∀ c : Nat, inClass (c : Int) re.Rune →
      ∃ i : Nat, (i : Int) < classTotal re.Rune ∧
        (∀ rest : Rand, generate (fuel + 1) s re (Rand.cons i rest) = .ok ([c], re, rest)) ∧
        ∀ (j : Nat) (rest : Rand) (re1 : Regexp) (rand1 : Rand),
          (j : Int) < classTotal re.Rune →
          generate (fuel + 1) s re (Rand.cons j rest) = .ok ([c], re1, rand1) → j = i) := by
  have hf : fitRanges re.Rune = true := fitRanges_of_scalar re.Rune hs
  have hT : classTotal re.Rune < 9223372036854775808 := by
    have := classTotal_le_of_disjoint re.Rune hok hd hs
    omega
  have hgen : ∀ (i : Nat) (rest : Rand), (i : Int) < classTotal re.Rune →
      ∃ ru : Int, pickRune (i : Int) re.Rune 0 = .ok ru ∧ inClass ru re.Rune ∧ 0 ≤ ru ∧
        generate (fuel + 1) s re (Rand.cons i rest) = .ok ([ru.toNat], re, rest) := by
    intro i rest hi
    obtain ⟨ru, e, hin, eg⟩ := genCharClass_at re.Rune i rest hok hne hb hf hT hi
    obtain ⟨e3, e4⟩ := stringOfRune_scalar ru (isScalar_of_inClass ru re.Rune hs hin)
    exact ⟨ru, e, hin, e4, by simp only [generate, hop, eg, e3]⟩
  have hinj : ∀ (i j : Nat) (ri rj : Rand) (wi wj : Str) (rei rej : Regexp) (ri1 rj1 : Rand),
      (i : Int) < classTotal re.Rune → (j : Int) < classTotal re.Rune →
      generate (fuel + 1) s re (Rand.cons i ri) = .ok (wi, rei, ri1) →
      generate (fuel + 1) s re (Rand.cons j rj) = .ok (wj, rej, rj1) → wi = wj → i = j := by
    intro i j ri rj wi wj rei rej ri1 rj1 hi hj ei ej hw
    obtain ⟨ru1, p1, _, n1, g1⟩ := hgen i ri hi
    obtain ⟨ru2, p2, _, n2, g2⟩ := hgen j rj hj
    rw [g1, Except.ok.injEq, Prod.mk.injEq] at ei
    rw [g2, Except.ok.injEq, Prod.mk.injEq] at ej
    rw [← ei.1, ← ej.1, List.cons.injEq] at hw
    have hru : ru1 = ru2 := by
      have := hw.1
      omega
    have := pickRune_inj (i : Int) (j : Int) re.Rune 0 ru1 ru2 hok hd hf le_rfl (by omega)
      (by omega) (by omega) (by omega) (by omega) p1 p2 hru
    omega
  refine ⟨hinj, fun i rest hi => ?_, fun c hc => ?_⟩
  · obtain ⟨ru, _, hin, n, g⟩ := hgen i rest hi
    exact ⟨ru.toNat, by rw [Int.toNat_of_nonneg n]; exact hin, g⟩
  · obtain ⟨r, h1, h2, e⟩ := pickRune_surj (c : Int) re.Rune 0 hok hf le_rfl (by omega) hc
    rw [zero_add] at h2
    have hr : ((r.toNat : Nat) : Int) = r := Int.toNat_of_nonneg h1
    have hgi : ∀ rest : Rand,
        generate (fuel + 1) s re (Rand.cons r.toNat rest) = .ok ([c], re, rest) := by
      intro rest
      obtain ⟨ru, p, _, _, g⟩ := hgen r.toNat rest (by omega)
      rw [hr, e, Except.ok.injEq] at p
      rw [g, ← p, Int.toNat_ofNat]
    refine ⟨r.toNat, by omega, hgi, fun j rest re1 rand1 hj ej => ?_⟩
    exact hinj j r.toNat rest rest [c] [c] re1 re rand1 rest hj (by omega) ej (hgi rest) rfl

/-- Witness of C18 (amended) on the class `[0-2a-c]`: the index 4 gives 'b'. -/
theorem C18_bounded_class_bijection_witness :
    reDigitsLetters.Op = .OpCharClass ∧ rangesOk reDigitsLetters.Rune = true ∧
    reDigitsLetters.Rune ≠ [] ∧ reachesEnd reDigitsLetters.Rune = false ∧
    disjointRanges reDigitsLetters.Rune = true ∧ scalarRanges reDigitsLetters.Rune = true ∧
    ∃ c : Nat, inClass (c : Int) reDigitsLetters.Rune ∧
      generate 1 (state.mk 1) reDigitsLetters (Rand.cons 4 (fun _ => 0)) =
        .ok ([c], reDigitsLetters, fun _ => 0) :=
  ⟨rfl, by decide, by decide, by decide, by decide, by decide,
    (C18_bounded_class_bijection 0 (state.mk 1) reDigitsLetters rfl (by decide) (by decide)
      (by decide) (by decide) (by decide)).2.1 4 (fun _ => 0) (by decide)⟩

/-- C19. A call of `Generate` that returns leaves behind a version of the tree that differs
from it at most by `Max` fields replaced by the cap `capMax Max L`, which is
`int(math.Min(float64(Max), float64(L)))`; and on every such version (so after
any number of earlier calls at the same limit `L`, on whatever streams) `Generate` at limit
`L` fails in the same way or returns the same string and leaves the same stream as on the
tree as parsed.  The cap is idempotent: a Repeat node at the root holds `capMax Max L`
after the first call and still holds it after the second. -/
theorem C19_reuse_at_fixed_limit (re : Regexp) (L : Int) (rand0 rand : Rand) (w0 : Str)
    (reA : Regexp) (randA : Rand) (h : Generate re L rand0 = .ok (w0, reA, randA)) :
    CapOf L re reA ∧
    (Generate reA L rand).out = (Generate re L rand).out ∧
    (∀ re2 : Regexp, CapOf L re re2 → (Generate re2 L rand).out = (Generate re L rand).out) ∧
    (re.Op = .OpRepeat → reA.Max = capMax re.Max L ∧
      ∀ (w1 : Str) (reB : Regexp) (randB : Rand),
        Generate reA L rand = .ok (w1, reB, randB) → reB.Max = reA.Max) := by
  have hA : CapOf L re reA :=
    generate_capOf { limit := L } re.depth re re rand0 (CapOf_refl L re) w0 reA randA h
  have hall : ∀ re2 : Regexp, CapOf L re re2 →
      (Generate re2 L rand).out = (Generate re L rand).out := by
    intro re2 h2
    unfold Generate
    rw [CapOf_depth L re re2 h2]
    exact out_of_sameOut L re _ _
      (generate_stable { limit := L } re.depth re re2 re rand h2 (CapOf_refl L re))
  refine ⟨hA, hall reA hA, hall, fun hop => ?_⟩
  have hopA : reA.Op = .OpRepeat := by
    rw [(CapOf_fields L re reA hA).1, hop]
  have hmA : reA.Max = capMax re.Max L := by
    unfold Generate at h
    rw [depth_pos re] at h
    exact generate_repeat_Max { limit := L } _ re rand0 hop w0 reA randA h
  refine ⟨hmA, fun w1 reB randB hB => ?_⟩
  unfold Generate at hB
  rw [depth_pos reA] at hB
  rw [generate_repeat_Max { limit := L } _ reA rand hopA w1 reB randB hB, hmA]
  exact capMax_idem _ _

/-- Witness of C19: the tree of `Z{2,5}` after a call at limit 3. -/
theorem C19_reuse_at_fixed_limit_witness :
    Generate reZ25 3 (fun _ => 1) = .ok ([90, 90, 90], reZ25.setMax 3, fun _ => 1) ∧
    (Generate (reZ25.setMax 3) 3 (fun _ => 0)).out = (Generate reZ25 3 (fun _ => 0)).out :=
  ⟨rfl, (C19_reuse_at_fixed_limit reZ25 3 (fun _ => 1) (fun _ => 0) [90, 90, 90]
    (reZ25.setMax 3) (fun _ => 1) rfl).2.1⟩

/-- C20 as stated fails where the machine arithmetic wraps.  Each of these trees satisfies
the stated conditions and the limit is `≥ 1`, yet `generate` panics on every stream: on the
tree of `Z*` at limit `2^63 - 1` the bound `s.limit + 1` of the draw wraps to `-2^63`; on
the class with the range `[-1, 0x7fffffff]` the `int32` size of the range wraps and the
bound of the draw is negative; on a Repeat with `Min = -2^63` and `Max = 5` at limit 10 the
bound `re.Max - re.Min + 1` wraps to a negative value. -/
theorem C20_counterexample :
    reZStar.all statedSafeNode = true ∧
    (∀ r : Rand, Generate reZStar 9223372036854775807 r = .error .panic) ∧
    reWideClass.all statedSafeNode = true ∧
    (∀ r : Rand, Generate reWideClass 1 r = .error .panic) ∧
    reNegMin.all statedSafeNode = true ∧
    (∀ r : Rand, Generate reNegMin 10 r = .error .panic) :=
  ⟨by decide, fun _ => rfl, by decide, fun _ => rfl, by decide, fun _ => rfl⟩

/-- C20, amended. On every tree in which each class is a non-empty list of pairs `lo ≤ hi`
that holds a printable character or is bounded, with `int32` ranges of at most `2^31` code
points whose sizes sum to less than `2^63`, each Alternate has a child, each Capture has its
child and each Repeat has `0 ≤ Min`, at every limit in `[1, 2^63 - 2]`, on every stream and
with every budget of at least the depth of the tree, `generate` returns a string: no request
`rand.Intn(n)` with `n ≤ 0`, no index out of range and no nil child is reached.  The tree
left behind satisfies the same conditions, so the next call on it returns as well. -/
theorem C20_conditional_safety (re : Regexp) (limit : Int) (rand : Rand) (fuel : Nat)
    (hre : re.all safeNode = true) (hlim : 1 ≤ limit) (hmax : limit < 9223372036854775807)
    (hf : re.depth ≤ fuel) :
    ∃ (w : Str) (re1 : Regexp) (rand1 : Rand),
      generate fuel { limit := limit } re rand = .ok (w, re1, rand1) ∧
      Generate re limit rand = .ok (w, re1, rand1) ∧ re1.all safeNode = true ∧
      ∀ rand2 : Rand, ∃ (w2 : Str) (re2 : Regexp) (rand3 : Rand),
        Generate re1 limit rand2 = .ok (w2, re2, rand3) := by
  obtain ⟨w, re1, rand1, e, c, _⟩ :=
    generate_main { limit := limit } hlim hmax re.depth re le_rfl hre re rand
      (CapOf_refl limit re)
  have h := (generate_settled { limit := limit } re.depth re le_rfl (fuel - re.depth) re
    rand (CapOf_refl limit re)).1
  rw [show re.depth + (fuel - re.depth) = fuel by omega] at h
  refine ⟨w, re1, rand1, by rw [h, e], e, all_safe_of_CapOf limit re re1 c hre,
    fun rand2 => ?_⟩
  obtain ⟨w2, re2, rand3, e2, _, _⟩ :=
    generate_main { limit := limit } hlim hmax re.depth re le_rfl hre re1 rand2 c
  refine ⟨w2, re2, rand3, ?_⟩
  unfold Generate
  rw [CapOf_depth limit re re1 c]
  exact e2

/-- Witness of C20 (amended) on the tree of `(a{2,5}|[0-9]+)*x` at limit 3. -/
theorem C20_conditional_safety_witness :
    reNested.all safeNode = true ∧ (1 : Int) ≤ 3 ∧ (3 : Int) < 9223372036854775807 ∧
    reNested.depth ≤ 9 ∧
    ∃ (w : Str) (re1 : Regexp) (rand1 : Rand),
      generate 9 { limit := 3 } reNested (fun i => i) = .ok (w, re1, rand1) ∧
      Generate reNested 3 (fun i => i) = .ok (w, re1, rand1) ∧ re1.all safeNode = true ∧
      ∀ rand2 : Rand, ∃ (w2 : Str) (re2 : Regexp) (rand3 : Rand),
        Generate re1 3 rand2 = .ok (w2, re2, rand3) :=
  ⟨by decide, by decide, by decide, by decide,
    C20_conditional_safety reNested 3 (fun i => i) 9 (by decide) (by decide) (by decide)
      (by decide)⟩

end Reggen
